import Mathlib

/-!
# Shelter management system: allocation and prioritisation engine

A shallow embedding of `shelter.cpp`.  The global variables of the program
(`graph`, `nodeCount`, `homelessRecords`, `homelessList`, `shelters`,
`emergencyHeap`) become the fields of `State`; every function that reads or
writes them takes the state and returns the new one.  Console output is
dropped; what a function prints as its verdict becomes an outcome value.

Conventions.
* `int` values are mathematical integers.  Signed overflow is undefined in
  C++; the one computation in which the 32-bit range is part of the
  algorithm, `dist[u] + weight` next to the `INT_MAX` sentinel of
  `dijkstra`, is wrapped to 32 bits by `wrapInt`.
* `nodeCount` is the size of the vectors of `dijkstra`, a natural number.
* `operator[]` outside the bounds of a `vector` is undefined behaviour; the
  embedding returns `none` there, so a function that can index out of
  bounds has an `Option` result.
* `unordered_map<int, Homeless>` is a finite map, embedded as a function
  `Int → Option Homeless`.
* `priority_queue<EmergencyCase>` is kept as the `vector` it wraps, in the
  arrangement the heap functions of the GNU C++ library give it.
* A `std::string` is a `String` whose characters are its bytes.
* `time(0)` is a parameter `now` of the functions that call it.
* A loop or a recursion that does not follow the structure of its argument
  (`dijkstra`, `dfsUtil`, `mergeSort`, the auto-allocation) takes a bound on
  its iterations or its depth as first argument and returns `none` when the
  bound is used up; the loops of `merge` and of the heap functions take a
  bound too and stop at it.  The theorems show that the bound a caller
  passes is never used up.
-/

namespace ShelterSys

/-! ## Data structures -/

/-- The constant `INT_MAX` of `<climits>`. -/
def INT_MAX : Int := 2147483647

/-- Result of a 32-bit signed addition: the value reduced to the range
`[-2^31, 2^31)`. -/
def wrapInt (x : Int) : Int := (x + 2147483648) % 4294967296 - 2147483648

/-- The struct `Homeless`. -/
structure Homeless where
  id : Int
  name : String
  age : Int
  gender : String
  locationNodeID : Int
  medicalNeed : Bool
  priorityScore : Int
  complaint : String
  reportedAt : Int
  allocated : Bool
  allocatedShelterID : Int
deriving DecidableEq, Repr

/-- The struct `Shelter`. -/
structure Shelter where
  id : Int
  name : String
  nodeID : Int
  capacityTotal : Int
  capacityOccupied : Int
  contactNumber : String
  allocatedPersonIDs : List Int
deriving DecidableEq, Repr

/-- The struct `EmergencyCase`. -/
structure EmergencyCase where
  homelessID : Int
  priority : Int
  timeReported : Int
deriving DecidableEq, Repr

/-- The struct `Edge`. -/
structure Edge where
  dest : Int
  weight : Int
deriving DecidableEq, Repr

/-- The global data of the program. -/
structure State where
  graph : List (List Edge)
  nodeCount : Nat
  homelessRecords : Int → Option Homeless
  homelessList : List Homeless
  shelters : List Shelter
  emergencyHeap : List EmergencyCase

/-! ## Vector access -/

/-- Read `v[i]` for an `int` index: `none` outside the bounds. -/
def getAt {α : Type} (l : List α) : Int → Option α
  | Int.ofNat k => l.get? k
  | Int.negSucc _ => none

/-- Write `v[i] = a` for an `int` index the caller has checked. -/
def setAt {α : Type} (l : List α) : Int → α → List α
  | Int.ofNat k, a => l.set k a
  | Int.negSucc _, _ => l

/-! ## Dijkstra -/

/-- The ordering `greater<pair<int,int>>` inverts: `a < b` on pairs. -/
def pairLt (a b : Int × Int) : Bool :=
  decide (a.1 < b.1) || (decide (a.1 = b.1) && decide (a.2 < b.2))

/-- The `top()` of the min-priority queue: a least pair of the queue.
Equal pairs are indistinguishable, so the heap layout does not matter. -/
def pqTop : List (Int × Int) → Option (Int × Int)
  | [] => none
  | a :: rest =>
    match pqTop rest with
    | none => some a
    | some b => if pairLt b a then some b else some a

/-- The `for (const Edge& e : graph[u])` loop of `dijkstra`. -/
def relaxEdges (u : Int) : List Edge → List Int → List (Int × Int) →
    Option (List Int × List (Int × Int))
  | [], dist, pq => some (dist, pq)
  | e :: es, dist, pq =>
    match getAt dist u with
    | none => none
    | some du =>
      if du = INT_MAX then relaxEdges u es dist pq
      else
        match getAt dist e.dest with
        | none => none
        | some dv =>
          if wrapInt (du + e.weight) < dv then
            relaxEdges u es (setAt dist e.dest (wrapInt (du + e.weight)))
              ((wrapInt (du + e.weight), e.dest) :: pq)
          else relaxEdges u es dist pq

/-- The `while (!pq.empty())` loop of `dijkstra`, one iteration per unit of
fuel; `none` when the fuel runs out or an index leaves its vector. -/
def dijkstraLoop (g : List (List Edge)) :
    Nat → List Int → List Bool → List (Int × Int) → Option (List Int)
  | 0, _, _, _ => none
  | fuel + 1, dist, visited, pq =>
    match pqTop pq with
    | none => some dist
    | some top =>
      match getAt visited top.2 with
      | none => none
      | some true => dijkstraLoop g fuel dist visited (pq.erase top)
      | some false =>
        match getAt g top.2 with
        | none => none
        | some adj =>
          match relaxEdges top.2 adj dist (pq.erase top) with
          | none => none
          | some (dist2, pq2) =>
            dijkstraLoop g fuel dist2 (setAt visited top.2 true) pq2

/-- Number of edges of the graph. -/
def edgeCount (g : List (List Edge)) : Nat := (g.map List.length).sum

/-- The function `dijkstra(source)`.  Every iteration of the loop pops one
queue entry and the queue receives at most one entry per edge besides the
source, so `edgeCount g + 2` units of fuel let the loop run to its end. -/
def dijkstra (g : List (List Edge)) (nodeCount : Nat) (source : Int) : Option (List Int) :=
  match getAt (List.replicate nodeCount INT_MAX) source with
  | none => none
  | some _ =>
    dijkstraLoop g (edgeCount g + 2)
      (setAt (List.replicate nodeCount INT_MAX) source 0)
      (List.replicate nodeCount false)
      [(0, source)]

/-! ## Hash table of records -/

/-- The function `searchHomeless(id)`: the record stored under `id`. -/
def searchHomeless (st : State) (id : Int) : Option Homeless := st.homelessRecords id

/-- The assignment `homelessRecords[id] = h`. -/
def storeRecord (records : Int → Option Homeless) (id : Int) (h : Homeless) :
    Int → Option Homeless :=
  fun k => if k = id then some h else records k

/-- The function `addHomelessRecord(h)`; `now` is the value of `time(0)`. -/
def addHomelessRecord (st : State) (h : Homeless) (now : Int) : Bool × State :=
  if (st.homelessRecords h.id).isSome then (false, st)
  else if h.locationNodeID < 0 ∨ h.locationNodeID ≥ (st.nodeCount : Int) then (false, st)
  else
    let h1 : Homeless :=
      { h with allocated := false, allocatedShelterID := -1, reportedAt := now,
               priorityScore := 0 }
    (true, { st with homelessRecords := storeRecord st.homelessRecords h1.id h1,
                     homelessList := st.homelessList ++ [h1] })

/-! ## Rabin-Karp and the priority score -/

/-- The value of a `char` of a string: a byte read as a signed 8-bit number. -/
def charVal (c : Char) : Int :=
  if c.toNat % 256 < 128 then ((c.toNat % 256 : Nat) : Int) else ((c.toNat % 256 : Nat) : Int) - 256

/-- The characters of a `std::string` as `char` values. -/
def chars (s : String) : List Int := s.toList.map charVal

/-- The `::tolower` of the C locale on a `char` value. -/
def toLowerVal (c : Int) : Int := if 65 ≤ c ∧ c ≤ 90 then c + 32 else c

/-- The `transform(..., ::tolower)` over a string, as `char` values. -/
def lowerChars (s : String) : List Int := (chars s).map toLowerVal

/-- The first loop of `rabinKarpSearch`: `h = (h * d) % q`, `m - 1` times. -/
def rkPow : Nat → Int → Int
  | 0, h => h
  | k + 1, h => rkPow k (Int.tmod (h * 256) 101)

/-- The second loop of `rabinKarpSearch` on one string: the hash of its
first characters. -/
def rkHash (cs : List Int) : Int := cs.foldl (fun p c => Int.tmod (256 * p + c) 101) 0

/-- The third loop of `rabinKarpSearch`: `k` windows remain, the current one
starts at `i` and has hash `t`. -/
def rkScan (text pattern : List Int) (h p : Int) : Nat → Nat → Int → Bool
  | 0, _, _ => false
  | k + 1, i, t =>
    if p = t ∧ (text.drop i).take pattern.length = pattern then true
    else if k = 0 then false
    else
      let t1 := Int.tmod (256 * (t - text.getD i 0 * h) + text.getD (i + pattern.length) 0) 101
      rkScan text pattern h p k (i + 1) (if t1 < 0 then t1 + 101 else t1)

/-- The function `rabinKarpSearch(text, pattern)` on `char` values. -/
def rabinKarpSearch (text pattern : List Int) : Bool :=
  if pattern.length > text.length ∨ pattern.length = 0 then false
  else
    rkScan text pattern (rkPow (pattern.length - 1) 1) (rkHash pattern)
      (text.length - pattern.length + 1) 0 (rkHash (text.take pattern.length))

/-- The priority computed by `calculatePriority(h)`. -/
def priorityOf (h : Homeless) : Int :=
  let complaint := lowerChars h.complaint
  (if h.age < 12 then 50 else if h.age > 65 then 40 else if h.age > 55 then 20 else 0)
  + (if h.gender = "Female" ∨ h.gender = "female" then 30 else 0)
  + (if h.medicalNeed then 60 else 0)
  + (if rabinKarpSearch complaint (chars "emergency") then 70 else 0)
  + (if rabinKarpSearch complaint (chars "critical") then 60 else 0)
  + (if rabinKarpSearch complaint (chars "medical") then 50 else 0)
  + (if rabinKarpSearch complaint (chars "child") then 40 else 0)
  + (if rabinKarpSearch complaint (chars "urgent") then 45 else 0)
  + (if rabinKarpSearch complaint (chars "danger") then 55 else 0)

/-- The function `calculatePriority(h)`: the returned value and the record
with its `priorityScore` overwritten. -/
def calculatePriority (h : Homeless) : Int × Homeless :=
  (priorityOf h, { h with priorityScore := priorityOf h })

/-! ## Allocation -/

/-- What `allocateShelter` reports. `unmatched` stands for the run in which
the update loop meets no shelter with the selected id and prints nothing. -/
inductive AllocOutcome where
  | notFound
  | alreadyAllocated
  | noAvailableShelter
  | success (shelterID : Int) (minDist : Int)
  | unmatched
deriving DecidableEq, Repr

/-- The evaluation loop of `allocateShelter`: `bestShelter` and `minDist`
after scanning the shelters against `distances`. -/
def selectShelter (distances : List Int) : List Shelter → Int → Int → Option (Int × Int)
  | [], bestShelter, minDist => some (bestShelter, minDist)
  | s :: rest, bestShelter, minDist =>
    match getAt distances s.nodeID with
    | none => none
    | some d =>
      if s.capacityTotal - s.capacityOccupied > 0 ∧ d ≠ INT_MAX then
        if d < minDist then selectShelter distances rest s.id d
        else selectShelter distances rest bestShelter minDist
      else selectShelter distances rest bestShelter minDist

/-- The update loop of `allocateShelter`: the first shelter whose id is
`bestShelter` gets one more occupant; `none` when no shelter has that id. -/
def occupyShelter (bestShelter homelessID : Int) : List Shelter → Option (List Shelter)
  | [] => none
  | s :: rest =>
    if s.id = bestShelter then
      some ({ s with capacityOccupied := s.capacityOccupied + 1,
                     allocatedPersonIDs := s.allocatedPersonIDs ++ [homelessID] } :: rest)
    else (occupyShelter bestShelter homelessID rest).map (fun r => s :: r)

/-- The function `allocateShelter(homelessID)`. -/
def allocateShelter (st : State) (homelessID : Int) : Option (AllocOutcome × State) :=
  match searchHomeless st homelessID with
  | none => some (AllocOutcome.notFound, st)
  | some h =>
    if h.allocated then some (AllocOutcome.alreadyAllocated, st)
    else
      match dijkstra st.graph st.nodeCount h.locationNodeID with
      | none => none
      | some distances =>
        match selectShelter distances st.shelters (-1) INT_MAX with
        | none => none
        | some (bestShelter, minDist) =>
          if bestShelter = -1 then some (AllocOutcome.noAvailableShelter, st)
          else
            match occupyShelter bestShelter homelessID st.shelters with
            | none => some (AllocOutcome.unmatched, st)
            | some shelters2 =>
              some (AllocOutcome.success bestShelter minDist,
                { st with
                  shelters := shelters2,
                  homelessRecords := storeRecord st.homelessRecords homelessID
                    { h with allocated := true, allocatedShelterID := bestShelter } })

/-! ## Release and capacity update (shelterManagementMenu, cases 7 and 5) -/

/-- What the release operation reports. `noShelter` stands for the run in
which no shelter has the request's `allocatedShelterID` and nothing is
printed. -/
inductive ReleaseOutcome where
  | notFound
  | notAllocated
  | released (shelterID : Int)
  | noShelter
deriving DecidableEq, Repr

/-- The loop of the release operation: the first shelter whose id is
`shelterID` loses one occupant and the first occurrence of `id`. -/
def vacateShelter (shelterID id : Int) : List Shelter → Option (List Shelter)
  | [] => none
  | s :: rest =>
    if s.id = shelterID then
      some ({ s with capacityOccupied := s.capacityOccupied - 1,
                     allocatedPersonIDs := s.allocatedPersonIDs.erase id } :: rest)
    else (vacateShelter shelterID id rest).map (fun r => s :: r)

/-- The release operation, `shelterManagementMenu` case 7, for the id read
from the console. -/
def releasePerson (st : State) (id : Int) : ReleaseOutcome × State :=
  match searchHomeless st id with
  | none => (ReleaseOutcome.notFound, st)
  | some h =>
    if !h.allocated then (ReleaseOutcome.notAllocated, st)
    else
      match vacateShelter h.allocatedShelterID id st.shelters with
      | none => (ReleaseOutcome.noShelter, st)
      | some shelters2 =>
        (ReleaseOutcome.released h.allocatedShelterID,
          { st with
            shelters := shelters2,
            homelessRecords := storeRecord st.homelessRecords id
              { h with allocated := false, allocatedShelterID := -1 } })

/-- What the update-capacity operation reports. -/
inductive CapacityOutcome where
  | notFound
  | belowOccupancy
  | updated
deriving DecidableEq, Repr

/-- The loop of the update-capacity operation on the shelter list. -/
def updateCapacityLoop (shelterID newCap : Int) : List Shelter → CapacityOutcome × List Shelter
  | [] => (CapacityOutcome.notFound, [])
  | s :: rest =>
    if s.id = shelterID then
      if newCap ≥ s.capacityOccupied then
        (CapacityOutcome.updated, { s with capacityTotal := newCap } :: rest)
      else (CapacityOutcome.belowOccupancy, s :: rest)
    else ((updateCapacityLoop shelterID newCap rest).1,
          s :: (updateCapacityLoop shelterID newCap rest).2)

/-- The update-capacity operation, `shelterManagementMenu` case 5, for the
shelter id and the new capacity read from the console. -/
def updateCapacity (st : State) (shelterID newCap : Int) : CapacityOutcome × State :=
  ((updateCapacityLoop shelterID newCap st.shelters).1,
   { st with shelters := (updateCapacityLoop shelterID newCap st.shelters).2 })

/-! ## Emergency queue

`priority_queue<EmergencyCase>` keeps its entries in a `vector` arranged as
a binary heap; `push` is `push_back` followed by `std::push_heap`, `top` is
the front of the vector and `pop` is `std::pop_heap` followed by
`pop_back`.  Which of several entries of the greatest priority is on top
depends on that arrangement, so the embedding keeps the vector and follows
the heap algorithms of the GNU C++ library (`bits/stl_heap.h`). -/

/-- The comparison `EmergencyCase::operator<`. -/
def EmergencyCase.less (a b : EmergencyCase) : Bool := decide (a.priority < b.priority)

/-- The library function `__push_heap(first, holeIndex, topIndex, value)`:
the hole climbs while its parent is less than `value`, then receives
`value`.  The first argument bounds the iterations of the loop. -/
def pushHeap : Nat → List EmergencyCase → Nat → Nat → EmergencyCase → List EmergencyCase
  | 0, v, holeIndex, _, value => v.set holeIndex value
  | fuel + 1, v, holeIndex, topIndex, value =>
    match v[(holeIndex - 1) / 2]? with
    | none => v.set holeIndex value
    | some parent =>
      if holeIndex > topIndex ∧ parent.less value then
        pushHeap fuel (v.set holeIndex parent) ((holeIndex - 1) / 2) topIndex value
      else v.set holeIndex value

/-- The `while` loop of the library function `__adjust_heap`: the hole
descends to the child that is not less than the other, as long as it has
two children.  Returns the vector and the index of the hole; the first
argument bounds the iterations. -/
def adjustLoop : Nat → List EmergencyCase → Nat → Nat → List EmergencyCase × Nat
  | 0, v, holeIndex, _ => (v, holeIndex)
  | fuel + 1, v, holeIndex, len =>
    if holeIndex < (len - 1) / 2 then
      match v[2 * (holeIndex + 1)]?, v[2 * (holeIndex + 1) - 1]? with
      | some right, some left =>
        if right.less left then
          adjustLoop fuel (v.set holeIndex left) (2 * (holeIndex + 1) - 1) len
        else adjustLoop fuel (v.set holeIndex right) (2 * (holeIndex + 1)) len
      | _, _ => (v, holeIndex)
    else (v, holeIndex)

/-- The library function `__adjust_heap(first, holeIndex, len, value)`: the
loop, the step for a hole whose only child is the last entry, and
`__push_heap` from the hole reached. -/
def adjustHeap (v : List EmergencyCase) (holeIndex len : Nat) (value : EmergencyCase) :
    List EmergencyCase :=
  let r := adjustLoop len v holeIndex len
  if len % 2 = 0 ∧ r.2 = (len - 2) / 2 then
    match r.1[2 * (r.2 + 1) - 1]? with
    | some left => pushHeap len (r.1.set r.2 left) (2 * (r.2 + 1) - 1) holeIndex value
    | none => pushHeap len r.1 r.2 holeIndex value
  else pushHeap len r.1 r.2 holeIndex value

/-- The member `priority_queue::push(e)` on the vector `v`. -/
def queuePush (v : List EmergencyCase) (e : EmergencyCase) : List EmergencyCase :=
  pushHeap (v.length + 1) (v ++ [e]) v.length 0 e

/-- The member `priority_queue::pop()` on the vector `v`: `std::pop_heap`
moves the last entry through `__adjust_heap` when the vector has more than
one entry, and `pop_back` drops the entry moved to the end. -/
def queuePop (v : List EmergencyCase) : List EmergencyCase :=
  match v.getLast? with
  | none => v
  | some value =>
    if v.length > 1 then adjustHeap v.dropLast 0 (v.length - 1) value else []

/-- The function `addEmergencyCase(e)`. -/
def addEmergencyCase (st : State) (e : EmergencyCase) : State :=
  { st with emergencyHeap := queuePush st.emergencyHeap e }

/-- The function `getNextEmergency()`: `top()` is the front of the vector. -/
def getNextEmergency (st : State) : EmergencyCase × State :=
  match st.emergencyHeap with
  | [] => (⟨-1, -1, 0⟩, st)
  | top :: _ => (top, { st with emergencyHeap := queuePop st.emergencyHeap })

/-- The heap arrangement of a vector: no entry is greater than its parent,
the entry at index `(i - 1) / 2`. -/
def IsHeap (v : List EmergencyCase) : Prop :=
  ∀ i x y, 0 < i → v[i]? = some x → v[(i - 1) / 2]? = some y → x.priority ≤ y.priority

/-- The vectors a `priority_queue<EmergencyCase>` can hold: the empty one,
and what `push` and `pop` make of such a vector. -/
inductive IsQueue : List EmergencyCase → Prop where
  | empty : IsQueue []
  | push {v : List EmergencyCase} (e : EmergencyCase) : IsQueue v → IsQueue (queuePush v e)
  | pop {v : List EmergencyCase} : IsQueue v → IsQueue (queuePop v)

/-- The vector `a` is arranged as a heap except that the entry at `h` may
be greater than its parent; the children of `h` are not greater than the
parent of `h`. -/
def UpInv (a : List EmergencyCase) (h : Nat) : Prop :=
  (∀ i x y, 0 < i → i ≠ h → a[i]? = some x → a[(i - 1) / 2]? = some y →
    x.priority ≤ y.priority) ∧
  (∀ j x y, 0 < h → 0 < j → (j - 1) / 2 = h → a[j]? = some x → a[(h - 1) / 2]? = some y →
    x.priority ≤ y.priority)

/-- The vector `v` has a hole at `h` on its way down: the heap relation
holds between every entry and its parent when neither is the hole, and the
children of the hole are not greater than the parent of the hole. -/
def DownInv (v : List EmergencyCase) (h : Nat) : Prop :=
  (∀ i x y, 0 < i → i ≠ h → (i - 1) / 2 ≠ h → v[i]? = some x → v[(i - 1) / 2]? = some y →
    x.priority ≤ y.priority) ∧
  (∀ j x y, 0 < h → 0 < j → (j - 1) / 2 = h → v[j]? = some x → v[(h - 1) / 2]? = some y →
    x.priority ≤ y.priority)

/-! ## Sample data -/

/-- The graph built by `initializeSampleData`. -/
def sampleGraph : List (List Edge) :=
  [ [⟨1, 5⟩, ⟨2, 10⟩], [⟨0, 5⟩, ⟨3, 7⟩, ⟨4, 12⟩], [⟨0, 10⟩, ⟨5, 8⟩], [⟨1, 7⟩, ⟨6, 6⟩],
    [⟨1, 12⟩, ⟨7, 9⟩], [⟨2, 8⟩, ⟨8, 11⟩], [⟨3, 6⟩, ⟨9, 4⟩], [⟨4, 9⟩, ⟨10, 7⟩],
    [⟨5, 11⟩, ⟨11, 5⟩], [⟨6, 4⟩, ⟨12, 8⟩], [⟨7, 7⟩, ⟨13, 6⟩], [⟨8, 5⟩, ⟨14, 10⟩],
    [⟨9, 8⟩], [⟨10, 6⟩], [⟨11, 10⟩] ]

/-- The shelters built by `initializeSampleData`. -/
def sampleShelters : List Shelter :=
  [ ⟨1, "Hope Shelter", 4, 50, 35, "9876543210", []⟩,
    ⟨2, "Care Center", 7, 40, 28, "9876543211", []⟩,
    ⟨3, "Safe Haven", 10, 60, 45, "9876543212", []⟩,
    ⟨4, "Community Home", 13, 30, 15, "9876543213", []⟩ ]

/-- The vector `samples` of `initializeSampleData`. -/
def sampleRecords (now : Int) : List Homeless :=
  [ ⟨101, "Ramesh Kumar", 45, "Male", 0, false, 0, "Need food urgently", now, false, -1⟩,
    ⟨102, "Lakshmi Devi", 65, "Female", 1, true, 0, "Medical help needed", now, false, -1⟩,
    ⟨103, "Anita", 8, "Female", 2, false, 0, "Child alone, scared", now, false, -1⟩,
    ⟨104, "Suresh", 32, "Male", 3, false, 0, "Looking for shelter", now, false, -1⟩,
    ⟨105, "Meera", 70, "Female", 5, true, 0, "Emergency medical case", now, false, -1⟩ ]

/-- One iteration of the loop over `samples` in `initializeSampleData`. -/
def loadSample (now : Int) (st : State) (h : Homeless) : State :=
  { st with
    homelessRecords := storeRecord st.homelessRecords h.id (calculatePriority h).2,
    homelessList := st.homelessList ++ [(calculatePriority h).2],
    emergencyHeap :=
      if (calculatePriority h).1 > 80 then
        queuePush st.emergencyHeap ⟨h.id, (calculatePriority h).1, now⟩
      else st.emergencyHeap }

/-- The function `initializeSampleData()`, run on the empty globals; `now`
is the value of `time(0)`. -/
def initializeSampleData (now : Int) : State :=
  (sampleRecords now).foldl (loadSample now)
    { graph := sampleGraph, nodeCount := 15, homelessRecords := fun _ => none,
      homelessList := [], shelters := sampleShelters, emergencyHeap := [] }

/-! ## Reachable states and paths -/

/-- The states the program reaches from the sample data through
`addHomelessRecord`, `allocateShelter`, the release operation and the
update-capacity operation. -/
inductive Reachable : State → Prop where
  | init (now : Int) : Reachable (initializeSampleData now)
  | add {st : State} (h : Homeless) (now : Int) :
      Reachable st → Reachable (addHomelessRecord st h now).2
  | allocate {st st2 : State} {r : AllocOutcome} (id : Int) :
      Reachable st → allocateShelter st id = some (r, st2) → Reachable st2
  | release {st : State} (id : Int) : Reachable st → Reachable (releasePerson st id).2
  | capacity {st : State} (shelterID newCap : Int) :
      Reachable st → Reachable (updateCapacity st shelterID newCap).2

/-- An edge of weight `w` from `u` to `v` in the adjacency lists. -/
def HasEdge (g : List (List Edge)) (u v w : Int) : Prop :=
  ∃ adj, getAt g u = some adj ∧ (⟨v, w⟩ : Edge) ∈ adj

/-- A directed path from `s`: `Path g s v d k` is a path to `v` of total
weight `d` made of `k` edges. -/
inductive Path (g : List (List Edge)) (s : Int) : Int → Int → Nat → Prop where
  | start : Path g s s 0 0
  | step {u v w d : Int} {k : Nat} :
      Path g s u d k → HasEdge g u v w → Path g s v (d + w) (k + 1)

/-- A shelter that qualifies for a request: it has a free bed and the
distance vector holds a finite distance `d` at its node. -/
def Candidate (distances : List Int) (s : Shelter) (d : Int) : Prop :=
  s.capacityOccupied < s.capacityTotal ∧ getAt distances s.nodeID = some d ∧ d ≠ INT_MAX

/-- The shelter after `allocateShelter` has put `homelessID` into it. -/
def Shelter.occupy (s : Shelter) (homelessID : Int) : Shelter :=
  { s with capacityOccupied := s.capacityOccupied + 1,
           allocatedPersonIDs := s.allocatedPersonIDs ++ [homelessID] }

/-! ## Small states -/

/-- A request at node 0, not allocated. -/
def tinyRecord : Homeless := ⟨7, "P", 30, "Male", 0, false, 0, "", 0, false, -1⟩

/-- A state over the one-node graph that stores `tinyRecord` under id 7 and
has the given shelters. -/
def tinyState (shelters : List Shelter) : State :=
  { graph := [[]], nodeCount := 1,
    homelessRecords := storeRecord (fun _ => none) 7 tinyRecord,
    homelessList := [tinyRecord], shelters := shelters, emergencyHeap := [] }

/-- A single shelter all of whose beds are taken. -/
def fullShelter : List Shelter := [⟨1, "A", 0, 1, 1, "", []⟩]

/-- The sample state after `allocateShelter(101)`. -/
def sampleAfter101 : State :=
  match allocateShelter (initializeSampleData 0) 101 with
  | some (_, st) => st
  | none => initializeSampleData 0

/-- A single shelter with a free bed whose id is the value -1. -/
def minusOneShelter : List Shelter := [⟨-1, "A", 0, 1, 0, "", []⟩]

/-! ## Consistency of shelters and records -/

/-- The `capacityOccupied` that `initializeSampleData` gives the shelter
with the given id (0 for an id the sample data does not use). -/
def initialOccupied (id : Int) : Int :=
  match sampleShelters.find? (fun s => decide (s.id = id)) with
  | some s => s.capacityOccupied
  | none => 0

/-- The relation between shelters and records that the operations keep. -/
structure Consistent (st : State) : Prop where
  ids : (st.shelters.map Shelter.id).Nodup
  occ : ∀ s ∈ st.shelters,
    s.capacityOccupied = initialOccupied s.id + (s.allocatedPersonIDs.length : Int)
  cap : ∀ s ∈ st.shelters, s.capacityOccupied ≤ s.capacityTotal
  key : ∀ id rec, st.homelessRecords id = some rec → rec.id = id
  bound : ∀ id rec, st.homelessRecords id = some rec → rec.allocated = true →
    ∃ s ∈ st.shelters, s.id = rec.allocatedShelterID ∧ id ∈ s.allocatedPersonIDs
  listed : ∀ s ∈ st.shelters, ∀ x ∈ s.allocatedPersonIDs,
    ∃ rec, st.homelessRecords x = some rec ∧ rec.allocated = true ∧
      rec.allocatedShelterID = s.id
  nodup : ∀ s ∈ st.shelters, s.allocatedPersonIDs.Nodup

/-! ## Bookkeeping for the Dijkstra loop -/

/-- Number of edges that leave the nodes not yet visited: the queue entries
the loop can still create. -/
def pendingEdges : List (List Edge) → List Bool → Nat
  | adj :: g, b :: visited => (if b then 0 else adj.length) + pendingEdges g visited
  | _, _ => 0

/-- The graph has `n` adjacency lists and every edge ends at a node. -/
def WellFormed (g : List (List Edge)) (n : Nat) : Prop :=
  g.length = n ∧ ∀ adj ∈ g, ∀ e ∈ adj, 0 ≤ e.dest ∧ e.dest < (n : Int)

/-- The graph, the source and the weights for which `dijkstra` is analysed:
well-formed adjacency lists, non-negative weights, a source inside the
graph, and every path from the source of at most `n` edges lighter than
`INT_MAX`. -/
structure Setting (g : List (List Edge)) (n : Nat) (s : Int) : Prop where
  wf : WellFormed g n
  nonneg : ∀ adj ∈ g, ∀ e ∈ adj, 0 ≤ e.weight
  src0 : 0 ≤ s
  src1 : s < (n : Int)
  bounded : ∀ v d k, Path g s v d k → k ≤ n → d < INT_MAX

/-- Number of nodes marked visited. -/
def visitedCount (visited : List Bool) : Nat := visited.count true

/-- Invariant of the `for` loop of `dijkstra` while the edges `es` of the
node `u` (at distance `du`, already marked visited) remain to be relaxed. -/
structure RelaxInv (g : List (List Edge)) (n : Nat) (s u du : Int) (es : List Edge)
    (visited : List Bool) (dist : List Int) (pq : List (Int × Int)) : Prop where
  len_d : dist.length = n
  len_v : visited.length = n
  src : ∃ d, getAt dist s = some d ∧ d ≤ 0
  cur : getAt dist u = some du ∧ getAt visited u = some true ∧ du ≠ INT_MAX
  sound : ∀ v d, getAt dist v = some d → d ≠ INT_MAX →
    ∃ k, Path g s v d k ∧ k ≤ visitedCount visited ∧
      (getAt visited v = some true → k + 1 ≤ visitedCount visited)
  pqok : ∀ p ∈ pq, p.1 < INT_MAX ∧ ∃ d, getAt dist p.2 = some d ∧ d ≤ p.1
  pend : ∀ v d, getAt dist v = some d → d ≠ INT_MAX → getAt visited v = some false →
    (d, v) ∈ pq
  umax : ∀ x dx, getAt visited x = some true → getAt dist x = some dx → dx ≤ du
  umin : ∀ v dv, getAt visited v = some false → getAt dist v = some dv → du ≤ dv
  relaxed : ∀ x adj e dx, getAt visited x = some true → getAt g x = some adj → e ∈ adj →
    (x = u → e ∉ es) → getAt dist x = some dx →
    ∃ dv, getAt dist e.dest = some dv ∧ dv ≤ dx + e.weight

/-- Invariant of the `while` loop of `dijkstra`. -/
structure LoopInv (g : List (List Edge)) (n : Nat) (s : Int)
    (visited : List Bool) (dist : List Int) (pq : List (Int × Int)) : Prop where
  len_d : dist.length = n
  len_v : visited.length = n
  src : ∃ d, getAt dist s = some d ∧ d ≤ 0
  sound : ∀ v d, getAt dist v = some d → d ≠ INT_MAX →
    ∃ k, Path g s v d k ∧ k ≤ visitedCount visited ∧
      (getAt visited v = some true → k + 1 ≤ visitedCount visited)
  pqok : ∀ p ∈ pq, p.1 < INT_MAX ∧ ∃ d, getAt dist p.2 = some d ∧ d ≤ p.1
  pend : ∀ v d, getAt dist v = some d → d ≠ INT_MAX → getAt visited v = some false →
    (d, v) ∈ pq
  sep : ∀ x v dx dv, getAt visited x = some true → getAt visited v = some false →
    getAt dist x = some dx → getAt dist v = some dv → dx ≤ dv
  relaxed : ∀ x adj e dx, getAt visited x = some true → getAt g x = some adj → e ∈ adj →
    getAt dist x = some dx → ∃ dv, getAt dist e.dest = some dv ∧ dv ≤ dx + e.weight

/-- Two nodes and one edge, from node 0 to node 1, of weight `INT_MAX`. -/
def maxEdgeGraph : List (List Edge) := [[⟨1, 2147483647⟩], []]

/-- The part of the state that the operations never change or keep inside
the graph: the sample graph itself, the node of every stored request and
the node of every shelter. -/
structure Grounded (st : State) : Prop where
  graph : st.graph = sampleGraph
  count : st.nodeCount = 15
  located : ∀ id rec, st.homelessRecords id = some rec →
    0 ≤ rec.locationNodeID ∧ rec.locationNodeID < 15
  nodes : st.shelters.map Shelter.nodeID = [4, 7, 10, 13]

/-! ## Complaint classification -/

/-- The function `classifyComplaint(complaint)`. -/
def classifyComplaint (complaint : String) : String :=
  let lower := lowerChars complaint
  let categories : List String :=
    (if rabinKarpSearch lower (chars "food") || rabinKarpSearch lower (chars "hungry") ||
        rabinKarpSearch lower (chars "meal") || rabinKarpSearch lower (chars "eat")
      then ["Food"] else [])
    ++ (if rabinKarpSearch lower (chars "medical") || rabinKarpSearch lower (chars "sick") ||
        rabinKarpSearch lower (chars "medicine") || rabinKarpSearch lower (chars "health") ||
        rabinKarpSearch lower (chars "doctor")
      then ["Medical"] else [])
    ++ (if rabinKarpSearch lower (chars "safe") || rabinKarpSearch lower (chars "danger") ||
        rabinKarpSearch lower (chars "threat") || rabinKarpSearch lower (chars "attack")
      then ["Safety"] else [])
    ++ (if rabinKarpSearch lower (chars "shelter") || rabinKarpSearch lower (chars "bed") ||
        rabinKarpSearch lower (chars "sleep") || rabinKarpSearch lower (chars "stay")
      then ["Shelter"] else [])
  match categories with
  | [] => "General"
  | first :: rest => rest.foldl (fun result c => result ++ (", " ++ c)) first

/-! ## Substring search: the reference and the hash without reduction -/

/-- The value the rolling hash of `rabinKarpSearch` stands for: the
characters read as digits in base 256, not reduced modulo 101. -/
def polyHash (cs : List Int) : Int := cs.foldl (fun a c => 256 * a + c) 0

/-- The naive substring scan: `pattern` is compared with the window of
`text` at every start position. -/
def naiveSearch (text pattern : List Int) : Bool :=
  (List.range (text.length + 1 - pattern.length)).any
    (fun i => decide ((text.drop i).take pattern.length = pattern))

/-- The keyword occurs in the complaint as a contiguous substring compared
case-insensitively: some contiguous part of the complaint, put in lower
case, is the keyword. -/
def OccursNoCase (keyword complaint : String) : Prop :=
  ∃ w, w <:+: chars complaint ∧ w.map toLowerVal = chars keyword

/-- The keyword is a contiguous part of the lowercased complaint. -/
def occursLower (keyword complaint : String) : Bool :=
  decide (chars keyword <:+: lowerChars complaint)

/-- The age band of the priority score: at most one band contributes. -/
def ageBand (age : Int) : Int :=
  if age < 12 then 50 else if age > 65 then 40 else if 55 < age ∧ age ≤ 65 then 20 else 0

/-- The categories of `classifyComplaint` in their order, each with its
keywords. -/
def categoryKeywords : List (String × List String) :=
  [ ("Food", ["food", "hungry", "meal", "eat"]),
    ("Medical", ["medical", "sick", "medicine", "health", "doctor"]),
    ("Safety", ["safe", "danger", "threat", "attack"]),
    ("Shelter", ["shelter", "bed", "sleep", "stay"]) ]

/-- The names of the categories that have a keyword in the lowercased
complaint, in the order of `categoryKeywords`. -/
def matchedCategories (complaint : String) : List String :=
  (categoryKeywords.filter
    (fun cat => cat.2.any (fun kw => occursLower kw complaint))).map Prod.fst

/-- Three nodes in a chain: the edge from node 0 to node 1 weighs 1, the edge
from node 1 to node 2 weighs `INT_MAX - 1`. -/
def chainGraph : List (List Edge) := [[⟨1, 1⟩], [⟨2, 2147483646⟩], []]

/-- The vector `categories` of `classifyComplaint` for the four tests of
the categories. -/
def categoryNames (food medical safety shelter : Bool) : List String :=
  (if food then ["Food"] else []) ++ (if medical then ["Medical"] else [])
    ++ (if safety then ["Safety"] else []) ++ (if shelter then ["Shelter"] else [])

/-- The string `classifyComplaint` builds from its vector `categories`. -/
def joinCategories : List String → String
  | [] => "General"
  | first :: rest => rest.foldl (fun result c => result ++ (", " ++ c)) first

/-! ## Registration and the shortest-path query -/

/-- The registration of `registrationMenu` case 1 for the record `h` read
from the console, `h.id` being the value of `nextHomelessID++`:
`calculatePriority(h)` writes the score into the local `h`,
`addHomelessRecord(h)` receives a copy, and a local score above 80 enqueues
an emergency case.  `now` and `later` are the two values of `time(0)`. -/
def registerPerson (st : State) (h : Homeless) (now later : Int) : Bool × State :=
  let h1 := (calculatePriority h).2
  let r := addHomelessRecord st h1 now
  if r.1 then
    if h1.priorityScore > 80 then
      (true, addEmergencyCase r.2 ⟨h1.id, h1.priorityScore, later⟩)
    else (true, r.2)
  else (false, r.2)

/-- What the shortest-path query of `networkTraversalMenu` case 3 reports:
an invalid node, or one line per shelter with its name and its distance,
`none` standing for "Unreachable". -/
inductive PathQuery where
  | invalidNode
  | distances (lines : List (String × Option Int))
deriving DecidableEq, Repr

/-- The loop of the shortest-path query over the shelters, which reads
`dist[s.nodeID]` for every shelter. -/
def distanceLines (dist : List Int) : List Shelter → Option (List (String × Option Int))
  | [] => some []
  | s :: rest =>
    match getAt dist s.nodeID with
    | none => none
    | some d =>
      (distanceLines dist rest).map
        (fun lines => (s.name, if d = INT_MAX then none else some d) :: lines)

/-- The shortest-path query, `networkTraversalMenu` case 3, for the source
read from the console: the range of the source is tested here, before the
call of `dijkstra`. -/
def shortestPathAnalysis (st : State) (source : Int) : Option PathQuery :=
  if source < 0 ∨ source ≥ (st.nodeCount : Int) then some PathQuery.invalidNode
  else
    match dijkstra st.graph st.nodeCount source with
    | none => none
    | some dist => (distanceLines dist st.shelters).map PathQuery.distances

/-! ## Depth-first search and the connectivity check -/

/-- The loop of `dfsUtil` over the edges of a node; `visit` is the recursive
call.  The pair holds `visited` and `dfsOrder`. -/
def dfsEdges (visit : Int → List Bool × List Int → Option (List Bool × List Int)) :
    List Edge → List Bool × List Int → Option (List Bool × List Int)
  | [], acc => some acc
  | e :: es, acc =>
    match getAt acc.1 e.dest with
    | none => none
    | some true => dfsEdges visit es acc
    | some false =>
      match visit e.dest acc with
      | none => none
      | some acc2 => dfsEdges visit es acc2

/-- The function `dfsUtil(node, visited, dfsOrder)`.  The first argument
bounds the depth of the recursion; `none` is returned when it is used up
and when `visited[node]`, `graph[node]` or `visited[e.dest]` is outside its
vector. -/
def dfsUtil (g : List (List Edge)) :
    Nat → Int → List Bool × List Int → Option (List Bool × List Int)
  | 0, _, _ => none
  | fuel + 1, node, acc =>
    match getAt acc.1 node, getAt g node with
    | some _, some adj =>
      dfsEdges (dfsUtil g fuel) adj (setAt acc.1 node true, acc.2 ++ [node])
    | _, _ => none

/-- The loop of `checkShelterConnectivity` over the shelters. -/
def connectedLoop (visited : List Bool) : List Shelter → Bool → Option Bool
  | [], allConnected => some allConnected
  | s :: rest, allConnected =>
    match getAt visited s.nodeID with
    | none => none
    | some b => connectedLoop visited rest (if !b then false else allConnected)

/-- The function `checkShelterConnectivity()`. -/
def checkShelterConnectivity (st : State) : Option Bool :=
  match st.shelters with
  | [] => some true
  | first :: _ =>
    match dfsUtil st.graph (st.nodeCount + 1) first.nodeID
        (List.replicate st.nodeCount false, []) with
    | none => none
    | some acc => connectedLoop acc.1 st.shelters true

/-- Node `v` is reachable from node `u` by a directed path. -/
def Reach (g : List (List Edge)) (u v : Int) : Prop := ∃ d k, Path g u v d k

/-- The entry `visited[v]` is true. -/
def Marked (visited : List Bool) (v : Int) : Prop := getAt visited v = some true

/-- What a depth-first search started at the nodes `starts` with the marks
`visited` has done when it leaves the marks `visited2`: the vector keeps
its length, no mark is lost, the number of unmarked nodes has not grown,
the starts are marked, every new mark is on a node reachable from a start,
and every edge from a newly marked node ends at a marked node. -/
structure DfsPost (g : List (List Edge)) (n : Nat) (starts : List Int)
    (visited visited2 : List Bool) : Prop where
  length : visited2.length = n
  mono : ∀ v, Marked visited v → Marked visited2 v
  count : visited2.count false ≤ visited.count false
  reached : ∀ s ∈ starts, Marked visited2 s
  sound : ∀ v, Marked visited2 v → Marked visited v ∨ ∃ s ∈ starts, Reach g s v
  closed : ∀ u, Marked visited2 u → ¬ Marked visited u →
    ∀ v w, HasEdge g u v w → Marked visited2 v

/-! ## Emergency auto-allocation (emergencyManagementMenu, case 5) -/

/-- The loop of the auto-allocation with its counter `allocated`.  The
first argument bounds the number of iterations; `none` is returned when it
is used up and when `allocateShelter` indexes outside a vector. -/
def drainLoop : Nat → State → Nat → Option (Nat × State)
  | 0, st, allocated => if st.emergencyHeap = [] then some (allocated, st) else none
  | fuel + 1, st, allocated =>
    if st.emergencyHeap = [] then some (allocated, st)
    else
      let next := getNextEmergency st
      match searchHomeless next.2 next.1.homelessID with
      | none => drainLoop fuel next.2 allocated
      | some h =>
        if !h.allocated then
          match allocateShelter next.2 next.1.homelessID with
          | none => none
          | some r => drainLoop fuel r.2 (allocated + 1)
        else drainLoop fuel next.2 allocated

/-- The auto-allocation of `emergencyManagementMenu` case 5: the number of
cases processed and the state it leaves. -/
def autoAllocate (st : State) : Option (Nat × State) :=
  drainLoop st.emergencyHeap.length st 0

/-- The state after `pop()` on the emergency queue. -/
def popped (st : State) : State :=
  { st with emergencyHeap := queuePop st.emergencyHeap }

/-- The contract of the drain loop as a relation: `Drains st order n st2`
says that the loop started in `st` pops the cases of `order` one after the
other, each the top of the queue at its turn, discards a case whose request
is missing or allocated at that moment without any change but the pop,
calls `allocateShelter` for every other case, and ends in `st2` with an
empty queue after `n` calls. -/
inductive Drains : State → List EmergencyCase → Nat → State → Prop where
  | done {st : State} : st.emergencyHeap = [] → Drains st [] 0 st
  | discard {st st2 : State} {ec : EmergencyCase} {rest : List EmergencyCase} {n : Nat} :
      st.emergencyHeap.head? = some ec →
      (∀ h, searchHomeless st ec.homelessID = some h → h.allocated = true) →
      Drains (popped st) rest n st2 → Drains st (ec :: rest) n st2
  | allocate {st st1 st2 : State} {ec : EmergencyCase} {rest : List EmergencyCase}
      {h : Homeless} {r : AllocOutcome} {n : Nat} :
      st.emergencyHeap.head? = some ec →
      searchHomeless st ec.homelessID = some h → h.allocated = false →
      allocateShelter (popped st) ec.homelessID = some (r, st1) →
      Drains st1 rest n st2 → Drains st (ec :: rest) (n + 1) st2

/-- The state in which `allocateShelter` indexes no vector outside its
bounds: the graph has `nodeCount` adjacency lists with edges that end at
nodes, and the requests and the shelters are at nodes. -/
structure Sound (st : State) : Prop where
  graph : WellFormed st.graph st.nodeCount
  located : ∀ id rec, st.homelessRecords id = some rec →
    0 ≤ rec.locationNodeID ∧ rec.locationNodeID < (st.nodeCount : Int)
  nodes : ∀ s ∈ st.shelters, 0 ≤ s.nodeID ∧ s.nodeID < (st.nodeCount : Int)

/-! ## Merge sort of the shelters -/

/-- The available capacity `capacityTotal - capacityOccupied`. -/
def Shelter.available (s : Shelter) : Int := s.capacityTotal - s.capacityOccupied

/-- The three `while` loops of `merge`: the elements written to
`arr[left..right]` from the copies `L` and `R`.  The first argument counts
the writes that remain. -/
def mergeLoop : Nat → List Shelter → List Shelter → List Shelter
  | 0, _, _ => []
  | _ + 1, [], [] => []
  | k + 1, l :: L, [] => l :: mergeLoop k L []
  | k + 1, [], r :: R => r :: mergeLoop k [] R
  | k + 1, l :: L, r :: R =>
    if l.available ≥ r.available then l :: mergeLoop k L (r :: R)
    else r :: mergeLoop k (l :: L) R

/-- The function `merge(arr, left, mid, right)`; `none` when a copied range
is not inside `arr`. -/
def merge (arr : List Shelter) (left mid right : Nat) : Option (List Shelter) :=
  let n1 := mid - left + 1
  let n2 := right - mid
  if left + n1 ≤ arr.length ∧ mid + 1 + n2 ≤ arr.length then
    some (arr.take left
      ++ mergeLoop (n1 + n2) ((arr.drop left).take n1) ((arr.drop (mid + 1)).take n2)
      ++ arr.drop (left + n1 + n2))
  else none

/-- The function `mergeSort(arr, left, right)`.  The first argument bounds
the depth of the recursion; `none` is returned when it is used up and when
`merge` copies outside `arr`. -/
def mergeSort : Nat → List Shelter → Nat → Nat → Option (List Shelter)
  | 0, arr, left, right => if left < right then none else some arr
  | fuel + 1, arr, left, right =>
    if left < right then
      let mid := left + (right - left) / 2
      match mergeSort fuel arr left mid with
      | none => none
      | some arr1 =>
        match mergeSort fuel arr1 (mid + 1) right with
        | none => none
        | some arr2 => merge arr2 left mid right
    else some arr

/-- The function `sortSheltersByCapacity()`. -/
def sortSheltersByCapacity (st : State) : Option State :=
  if st.shelters = [] then some st
  else (mergeSort st.shelters.length st.shelters 0 (st.shelters.length - 1)).map
    (fun arr => { st with shelters := arr })

/-- The elements of `l` whose available capacity is `a`, in their order. -/
def withAvailable (a : Int) (l : List Shelter) : List Shelter :=
  l.filter (fun s => decide (s.available = a))

/-! ## States for the tie-break and the release -/

/-- A request marked allocated to shelter 1, whose list of occupants does
not hold the request. -/
def strayState : State :=
  { graph := [[]], nodeCount := 1,
    homelessRecords := storeRecord (fun _ => none) 7
      { tinyRecord with allocated := true, allocatedShelterID := 1 },
    homelessList := [tinyRecord], shelters := [⟨1, "A", 0, 5, 3, "", [8]⟩],
    emergencyHeap := [] }

/-- The one-node state after the cases of the requests 1, 2, 3 and 4, all of
priority 100, have been added in this order. -/
def tiedQueue : State :=
  addEmergencyCase (addEmergencyCase (addEmergencyCase (addEmergencyCase (tinyState [])
    ⟨1, 100, 0⟩) ⟨2, 100, 0⟩) ⟨3, 100, 0⟩) ⟨4, 100, 0⟩

/-- Two nodes 4 apart, the request 7 at node 0 and two shelters with the
same id 5: "Far" at node 1 comes first and is full, "Near" at node 0 has a
free bed. -/
def twinState : State :=
  { graph := [[⟨1, 4⟩], [⟨0, 4⟩]], nodeCount := 2,
    homelessRecords := storeRecord (fun _ => none) 7 tinyRecord,
    homelessList := [tinyRecord],
    shelters := [⟨5, "Far", 1, 1, 1, "", []⟩, ⟨5, "Near", 0, 1, 0, "", []⟩],
    emergencyHeap := [] }

/-- A one-node graph, the request 7 stored with the location 5, which is
not a node, and its emergency case in the queue. -/
def lostState : State :=
  { graph := [[]], nodeCount := 1,
    homelessRecords := storeRecord (fun _ => none) 7 { tinyRecord with locationNodeID := 5 },
    homelessList := [], shelters := [],
    emergencyHeap := queuePush [] ⟨7, 100, 0⟩ }

/-- The one-node state with a shelter at node 99, which is not a node. -/
def farShelter : State := tinyState [⟨1, "A", 99, 1, 0, "", []⟩]

/-- A woman of 70 with a medical need at node 0, with the id 8 and with 99
in `priorityScore`. -/
def urgentRecord : Homeless := ⟨8, "Q", 70, "Female", 0, true, 99, "", 0, false, -1⟩

/-! ## Vector access lemmas -/

theorem getAt_some_iff {α : Type} (l : List α) (i : Int) (a : α) :
    getAt l i = some a ↔ ∃ k : Nat, i = (k : Int) ∧ l[k]? = some a := by
  cases i with
  | ofNat k =>
    show l.get? k = some a ↔ _
    constructor
    · intro h
      exact ⟨k, rfl, by simpa using h⟩
    · rintro ⟨k2, hk, h⟩
      have : k = k2 := Int.ofNat.inj hk
      subst this
      simpa using h
  | negSucc k =>
    constructor
    · intro h
      cases h
    · rintro ⟨k2, hk, _⟩
      exact absurd hk (by
        intro h
        have := Int.negSucc_lt_zero k
        rw [h] at this
        omega)

theorem getAt_isSome_iff {α : Type} (l : List α) (i : Int) :
    (getAt l i).isSome ↔ 0 ≤ i ∧ i < (l.length : Int) := by
  cases i with
  | ofNat k =>
    show (l.get? k).isSome ↔ _
    have h1 : (0 : Int) ≤ Int.ofNat k := Int.ofNat_nonneg k
    have h2 : (Int.ofNat k < (l.length : Int)) ↔ k < l.length := by
      show ((k : Int) < (l.length : Int)) ↔ _
      exact Int.ofNat_lt
    rw [Option.isSome_iff_exists]
    constructor
    · rintro ⟨a, ha⟩
      have : l[k]? = some a := by simpa using ha
      exact ⟨h1, h2.2 (List.getElem?_eq_some.1 this).1⟩
    · rintro ⟨_, hk⟩
      have hk2 : k < l.length := h2.1 hk
      exact ⟨l[k], by simp [List.getElem?_eq_getElem hk2]⟩
  | negSucc k =>
    have := Int.negSucc_lt_zero k
    constructor
    · intro h
      cases h
    · rintro ⟨h0, _⟩
      omega

theorem setAt_natCast {α : Type} (l : List α) (k : Nat) (a : α) :
    setAt l (k : Int) a = l.set k a := rfl

theorem length_setAt {α : Type} (l : List α) (i : Int) (a : α) :
    (setAt l i a).length = l.length := by
  cases i <;> simp [setAt]

/-! ## The selection loop -/

theorem selectShelter_spec (distances : List Int) :
    ∀ (shelters : List Shelter) (best minDist b m : Int),
      selectShelter distances shelters best minDist = some (b, m) →
      (b = best ∧ m = minDist ∧
          ∀ x ∈ shelters, ∀ d, Candidate distances x d → minDist ≤ d) ∨
      (∃ pre s post, shelters = pre ++ s :: post ∧ b = s.id ∧ Candidate distances s m ∧
          m < minDist ∧ (∀ x ∈ pre, ∀ d, Candidate distances x d → m < d) ∧
          (∀ x ∈ post, ∀ d, Candidate distances x d → m ≤ d)) := by
  intro shelters
  induction shelters with
  | nil =>
    intro best minDist b m h
    simp only [selectShelter, Option.some.injEq, Prod.mk.injEq] at h
    exact Or.inl ⟨h.1.symm, h.2.symm, by simp⟩
  | cons s rest ih =>
    intro best minDist b m h
    unfold selectShelter at h
    cases hd : getAt distances s.nodeID with
    | none => simp [hd] at h
    | some d =>
      simp only [hd] at h
      by_cases hc : s.capacityTotal - s.capacityOccupied > 0 ∧ d ≠ INT_MAX
      · have hcand : Candidate distances s d := ⟨by omega, hd, hc.2⟩
        by_cases hlt : d < minDist
        · rw [if_pos hc, if_pos hlt] at h
          rcases ih _ _ _ _ h with ⟨hb, hm, hall⟩ | ⟨pre, t, post, hsplit, hb, hcn, hlt2, hpre, hpost⟩
          · refine Or.inr ⟨[], s, rest, rfl, hb, hm ▸ hcand, hm ▸ hlt, by simp, ?_⟩
            intro x hx d2 hx2
            rw [hm]
            exact hall x hx d2 hx2
          · refine Or.inr ⟨s :: pre, t, post, by rw [hsplit]; rfl, hb, hcn, by omega, ?_, hpost⟩
            intro x hx d2 hx2
            rcases List.mem_cons.1 hx with rfl | hx
            · have : d2 = d := by
                have := hx2.2.1
                rw [hd] at this
                exact (Option.some.inj this).symm
              omega
            · exact hpre x hx d2 hx2
        · rw [if_pos hc, if_neg hlt] at h
          rcases ih _ _ _ _ h with ⟨hb, hm, hall⟩ | ⟨pre, t, post, hsplit, hb, hcn, hlt2, hpre, hpost⟩
          · refine Or.inl ⟨hb, hm, ?_⟩
            intro x hx d2 hx2
            rcases List.mem_cons.1 hx with rfl | hx
            · have : d2 = d := by
                have := hx2.2.1
                rw [hd] at this
                exact (Option.some.inj this).symm
              omega
            · exact hall x hx d2 hx2
          · refine Or.inr ⟨s :: pre, t, post, by rw [hsplit]; rfl, hb, hcn, hlt2, ?_, hpost⟩
            intro x hx d2 hx2
            rcases List.mem_cons.1 hx with rfl | hx
            · have : d2 = d := by
                have := hx2.2.1
                rw [hd] at this
                exact (Option.some.inj this).symm
              omega
            · exact hpre x hx d2 hx2
      · rw [if_neg hc] at h
        have hnc : ∀ d2, ¬ Candidate distances s d2 := by
          intro d2 hx2
          have h1 : d2 = d := by
            have := hx2.2.1
            rw [hd] at this
            exact (Option.some.inj this).symm
          exact hc ⟨by have := hx2.1; omega, h1 ▸ hx2.2.2⟩
        rcases ih _ _ _ _ h with ⟨hb, hm, hall⟩ | ⟨pre, t, post, hsplit, hb, hcn, hlt2, hpre, hpost⟩
        · refine Or.inl ⟨hb, hm, ?_⟩
          intro x hx d2 hx2
          rcases List.mem_cons.1 hx with rfl | hx
          · exact absurd hx2 (hnc d2)
          · exact hall x hx d2 hx2
        · refine Or.inr ⟨s :: pre, t, post, by rw [hsplit]; rfl, hb, hcn, hlt2, ?_, hpost⟩
          intro x hx d2 hx2
          rcases List.mem_cons.1 hx with rfl | hx
          · exact absurd hx2 (hnc d2)
          · exact hpre x hx d2 hx2

theorem selectShelter_isSome (distances : List Int) :
    ∀ (shelters : List Shelter) (best minDist : Int),
      (∀ x ∈ shelters, (getAt distances x.nodeID).isSome) →
      (selectShelter distances shelters best minDist).isSome := by
  intro shelters
  induction shelters with
  | nil => intro best minDist _; rfl
  | cons s rest ih =>
    intro best minDist h
    unfold selectShelter
    obtain ⟨d, hd⟩ := Option.isSome_iff_exists.1 (h s (List.mem_cons_self _ _))
    have hrest : ∀ x ∈ rest, (getAt distances x.nodeID).isSome :=
      fun x hx => h x (List.mem_cons_of_mem _ hx)
    simp only [hd]
    split
    · split
      · exact ih _ _ hrest
      · exact ih _ _ hrest
    · exact ih _ _ hrest

/-! ## The update loops -/

theorem occupyShelter_inv (b id : Int) :
    ∀ (shelters shelters2 : List Shelter), occupyShelter b id shelters = some shelters2 →
      ∃ pre s post, shelters = pre ++ s :: post ∧ (∀ x ∈ pre, x.id ≠ b) ∧ s.id = b ∧
        shelters2 = pre ++ s.occupy id :: post := by
  intro shelters
  induction shelters with
  | nil => intro shelters2 h; simp [occupyShelter] at h
  | cons x rest ih =>
    intro shelters2 h
    unfold occupyShelter at h
    by_cases hx : x.id = b
    · rw [if_pos hx] at h
      exact ⟨[], x, rest, rfl, by simp, hx, (Option.some.inj h).symm⟩
    · rw [if_neg hx] at h
      cases hr : occupyShelter b id rest with
      | none => simp [hr] at h
      | some r =>
        simp only [hr, Option.map_some', Option.some.injEq] at h
        obtain ⟨pre, s, post, h1, h2, h3, h4⟩ := ih r hr
        refine ⟨x :: pre, s, post, by rw [h1]; rfl, ?_, h3, by rw [← h, h4]; rfl⟩
        intro y hy
        rcases List.mem_cons.1 hy with rfl | hy
        · exact hx
        · exact h2 y hy

theorem split_unique_of_nodup {pre pre2 post post2 : List Shelter} {s s2 : Shelter}
    (hnd : ((pre ++ s :: post).map Shelter.id).Nodup)
    (heq : pre ++ s :: post = pre2 ++ s2 :: post2) (hid : s.id = s2.id) :
    pre = pre2 ∧ s = s2 ∧ post = post2 := by
  induction pre generalizing pre2 with
  | nil =>
    cases pre2 with
    | nil =>
      simp only [List.nil_append, List.cons.injEq] at heq
      exact ⟨rfl, heq.1, heq.2⟩
    | cons y pre2 =>
      simp only [List.nil_append, List.cons_append, List.cons.injEq] at heq
      exfalso
      simp only [List.nil_append, List.map_cons, List.nodup_cons, List.mem_map] at hnd
      apply hnd.1
      refine ⟨s2, ?_, hid.symm⟩
      rw [heq.2]
      simp
  | cons x pre ih =>
    cases pre2 with
    | nil =>
      simp only [List.nil_append, List.cons_append, List.cons.injEq] at heq
      exfalso
      simp only [List.cons_append, List.map_cons, List.nodup_cons, List.mem_map] at hnd
      apply hnd.1
      refine ⟨s, by simp, ?_⟩
      rw [hid, ← heq.1]
    | cons y pre2 =>
      simp only [List.cons_append, List.cons.injEq] at heq
      simp only [List.cons_append, List.map_cons, List.nodup_cons] at hnd
      obtain ⟨h1, h2, h3⟩ := ih hnd.2 heq.2
      exact ⟨by rw [heq.1, h1], h2, h3⟩

/-! ## Range of the distance vector -/

theorem wrapInt_le (x : Int) : wrapInt x ≤ INT_MAX := by
  unfold wrapInt INT_MAX
  omega

theorem wrapInt_eq_self {x : Int} (h0 : -2147483648 ≤ x) (h1 : x ≤ INT_MAX) : wrapInt x = x := by
  unfold wrapInt
  unfold INT_MAX at h1
  omega

theorem mem_setAt {α : Type} {l : List α} {i : Int} {a x : α} (h : x ∈ setAt l i a) :
    x ∈ l ∨ x = a := by
  cases i with
  | ofNat k => exact List.mem_or_eq_of_mem_set h
  | negSucc k => exact Or.inl h

theorem relaxEdges_bound (u : Int) :
    ∀ (es : List Edge) (dist : List Int) (pq : List (Int × Int)) (dist2 : List Int)
      (pq2 : List (Int × Int)),
      relaxEdges u es dist pq = some (dist2, pq2) →
      (∀ x ∈ dist, x ≤ INT_MAX) →
      (∀ x ∈ dist2, x ≤ INT_MAX) ∧ dist2.length = dist.length := by
  intro es
  induction es with
  | nil =>
    intro dist pq dist2 pq2 h hb
    simp only [relaxEdges, Option.some.injEq, Prod.mk.injEq] at h
    rw [← h.1]
    exact ⟨hb, rfl⟩
  | cons e es ih =>
    intro dist pq dist2 pq2 h hb
    unfold relaxEdges at h
    cases hu : getAt dist u with
    | none => simp [hu] at h
    | some du =>
      simp only [hu] at h
      split at h
      · exact ih _ _ _ _ h hb
      · cases hv : getAt dist e.dest with
        | none => simp [hv] at h
        | some dv =>
          simp only [hv] at h
          split at h
          · have := ih _ _ _ _ h (by
              intro x hx
              rcases mem_setAt hx with hx | hx
              · exact hb x hx
              · rw [hx]; exact wrapInt_le _)
            rw [length_setAt] at this
            exact this
          · exact ih _ _ _ _ h hb

theorem dijkstraLoop_bound (g : List (List Edge)) :
    ∀ (fuel : Nat) (dist : List Int) (visited : List Bool) (pq : List (Int × Int))
      (out : List Int),
      dijkstraLoop g fuel dist visited pq = some out →
      (∀ x ∈ dist, x ≤ INT_MAX) →
      (∀ x ∈ out, x ≤ INT_MAX) ∧ out.length = dist.length := by
  intro fuel
  induction fuel with
  | zero => intro dist visited pq out h; simp [dijkstraLoop] at h
  | succ fuel ih =>
    intro dist visited pq out h hb
    unfold dijkstraLoop at h
    cases ht : pqTop pq with
    | none =>
      simp only [ht, Option.some.injEq] at h
      rw [← h]
      exact ⟨hb, rfl⟩
    | some top =>
      simp only [ht] at h
      cases hv : getAt visited top.2 with
      | none => simp [hv] at h
      | some b =>
        cases b with
        | true =>
          simp only [hv] at h
          exact ih _ _ _ _ h hb
        | false =>
          simp only [hv] at h
          cases hg : getAt g top.2 with
          | none => simp [hg] at h
          | some adj =>
            simp only [hg] at h
            cases hr : relaxEdges top.2 adj dist (pq.erase top) with
            | none => simp [hr] at h
            | some r =>
              obtain ⟨dist2, pq2⟩ := r
              simp only [hr] at h
              have h1 := relaxEdges_bound _ _ _ _ _ _ hr hb
              have h2 := ih _ _ _ _ h h1.1
              exact ⟨h2.1, h2.2.trans h1.2⟩

theorem dijkstra_bound {g : List (List Edge)} {n : Nat} {source : Int} {out : List Int}
    (h : dijkstra g n source = some out) :
    (∀ x ∈ out, x ≤ INT_MAX) ∧ out.length = n := by
  unfold dijkstra at h
  cases hs : getAt (List.replicate n INT_MAX) source with
  | none => simp [hs] at h
  | some a =>
    simp only [hs] at h
    have := dijkstraLoop_bound _ _ _ _ _ _ h (by
      intro x hx
      rcases mem_setAt hx with hx | hx
      · rw [List.eq_of_mem_replicate hx]
      · rw [hx]; decide)
    rw [length_setAt, List.length_replicate] at this
    exact this

/-! ## Inversion of `allocateShelter` -/

theorem allocateShelter_success {st st2 : State} {id b m : Int}
    (h : allocateShelter st id = some (AllocOutcome.success b m, st2)) :
    ∃ rec distances shelters2,
      st.homelessRecords id = some rec ∧ rec.allocated = false ∧
      dijkstra st.graph st.nodeCount rec.locationNodeID = some distances ∧
      selectShelter distances st.shelters (-1) INT_MAX = some (b, m) ∧ b ≠ -1 ∧
      occupyShelter b id st.shelters = some shelters2 ∧
      st2 = { st with
              shelters := shelters2,
              homelessRecords := storeRecord st.homelessRecords id
                { rec with allocated := true, allocatedShelterID := b } } := by
  unfold allocateShelter searchHomeless at h
  cases hr : st.homelessRecords id with
  | none => simp [hr] at h
  | some rec =>
    simp only [hr] at h
    cases ha : rec.allocated with
    | true => simp [ha] at h
    | false =>
      simp only [ha] at h
      cases hd : dijkstra st.graph st.nodeCount rec.locationNodeID with
      | none => simp [hd] at h
      | some distances =>
        simp only [hd] at h
        cases hs : selectShelter distances st.shelters (-1) INT_MAX with
        | none => simp [hs] at h
        | some r =>
          obtain ⟨b2, m2⟩ := r
          simp only [hs] at h
          by_cases hb : b2 = -1
          · simp [hb] at h
          · simp only [Bool.false_eq_true, if_false, if_neg hb] at h
            cases ho : occupyShelter b2 id st.shelters with
            | none => simp [ho] at h
            | some shelters2 =>
              simp only [ho, Option.some.injEq, Prod.mk.injEq, AllocOutcome.success.injEq] at h
              obtain ⟨⟨hb2, hm2⟩, hst⟩ := h
              subst hb2 hm2
              exact ⟨rec, distances, shelters2, rfl, ha, hd, hs, hb, ho, hst.symm⟩

theorem allocateShelter_failure {st st2 : State} {id : Int} {r : AllocOutcome}
    (h : allocateShelter st id = some (r, st2)) (hr : ∀ b m, r ≠ AllocOutcome.success b m) :
    st2 = st := by
  unfold allocateShelter searchHomeless at h
  cases hrec : st.homelessRecords id with
  | none =>
    simp only [hrec, Option.some.injEq, Prod.mk.injEq] at h
    exact h.2.symm
  | some rec =>
    simp only [hrec] at h
    cases ha : rec.allocated with
    | true =>
      simp only [ha, if_true, Option.some.injEq, Prod.mk.injEq] at h
      exact h.2.symm
    | false =>
      simp only [ha] at h
      cases hd : dijkstra st.graph st.nodeCount rec.locationNodeID with
      | none => simp [hd] at h
      | some distances =>
        simp only [hd] at h
        cases hs : selectShelter distances st.shelters (-1) INT_MAX with
        | none => simp [hs] at h
        | some r2 =>
          obtain ⟨b2, m2⟩ := r2
          simp only [hs] at h
          by_cases hb : b2 = -1
          · simp only [Bool.false_eq_true, if_false, if_pos hb, Option.some.injEq,
              Prod.mk.injEq] at h
            exact h.2.symm
          · simp only [Bool.false_eq_true, if_false, if_neg hb] at h
            cases ho : occupyShelter b2 id st.shelters with
            | none =>
              simp only [ho, Option.some.injEq, Prod.mk.injEq] at h
              exact h.2.symm
            | some shelters2 =>
              simp only [ho, Option.some.injEq, Prod.mk.injEq] at h
              exact absurd h.1.symm (hr b2 m2)

/-! ## Allocation: nearest shelter, frame, repeated call -/

theorem storeRecord_same (records : Int → Option Homeless) (id : Int) (h : Homeless) :
    storeRecord records id h id = some h := by
  simp [storeRecord]

theorem candidate_dist_unique {distances : List Int} {s : Shelter} {d d2 : Int}
    (h : Candidate distances s d) (h2 : Candidate distances s d2) : d = d2 := by
  have := h.2.1
  rw [h2.2.1] at this
  exact (Option.some.inj this).symm

/-- The shape of a successful allocation when the shelter ids are pairwise
distinct: the reported shelter is the first nearest candidate and it is the
one that receives the request. -/
theorem allocateShelter_success_shape {st st2 : State} {id b m : Int}
    (hids : (st.shelters.map Shelter.id).Nodup)
    (h : allocateShelter st id = some (AllocOutcome.success b m, st2)) :
    ∃ rec distances pre s post,
      st.homelessRecords id = some rec ∧ rec.allocated = false ∧
      dijkstra st.graph st.nodeCount rec.locationNodeID = some distances ∧
      st.shelters = pre ++ s :: post ∧ b = s.id ∧ b ≠ -1 ∧ Candidate distances s m ∧
      (∀ x ∈ pre, x.id ≠ b) ∧
      (∀ x ∈ pre, ∀ d, Candidate distances x d → m < d) ∧
      (∀ x ∈ post, ∀ d, Candidate distances x d → m ≤ d) ∧
      st2 = { st with
              shelters := pre ++ s.occupy id :: post,
              homelessRecords := storeRecord st.homelessRecords id
                { rec with allocated := true, allocatedShelterID := b } } := by
  obtain ⟨rec, distances, shelters2, hrec, hun, hd, hsel, hb, hocc, hst⟩ :=
    allocateShelter_success h
  rcases selectShelter_spec _ _ _ _ _ _ hsel with ⟨hb2, _, _⟩ |
    ⟨pre, s, post, hsplit, hbs, hcand, _, hpre, hpost⟩
  · exact absurd hb2 hb
  · obtain ⟨pre2, s2, post2, hsplit2, hpid, hs2, hsh2⟩ := occupyShelter_inv _ _ _ _ hocc
    have hnd : ((pre ++ s :: post).map Shelter.id).Nodup := hsplit ▸ hids
    obtain ⟨e1, e2, e3⟩ :=
      split_unique_of_nodup hnd (hsplit.symm.trans hsplit2) (hbs.symm.trans hs2.symm)
    subst e1 e2 e3
    exact ⟨rec, distances, pre, s, post, hrec, hun, hd, hsplit, hbs, hb, hcand, hpid, hpre, hpost,
      by rw [hst, hsh2]⟩

/-- C1 (counterexample): in `twinState` the request 7 at node 0 is stored
and unallocated and both shelters are at nodes of the graph.  The two
shelters have the id 5: "Far" at node 1, at distance 4, is full, "Near" at
node 0 has a free bed.  `allocateShelter(7)` succeeds and reports shelter 5
at distance 0, and the request is put into "Far", which had no free bed and
is at distance 4. -/
theorem allocateShelter_twin_counterexample :
    twinState.homelessRecords 7 = some tinyRecord ∧ tinyRecord.allocated = false ∧
    dijkstra twinState.graph twinState.nodeCount tinyRecord.locationNodeID = some [0, 4] ∧
    twinState.shelters = [⟨5, "Far", 1, 1, 1, "", []⟩, ⟨5, "Near", 0, 1, 0, "", []⟩] ∧
    (allocateShelter twinState 7).map Prod.fst = some (AllocOutcome.success 5 0) ∧
    (allocateShelter twinState 7).map (fun r => r.2.shelters)
      = some [⟨5, "Far", 1, 1, 2, "", [7]⟩, ⟨5, "Near", 0, 1, 0, "", []⟩] := by
  refine ⟨by decide, by decide, by decide, by decide, by decide, by decide⟩

/-- C1 (amended): in a state with pairwise distinct shelter ids in which the
request `id` is stored as `rec`, a successful `allocateShelter(id)`
reporting shelter `b` at distance `m` binds the request to the shelter `s`
with the id `b`: the record becomes allocated with `allocatedShelterID = b`
and `s` receives the request.  That shelter has
`capacityOccupied < capacityTotal` and a finite distance in the vector
`dijkstra(rec.locationNodeID)`, the reported `m` is that distance, and no
shelter with a free bed and a finite distance has a smaller distance. -/
theorem allocateShelter_binds_nearest (st st2 : State) (id b m : Int) (rec : Homeless)
    (hrec : st.homelessRecords id = some rec)
    (hids : (st.shelters.map Shelter.id).Nodup)
    (h : allocateShelter st id = some (AllocOutcome.success b m, st2)) :
    ∃ distances pre s post,
      dijkstra st.graph st.nodeCount rec.locationNodeID = some distances ∧
      st.shelters = pre ++ s :: post ∧ s.id = b ∧
      st2.shelters = pre ++ s.occupy id :: post ∧
      st2.homelessRecords id = some { rec with allocated := true, allocatedShelterID := b } ∧
      s.capacityOccupied < s.capacityTotal ∧
      getAt distances s.nodeID = some m ∧ m ≠ INT_MAX ∧
      ∀ x ∈ st.shelters, ∀ d, x.capacityOccupied < x.capacityTotal →
        getAt distances x.nodeID = some d → d ≠ INT_MAX → m ≤ d := by
  obtain ⟨rec2, distances, pre, s, post, hrec2, _, hd, hsplit, hbs, _, hcand, _, hpre, hpost,
    hst⟩ := allocateShelter_success_shape hids h
  have hr : rec2 = rec := Option.some.inj (hrec2.symm.trans hrec)
  subst hr
  refine ⟨distances, pre, s, post, hd, hsplit, hbs.symm, by rw [hst], ?_, hcand.1, hcand.2.1,
    hcand.2.2, ?_⟩
  · rw [hst]
    exact storeRecord_same _ _ _
  · intro x hx d h1 h2 h3
    have hxd : Candidate distances x d := ⟨h1, h2, h3⟩
    rw [hsplit] at hx
    rcases List.mem_append.1 hx with hx | hx
    · exact le_of_lt (hpre x hx d hxd)
    · rcases List.mem_cons.1 hx with rfl | hx
      · exact le_of_eq (candidate_dist_unique hcand hxd)
      · exact hpost x hx d hxd

/-- Witness of C1 (amended) on the sample data: request 101 goes to shelter
1 at distance 17. -/
theorem allocateShelter_binds_nearest_witness :
    (initializeSampleData 0).homelessRecords 101
        = some ⟨101, "Ramesh Kumar", 45, "Male", 0, false, 45, "Need food urgently", 0, false, -1⟩ ∧
      allocateShelter (initializeSampleData 0) 101
        = some (AllocOutcome.success 1 17, sampleAfter101) ∧
      ∃ distances pre s post,
        dijkstra (initializeSampleData 0).graph (initializeSampleData 0).nodeCount 0
          = some distances ∧
        (initializeSampleData 0).shelters = pre ++ s :: post ∧ s.id = 1 ∧
        sampleAfter101.shelters = pre ++ s.occupy 101 :: post ∧
        sampleAfter101.homelessRecords 101
          = some ⟨101, "Ramesh Kumar", 45, "Male", 0, false, 45, "Need food urgently", 0, true, 1⟩ ∧
        s.capacityOccupied < s.capacityTotal ∧
        getAt distances s.nodeID = some 17 ∧ (17 : Int) ≠ INT_MAX ∧
        ∀ x ∈ (initializeSampleData 0).shelters, ∀ d, x.capacityOccupied < x.capacityTotal →
          getAt distances x.nodeID = some d → d ≠ INT_MAX → 17 ≤ d :=
  ⟨by rfl, by rfl,
    allocateShelter_binds_nearest (initializeSampleData 0) sampleAfter101 101 1 17
      ⟨101, "Ramesh Kumar", 45, "Male", 0, false, 45, "Need food urgently", 0, false, -1⟩
      (by rfl) (by decide) (by rfl)⟩

/-- C3: in a state with pairwise distinct shelter ids, a successful
`allocateShelter(id)` reporting shelter `b` replaces exactly the shelter
with id `b`: its `capacityOccupied` is the previous value plus 1 and not
greater than its `capacityTotal`, its `capacityTotal` is unchanged, and
every other shelter of the list is unchanged. -/
theorem allocateShelter_frame (st st2 : State) (id b m : Int)
    (hids : (st.shelters.map Shelter.id).Nodup)
    (h : allocateShelter st id = some (AllocOutcome.success b m, st2)) :
    ∃ pre s post,
      st.shelters = pre ++ s :: post ∧ s.id = b ∧
      st2.shelters = pre ++ s.occupy id :: post ∧
      (s.occupy id).capacityOccupied = s.capacityOccupied + 1 ∧
      (s.occupy id).capacityOccupied ≤ (s.occupy id).capacityTotal ∧
      (s.occupy id).capacityTotal = s.capacityTotal ∧
      (s.occupy id).allocatedPersonIDs = s.allocatedPersonIDs ++ [id] := by
  obtain ⟨rec, distances, pre, s, post, _, _, _, hsplit, hbs, _, hcand, _, _, _, hst⟩ :=
    allocateShelter_success_shape hids h
  refine ⟨pre, s, post, hsplit, hbs.symm, by rw [hst], rfl, ?_, rfl, rfl⟩
  have := hcand.1
  show s.capacityOccupied + 1 ≤ s.capacityTotal
  omega

/-- Witness of C3 on the sample data. -/
theorem allocateShelter_frame_witness :
    (((initializeSampleData 0).shelters.map Shelter.id).Nodup) ∧
      allocateShelter (initializeSampleData 0) 101
        = some (AllocOutcome.success 1 17, sampleAfter101) ∧
      ∃ pre s post,
        (initializeSampleData 0).shelters = pre ++ s :: post ∧ s.id = 1 ∧
        sampleAfter101.shelters = pre ++ s.occupy 101 :: post ∧
        (s.occupy 101).capacityOccupied = s.capacityOccupied + 1 ∧
        (s.occupy 101).capacityOccupied ≤ (s.occupy 101).capacityTotal ∧
        (s.occupy 101).capacityTotal = s.capacityTotal ∧
        (s.occupy 101).allocatedPersonIDs = s.allocatedPersonIDs ++ [101] :=
  ⟨by decide, by rfl, allocateShelter_frame (initializeSampleData 0) sampleAfter101 101 1 17 (by decide) (by rfl)⟩

/-- C8: when `allocateShelter(id)` succeeds, a second `allocateShelter(id)`
on the resulting state reports AlreadyAllocated and returns that state
unchanged. -/
theorem allocateShelter_twice (st st2 : State) (id b m : Int)
    (h : allocateShelter st id = some (AllocOutcome.success b m, st2)) :
    allocateShelter st2 id = some (AllocOutcome.alreadyAllocated, st2) := by
  obtain ⟨rec, distances, shelters2, _, _, _, _, _, _, hst⟩ := allocateShelter_success h
  have hrec2 : st2.homelessRecords id
      = some { rec with allocated := true, allocatedShelterID := b } := by
    rw [hst]
    simp [storeRecord]
  unfold allocateShelter searchHomeless
  rw [hrec2]
  simp

/-- Witness of C8 on the sample data. -/
theorem allocateShelter_twice_witness :
    allocateShelter (initializeSampleData 0) 101
        = some (AllocOutcome.success 1 17, sampleAfter101) ∧
      allocateShelter sampleAfter101 101 = some (AllocOutcome.alreadyAllocated, sampleAfter101) :=
  ⟨by rfl, allocateShelter_twice (initializeSampleData 0) sampleAfter101 101 1 17 (by rfl)⟩

/-! ## Allocation failures -/

theorem candidate_le {g : List (List Edge)} {n : Nat} {src : Int} {distances : List Int}
    (hd : dijkstra g n src = some distances) {s : Shelter} {d : Int}
    (h : Candidate distances s d) : d < INT_MAX := by
  obtain ⟨k, _, hk⟩ := (getAt_some_iff _ _ _).1 h.2.1
  have := (dijkstra_bound hd).1 d (List.getElem?_mem hk)
  have := h.2.2
  omega

/-- C9 (amended): for a stored, unallocated request whose distance vector
`dijkstra(rec.locationNodeID)` is `distances`, in a state in which every
shelter node is inside the graph and no shelter has the id -1:
`allocateShelter` reports NoAvailableShelter exactly when no shelter has
`capacityOccupied < capacityTotal` together with a finite distance; and
for every request id, a call that reports NotFound, AlreadyAllocated or
NoAvailableShelter returns the state unchanged. -/
theorem allocateShelter_noAvailable_iff (st : State) (id : Int) (rec : Homeless)
    (distances : List Int)
    (hrec : st.homelessRecords id = some rec) (hun : rec.allocated = false)
    (hd : dijkstra st.graph st.nodeCount rec.locationNodeID = some distances)
    (hnodes : ∀ s ∈ st.shelters, 0 ≤ s.nodeID ∧ s.nodeID < (st.nodeCount : Int))
    (hneg : ∀ s ∈ st.shelters, s.id ≠ -1) :
    ((∃ st2, allocateShelter st id = some (AllocOutcome.noAvailableShelter, st2)) ↔
        ¬ ∃ s ∈ st.shelters, ∃ d, Candidate distances s d) ∧
    (∀ (id2 : Int) (r : AllocOutcome) (st2 : State),
        allocateShelter st id2 = some (r, st2) →
        r = AllocOutcome.notFound ∨ r = AllocOutcome.alreadyAllocated ∨
          r = AllocOutcome.noAvailableShelter →
        st2 = st) := by
  constructor
  · have hsome : (selectShelter distances st.shelters (-1) INT_MAX).isSome := by
      apply selectShelter_isSome
      intro x hx
      rw [getAt_isSome_iff, (dijkstra_bound hd).2]
      exact hnodes x hx
    obtain ⟨⟨b2, m2⟩, hsel⟩ := Option.isSome_iff_exists.1 hsome
    have hrun : allocateShelter st id =
        if b2 = -1 then some (AllocOutcome.noAvailableShelter, st)
        else
          match occupyShelter b2 id st.shelters with
          | none => some (AllocOutcome.unmatched, st)
          | some shelters2 =>
            some (AllocOutcome.success b2 m2,
              { st with
                shelters := shelters2,
                homelessRecords := storeRecord st.homelessRecords id
                  { rec with allocated := true, allocatedShelterID := b2 } }) := by
      unfold allocateShelter searchHomeless
      simp only [hrec, hun, hd, hsel, Bool.false_eq_true, if_false]
    have hkey : b2 = -1 ↔ ¬ ∃ s ∈ st.shelters, ∃ d, Candidate distances s d := by
      rcases selectShelter_spec _ _ _ _ _ _ hsel with ⟨hb, _, hall⟩ |
        ⟨pre, s, post, hsplit, hbs, hcand, _, _, _⟩
      · refine ⟨fun _ => ?_, fun _ => hb⟩
        rintro ⟨s, hs, d, hc⟩
        have h1 := hall s hs d hc
        have h2 := candidate_le hd hc
        omega
      · have hmem : s ∈ st.shelters := by rw [hsplit]; simp
        refine ⟨fun hb => absurd (hbs ▸ hb) (hneg s hmem), fun hno => ?_⟩
        exact absurd ⟨s, hmem, m2, hcand⟩ hno
    rw [← hkey, hrun]
    constructor
    · rintro ⟨st2, h⟩
      by_contra hb
      rw [if_neg hb] at h
      cases ho : occupyShelter b2 id st.shelters with
      | none => simp [ho] at h
      | some sh => simp [ho] at h
    · intro hb
      exact ⟨st, by rw [if_pos hb]⟩
  · intro id2 r st2 h hr
    apply allocateShelter_failure h
    intro b m hbm
    rcases hr with hr | hr | hr <;> rw [hr] at hbm <;> cases hbm

/-- Witness of C9: the one-node state whose only shelter is full. -/
theorem allocateShelter_noAvailable_iff_witness :
    (tinyState fullShelter).homelessRecords 7 = some tinyRecord ∧
      tinyRecord.allocated = false ∧
      dijkstra (tinyState fullShelter).graph (tinyState fullShelter).nodeCount
        tinyRecord.locationNodeID = some [0] ∧
      ((∃ st2, allocateShelter (tinyState fullShelter) 7
          = some (AllocOutcome.noAvailableShelter, st2)) ↔
        ¬ ∃ s ∈ (tinyState fullShelter).shelters, ∃ d, Candidate [0] s d) ∧
      (∀ (id2 : Int) (r : AllocOutcome) (st2 : State),
        allocateShelter (tinyState fullShelter) id2 = some (r, st2) →
        r = AllocOutcome.notFound ∨ r = AllocOutcome.alreadyAllocated ∨
          r = AllocOutcome.noAvailableShelter →
        st2 = tinyState fullShelter) :=
  ⟨by rfl, by rfl, by decide,
    allocateShelter_noAvailable_iff (tinyState fullShelter) 7 tinyRecord [0] (by rfl) (by rfl)
      (by decide) (by simp [tinyState, fullShelter]) (by simp [tinyState, fullShelter])⟩

/-- C9 as stated fails for a shelter whose id is -1, the value
`allocateShelter` keeps in `bestShelter` for "none": in `tinyState
minusOneShelter` the shelter has a free bed at distance 0 from the request,
and `allocateShelter(7)` reports NoAvailableShelter. -/
theorem allocateShelter_noAvailable_counterexample :
    (tinyState minusOneShelter).homelessRecords 7 = some tinyRecord ∧
      tinyRecord.allocated = false ∧
      dijkstra (tinyState minusOneShelter).graph (tinyState minusOneShelter).nodeCount
        tinyRecord.locationNodeID = some [0] ∧
      allocateShelter (tinyState minusOneShelter) 7
        = some (AllocOutcome.noAvailableShelter, tinyState minusOneShelter) ∧
      ∃ s ∈ (tinyState minusOneShelter).shelters, ∃ d, Candidate [0] s d := by
  refine ⟨by rfl, by rfl, by decide, by rfl, ⟨-1, "A", 0, 1, 0, "", []⟩, ?_, 0, ?_⟩
  · simp [tinyState, minusOneShelter]
  · exact ⟨by decide, by rfl, by decide⟩

/-! ## Capacity update and release -/

theorem updateCapacityLoop_split (newCap : Int) (s : Shelter) (post : List Shelter) :
    ∀ (pre : List Shelter), (∀ x ∈ pre, x.id ≠ s.id) →
      updateCapacityLoop s.id newCap (pre ++ s :: post) =
        if newCap ≥ s.capacityOccupied then
          (CapacityOutcome.updated, pre ++ { s with capacityTotal := newCap } :: post)
        else (CapacityOutcome.belowOccupancy, pre ++ s :: post) := by
  intro pre
  induction pre with
  | nil =>
    intro _
    simp only [List.nil_append, updateCapacityLoop, if_true]
  | cons x pre ih =>
    intro hpre
    have hx : x.id ≠ s.id := hpre x (List.mem_cons_self _ _)
    have := ih (fun y hy => hpre y (List.mem_cons_of_mem _ hy))
    show updateCapacityLoop s.id newCap (x :: (pre ++ s :: post)) = _
    rw [updateCapacityLoop, if_neg hx, this]
    split <;> rfl

/-- C10 (counterexample): in `twinState` the shelters "Far" and "Near" have
the id 5, "Far" first with 1 occupant, "Near" with none.  For the shelter
"Near" and the new capacity 0, which is not below its `capacityOccupied`,
the operation reports CapacityBelowOccupancy; and for the new capacity 3
it reports success while the `capacityTotal` of "Near" stays 1 and the
`capacityTotal` of "Far" becomes 3. -/
theorem updateCapacity_twin_counterexample :
    twinState.shelters = [⟨5, "Far", 1, 1, 1, "", []⟩, ⟨5, "Near", 0, 1, 0, "", []⟩] ∧
    (updateCapacity twinState 5 0).1 = CapacityOutcome.belowOccupancy ∧
    (updateCapacity twinState 5 3).1 = CapacityOutcome.updated ∧
    (updateCapacity twinState 5 3).2.shelters
      = [⟨5, "Far", 1, 3, 1, "", []⟩, ⟨5, "Near", 0, 1, 0, "", []⟩] := by
  refine ⟨by decide, by decide, by decide, by decide⟩

/-- C10 (amended): for the shelter `s` that the update-capacity operation
addresses, the first of the list with its id (every shelter when the ids
are distinct), and every integer `newCap`: the operation reports
CapacityBelowOccupancy exactly when `newCap < s.capacityOccupied`; in that
case the state, `capacityTotal` included, is unchanged; otherwise it
reports success and the state differs only in that shelter's
`capacityTotal`, which is `newCap`. -/
theorem updateCapacity_spec (st : State) (newCap : Int) (pre : List Shelter) (s : Shelter)
    (post : List Shelter) (hsplit : st.shelters = pre ++ s :: post)
    (hfirst : ∀ x ∈ pre, x.id ≠ s.id) :
    ((updateCapacity st s.id newCap).1 = CapacityOutcome.belowOccupancy ↔
        newCap < s.capacityOccupied) ∧
    (newCap < s.capacityOccupied → (updateCapacity st s.id newCap).2 = st) ∧
    (¬ newCap < s.capacityOccupied →
      (updateCapacity st s.id newCap).1 = CapacityOutcome.updated ∧
      (updateCapacity st s.id newCap).2 =
        { st with shelters := pre ++ { s with capacityTotal := newCap } :: post }) := by
  have hloop := updateCapacityLoop_split newCap s post pre hfirst
  unfold updateCapacity
  rw [hsplit, hloop]
  by_cases hc : newCap ≥ s.capacityOccupied
  · rw [if_pos hc]
    refine ⟨⟨fun h => by simp at h, fun h => by omega⟩, fun h => by omega, fun _ => ⟨rfl, rfl⟩⟩
  · rw [if_neg hc]
    refine ⟨⟨fun _ => by omega, fun _ => rfl⟩, fun _ => ?_, fun h => by omega⟩
    show ({ st with shelters := pre ++ s :: post } : State) = st
    rw [← hsplit]

/-- Witness of C10 (amended): shelter 2 of the sample data (28 of 40 beds occupied)
and the new capacity 20. -/
theorem updateCapacity_spec_witness :
    (initializeSampleData 0).shelters
        = [⟨1, "Hope Shelter", 4, 50, 35, "9876543210", []⟩]
          ++ ⟨2, "Care Center", 7, 40, 28, "9876543211", []⟩
          :: [⟨3, "Safe Haven", 10, 60, 45, "9876543212", []⟩,
              ⟨4, "Community Home", 13, 30, 15, "9876543213", []⟩] ∧
      (updateCapacity (initializeSampleData 0) 2 20).1 = CapacityOutcome.belowOccupancy ∧
      (updateCapacity (initializeSampleData 0) 2 20).2 = initializeSampleData 0 :=
  ⟨by rfl,
    ((updateCapacity_spec (initializeSampleData 0) 20
        [⟨1, "Hope Shelter", 4, 50, 35, "9876543210", []⟩]
        ⟨2, "Care Center", 7, 40, 28, "9876543211", []⟩
        [⟨3, "Safe Haven", 10, 60, 45, "9876543212", []⟩,
         ⟨4, "Community Home", 13, 30, 15, "9876543213", []⟩]
        (by rfl) (by decide)).1).2 (by decide),
    (updateCapacity_spec (initializeSampleData 0) 20
        [⟨1, "Hope Shelter", 4, 50, 35, "9876543210", []⟩]
        ⟨2, "Care Center", 7, 40, 28, "9876543211", []⟩
        [⟨3, "Safe Haven", 10, 60, 45, "9876543212", []⟩,
         ⟨4, "Community Home", 13, 30, 15, "9876543213", []⟩]
        (by rfl) (by decide)).2.1 (by decide)⟩

theorem vacateShelter_split (b id : Int) (s : Shelter) (post : List Shelter) :
    ∀ (pre : List Shelter), (∀ x ∈ pre, x.id ≠ b) → s.id = b →
      vacateShelter b id (pre ++ s :: post) =
        some (pre ++ { s with capacityOccupied := s.capacityOccupied - 1,
                              allocatedPersonIDs := s.allocatedPersonIDs.erase id } :: post) := by
  intro pre
  induction pre with
  | nil =>
    intro _ hs
    simp [vacateShelter, hs]
  | cons x pre ih =>
    intro hpre hs
    have hx : x.id ≠ b := hpre x (List.mem_cons_self _ _)
    simp [vacateShelter, hx, ih (fun y hy => hpre y (List.mem_cons_of_mem _ hy)) hs]

theorem vacate_occupy (s : Shelter) (id : Int) (h : id ∉ s.allocatedPersonIDs) :
    ({ s.occupy id with
        capacityOccupied := (s.occupy id).capacityOccupied - 1,
        allocatedPersonIDs := (s.occupy id).allocatedPersonIDs.erase id } : Shelter) = s := by
  cases s with
  | mk sid name node total occ contact ids =>
    simp only [Shelter.occupy, Shelter.mk.injEq, true_and]
    refine ⟨by omega, ?_⟩
    have h2 : id ∉ ids := h
    rw [List.erase_append_right _ h2]
    simp

theorem storeRecord_restore (records : Int → Option Homeless) (id : Int) (rec r1 : Homeless)
    (h : records id = some rec) :
    storeRecord (storeRecord records id r1) id rec = records := by
  funext k
  unfold storeRecord
  by_cases hk : k = id
  · simp [hk, h]
  · simp [hk]

/-- C7: in a state with pairwise distinct shelter ids in which the request
`id` is stored, has `allocatedShelterID = -1` and occurs in no occupant
list, a successful `allocateShelter(id)` followed by the release operation
on `id` reports the release from the shelter of the allocation and gives
back the state before the allocation: every shelter and the request's
record are as they were. -/
theorem allocate_release_roundtrip (st st1 : State) (id b m : Int) (rec : Homeless)
    (hids : (st.shelters.map Shelter.id).Nodup)
    (hrec : st.homelessRecords id = some rec)
    (hsid : rec.allocatedShelterID = -1)
    (habs : ∀ s ∈ st.shelters, id ∉ s.allocatedPersonIDs)
    (h : allocateShelter st id = some (AllocOutcome.success b m, st1)) :
    releasePerson st1 id = (ReleaseOutcome.released b, st) := by
  obtain ⟨rec2, distances, pre, s, post, hrec2, hun, _, hsplit, hbs, _, _, hpid, _, _, hst⟩ :=
    allocateShelter_success_shape hids h
  have hr : rec2 = rec := Option.some.inj (hrec2.symm.trans hrec)
  subst hr
  have hmem : s ∈ st.shelters := by rw [hsplit]; simp
  have hrec1 : st1.homelessRecords id
      = some { rec2 with allocated := true, allocatedShelterID := b } := by
    rw [hst]
    simp [storeRecord]
  have hvac := vacateShelter_split b id (s.occupy id) post pre hpid hbs.symm
  rw [vacate_occupy s id (habs s hmem), ← hsplit] at hvac
  have hsh1 : st1.shelters = pre ++ s.occupy id :: post := by rw [hst]
  have hback : ({ ({ rec2 with allocated := true, allocatedShelterID := b } : Homeless) with
      allocated := false, allocatedShelterID := -1 } : Homeless) = rec2 := by
    cases rec2
    simp_all
  unfold releasePerson searchHomeless
  rw [hrec1]
  simp only [Bool.not_true, Bool.false_eq_true, if_false, hsh1, hvac, hback]
  rw [hst]
  simp only [storeRecord_restore _ _ _ _ hrec]

/-- Witness of C7 on the sample data: request 101 is allocated to shelter 1
and released again. -/
theorem allocate_release_roundtrip_witness :
    (((initializeSampleData 0).shelters.map Shelter.id).Nodup) ∧
      (∀ s ∈ (initializeSampleData 0).shelters, (101 : Int) ∉ s.allocatedPersonIDs) ∧
      allocateShelter (initializeSampleData 0) 101
        = some (AllocOutcome.success 1 17, sampleAfter101) ∧
      releasePerson sampleAfter101 101 = (ReleaseOutcome.released 1, initializeSampleData 0) :=
  ⟨by decide, by decide, by rfl,
    allocate_release_roundtrip (initializeSampleData 0) sampleAfter101 101 1 17
      ⟨101, "Ramesh Kumar", 45, "Male", 0, false, 45, "Need food urgently", 0, false, -1⟩
      (by decide) (by rfl) (by rfl) (by decide) (by rfl)⟩

/-! ## Reachable states are consistent -/

theorem initialOccupied_nonneg (id : Int) : 0 ≤ initialOccupied id := by
  unfold initialOccupied sampleShelters
  cases h1 : decide ((1 : Int) = id) <;> cases h2 : decide ((2 : Int) = id) <;>
    cases h3 : decide ((3 : Int) = id) <;> cases h4 : decide ((4 : Int) = id) <;>
    simp [List.find?, h1, h2, h3, h4]

theorem ids_ne_of_split {pre post : List Shelter} {s : Shelter}
    (hnd : ((pre ++ s :: post).map Shelter.id).Nodup) :
    (∀ x ∈ pre, x.id ≠ s.id) ∧ (∀ x ∈ post, x.id ≠ s.id) := by
  rw [List.map_append, List.map_cons, List.nodup_append] at hnd
  obtain ⟨_, h2, h3⟩ := hnd
  rw [List.nodup_cons] at h2
  constructor
  · intro x hx heq
    exact h3 (List.mem_map_of_mem _ hx) (heq ▸ List.mem_cons_self _ _)
  · intro x hx heq
    apply h2.1
    rw [← heq]
    exact List.mem_map_of_mem _ hx

theorem mem_split_cases {pre post : List Shelter} {s x : Shelter}
    (h : x ∈ pre ++ s :: post) : x = s ∨ x ∈ pre ∨ x ∈ post := by
  rcases List.mem_append.1 h with h | h
  · exact Or.inr (Or.inl h)
  · rcases List.mem_cons.1 h with h | h
    · exact Or.inl h
    · exact Or.inr (Or.inr h)

theorem mem_replaced {pre post : List Shelter} {t x : Shelter}
    (h : x ∈ pre ∨ x ∈ post) : x ∈ pre ++ t :: post := by
  rcases h with h | h
  · exact List.mem_append_left _ h
  · exact List.mem_append_right _ (List.mem_cons_of_mem _ h)

theorem ids_replace {pre post : List Shelter} {s t : Shelter} (h : t.id = s.id) :
    (pre ++ t :: post).map Shelter.id = (pre ++ s :: post).map Shelter.id := by
  simp [h]

theorem loadSample_records (now : Int) :
    ∀ (l : List Homeless) (st : State),
      (∀ h ∈ l, h.allocated = false) →
      (∀ id rec, st.homelessRecords id = some rec → rec.id = id ∧ rec.allocated = false) →
      ∀ id rec, (l.foldl (loadSample now) st).homelessRecords id = some rec →
        rec.id = id ∧ rec.allocated = false := by
  intro l
  induction l with
  | nil => intro st _ hst; exact hst
  | cons h l ih =>
    intro st hl hst
    apply ih _ (fun x hx => hl x (List.mem_cons_of_mem _ hx))
    intro id rec hr
    simp only [loadSample, storeRecord, calculatePriority] at hr
    split at hr
    · cases hr
      subst_vars
      exact ⟨rfl, hl h (List.mem_cons_self _ _)⟩
    · exact hst id rec hr

theorem consistent_init (now : Int) : Consistent (initializeSampleData now) := by
  have hsh : (initializeSampleData now).shelters = sampleShelters := rfl
  have hrec : ∀ id rec, (initializeSampleData now).homelessRecords id = some rec →
      rec.id = id ∧ rec.allocated = false := by
    apply loadSample_records
    · intro h hh
      simp only [sampleRecords, List.mem_cons, List.mem_singleton, List.not_mem_nil,
        or_false] at hh
      rcases hh with rfl | rfl | rfl | rfl | rfl <;> rfl
    · intro id rec h
      cases h
  refine ⟨by rw [hsh]; decide, ?_, ?_, ?_, ?_, ?_, ?_⟩
  · rw [hsh]; decide
  · rw [hsh]; decide
  · exact fun id rec h => (hrec id rec h).1
  · intro id rec h ha
    rw [(hrec id rec h).2] at ha
    cases ha
  · intro s hs x hx
    rw [hsh] at hs
    simp only [sampleShelters, List.mem_cons, List.mem_singleton, List.not_mem_nil,
      or_false] at hs
    rcases hs with rfl | rfl | rfl | rfl <;> cases hx
  · rw [hsh]; decide

theorem consistent_add {st : State} (h : Homeless) (now : Int) (hc : Consistent st) :
    Consistent (addHomelessRecord st h now).2 := by
  unfold addHomelessRecord
  cases hs : st.homelessRecords h.id with
  | some r => simpa [hs] using hc
  | none =>
    simp only [hs, Option.isSome_none, Bool.false_eq_true, if_false]
    split
    · exact hc
    · refine ⟨hc.ids, hc.occ, hc.cap, ?_, ?_, ?_, hc.nodup⟩
      · intro id rec hr
        simp only [storeRecord] at hr
        split at hr
        · cases hr
          subst_vars
          rfl
        · exact hc.key id rec hr
      · intro id rec hr ha
        simp only [storeRecord] at hr
        split at hr
        · cases hr
          cases ha
        · exact hc.bound id rec hr ha
      · intro s hs2 x hx
        obtain ⟨rec, hr, ha, hb⟩ := hc.listed s hs2 x hx
        refine ⟨rec, ?_, ha, hb⟩
        simp only [storeRecord]
        rw [if_neg]
        · exact hr
        · intro hxe
          rw [hxe] at hr
          have : st.homelessRecords h.id = none := hs
          rw [this] at hr
          cases hr

theorem consistent_allocate {st st2 : State} {r : AllocOutcome} {id : Int}
    (hc : Consistent st) (h : allocateShelter st id = some (r, st2)) : Consistent st2 := by
  by_cases hr : ∃ b m, r = AllocOutcome.success b m
  · obtain ⟨b, m, hr⟩ := hr
    subst hr
    obtain ⟨rec, distances, pre, s, post, hrec, hun, _, hsplit, hbs, _, hcand, _, _, _, hst⟩ :=
      allocateShelter_success_shape hc.ids h
    have hsh2 : st2.shelters = pre ++ s.occupy id :: post := by rw [hst]
    have hrec2 : st2.homelessRecords = storeRecord st.homelessRecords id
        { rec with allocated := true, allocatedShelterID := b } := by rw [hst]
    have hs : s ∈ st.shelters := by rw [hsplit]; simp
    have hold : ∀ x, x ∈ pre ∨ x ∈ post → x ∈ st.shelters := by
      intro x hx
      rw [hsplit]
      exact mem_replaced hx
    have hnotin : id ∉ s.allocatedPersonIDs := by
      intro hin
      obtain ⟨rec3, h3, ha3, _⟩ := hc.listed s hs id hin
      rw [hrec] at h3
      cases h3
      rw [hun] at ha3
      cases ha3
    refine ⟨?_, ?_, ?_, ?_, ?_, ?_, ?_⟩
    · rw [hsh2, ids_replace (s := s) (t := s.occupy id) rfl, ← hsplit]
      exact hc.ids
    · intro x hx
      rw [hsh2] at hx
      rcases mem_split_cases hx with rfl | hx
      · have := hc.occ s hs
        simp only [Shelter.occupy, List.length_append, List.length_singleton, Nat.cast_add,
          Nat.cast_one]
        omega
      · exact hc.occ x (hold x hx)
    · intro x hx
      rw [hsh2] at hx
      rcases mem_split_cases hx with rfl | hx
      · have := hcand.1
        show s.capacityOccupied + 1 ≤ s.capacityTotal
        omega
      · exact hc.cap x (hold x hx)
    · intro k rec3 hk
      rw [hrec2] at hk
      simp only [storeRecord] at hk
      split at hk
      · cases hk
        subst_vars
        exact hc.key _ rec hrec
      · exact hc.key k rec3 hk
    · intro k rec3 hk ha
      rw [hrec2] at hk
      simp only [storeRecord] at hk
      rw [hsh2]
      split at hk
      · cases hk
        subst_vars
        refine ⟨s.occupy k, by simp, rfl, ?_⟩
        simp [Shelter.occupy]
      · obtain ⟨t, ht, hid, hmem⟩ := hc.bound k rec3 hk ha
        rw [hsplit] at ht
        rcases mem_split_cases ht with rfl | ht
        · refine ⟨t.occupy id, by simp, hid, ?_⟩
          simp [Shelter.occupy, hmem]
        · exact ⟨t, mem_replaced ht, hid, hmem⟩
    · intro x hx k hk
      rw [hsh2] at hx
      rw [hrec2]
      rcases mem_split_cases hx with rfl | hx
      · simp only [Shelter.occupy, List.mem_append, List.mem_singleton] at hk
        rcases hk with hk | hk
        · obtain ⟨rec3, h3, ha3, hb3⟩ := hc.listed s hs k hk
          refine ⟨rec3, ?_, ha3, hb3⟩
          simp only [storeRecord]
          rw [if_neg]
          · exact h3
          · intro hke
            rw [hke] at hk
            exact hnotin hk
        · subst hk
          refine ⟨{ rec with allocated := true, allocatedShelterID := b }, ?_, rfl, hbs⟩
          simp [storeRecord]
      · obtain ⟨rec3, h3, ha3, hb3⟩ := hc.listed x (hold x hx) k hk
        refine ⟨rec3, ?_, ha3, hb3⟩
        simp only [storeRecord]
        rw [if_neg]
        · exact h3
        · intro hke
          rw [hke, hrec] at h3
          cases h3
          rw [hun] at ha3
          cases ha3
    · intro x hx
      rw [hsh2] at hx
      rcases mem_split_cases hx with rfl | hx
      · show (s.allocatedPersonIDs ++ [id]).Nodup
        rw [List.nodup_append]
        refine ⟨hc.nodup s hs, List.nodup_singleton _, ?_⟩
        intro a ha1 ha2
        rw [List.mem_singleton] at ha2
        exact hnotin (ha2 ▸ ha1)
      · exact hc.nodup x (hold x hx)
  · have := allocateShelter_failure h (fun b m hbm => hr ⟨b, m, hbm⟩)
    rw [this]
    exact hc

theorem releasePerson_cases (st : State) (id : Int) :
    ((releasePerson st id).2 = st ∧
        ∀ b, (releasePerson st id).1 ≠ ReleaseOutcome.released b) ∨
    ∃ rec shelters2, st.homelessRecords id = some rec ∧ rec.allocated = true ∧
      vacateShelter rec.allocatedShelterID id st.shelters = some shelters2 ∧
      releasePerson st id = (ReleaseOutcome.released rec.allocatedShelterID,
        { st with
          shelters := shelters2,
          homelessRecords := storeRecord st.homelessRecords id
            { rec with allocated := false, allocatedShelterID := -1 } }) := by
  unfold releasePerson searchHomeless
  cases hrec : st.homelessRecords id with
  | none => exact Or.inl ⟨rfl, fun b hb => by cases hb⟩
  | some rec =>
    cases ha : rec.allocated with
    | false =>
      refine Or.inl ⟨?_, ?_⟩ <;> simp [ha]
    | true =>
      cases hv : vacateShelter rec.allocatedShelterID id st.shelters with
      | none => refine Or.inl ⟨?_, ?_⟩ <;> simp [ha, hv]
      | some shelters2 =>
        refine Or.inr ⟨rec, shelters2, rfl, ha, hv, ?_⟩
        simp [ha, hv]

theorem consistent_release {st : State} (id : Int) (hc : Consistent st) :
    Consistent (releasePerson st id).2 := by
  rcases releasePerson_cases st id with h | ⟨rec, shelters2, hrec, ha, hv, hrun⟩
  · rw [h.1]
    exact hc
  · rw [hrun]
    obtain ⟨s, hs, hsid, hmem⟩ := hc.bound id rec hrec ha
    obtain ⟨pre, post, hsplit⟩ := List.append_of_mem hs
    have hne := ids_ne_of_split (hsplit ▸ hc.ids)
    have hvac := vacateShelter_split rec.allocatedShelterID id s post pre
      (fun x hx => hsid ▸ hne.1 x hx) hsid
    rw [← hsplit, hv] at hvac
    have hsh2 := Option.some.inj hvac
    subst hsh2
    have hold : ∀ x, x ∈ pre ∨ x ∈ post → x ∈ st.shelters := by
      intro x hx
      rw [hsplit]
      exact mem_replaced hx
    have hother : ∀ x, x ∈ pre ∨ x ∈ post → id ∉ x.allocatedPersonIDs := by
      intro x hx hin
      obtain ⟨rec3, h3, _, hb3⟩ := hc.listed x (hold x hx) id hin
      rw [hrec] at h3
      cases h3
      rcases hx with hx | hx
      · exact hne.1 x hx (hb3.symm.trans hsid.symm)
      · exact hne.2 x hx (hb3.symm.trans hsid.symm)
    refine ⟨?_, ?_, ?_, ?_, ?_, ?_, ?_⟩
    · show ((pre ++ _ :: post).map Shelter.id).Nodup
      have := hc.ids
      rw [hsplit] at this
      simpa using this
    · intro x hx
      rcases mem_split_cases hx with rfl | hx
      · have h1 := hc.occ s hs
        have h2 := List.length_erase_of_mem hmem
        have h3 := List.length_pos_of_mem hmem
        show s.capacityOccupied - 1
          = initialOccupied s.id + ((s.allocatedPersonIDs.erase id).length : Int)
        rw [h2]
        omega
      · exact hc.occ x (hold x hx)
    · intro x hx
      rcases mem_split_cases hx with rfl | hx
      · have := hc.cap s hs
        show s.capacityOccupied - 1 ≤ s.capacityTotal
        omega
      · exact hc.cap x (hold x hx)
    · intro k rec3 hk
      simp only [storeRecord] at hk
      split at hk
      · cases hk
        subst_vars
        exact hc.key _ rec hrec
      · exact hc.key k rec3 hk
    · intro k rec3 hk ha3
      simp only [storeRecord] at hk
      split at hk
      · cases hk
        cases ha3
      · rename_i hkne
        obtain ⟨t, ht, hid, hm⟩ := hc.bound k rec3 hk ha3
        rw [hsplit] at ht
        rcases mem_split_cases ht with rfl | ht
        · exact ⟨{ t with capacityOccupied := t.capacityOccupied - 1,
                          allocatedPersonIDs := t.allocatedPersonIDs.erase id },
            by simp, hid, (List.mem_erase_of_ne hkne).2 hm⟩
        · exact ⟨t, mem_replaced ht, hid, hm⟩
    · intro x hx k hk
      have hkey : k ≠ id ∧ ∃ y ∈ st.shelters, y.id = x.id ∧ k ∈ y.allocatedPersonIDs := by
        rcases mem_split_cases hx with rfl | hx
        · have hk2 : k ∈ s.allocatedPersonIDs.erase id := hk
          rw [(hc.nodup s hs).mem_erase_iff] at hk2
          exact ⟨hk2.1, s, hs, rfl, hk2.2⟩
        · refine ⟨?_, x, hold x hx, rfl, hk⟩
          intro hke
          exact hother x hx (hke ▸ hk)
      obtain ⟨hkne, y, hy, hyid, hky⟩ := hkey
      obtain ⟨rec3, h3, ha3, hb3⟩ := hc.listed y hy k hky
      refine ⟨rec3, ?_, ha3, hb3.trans hyid⟩
      simp only [storeRecord]
      rw [if_neg hkne]
      exact h3
    · intro x hx
      rcases mem_split_cases hx with rfl | hx
      · exact (hc.nodup s hs).erase id
      · exact hc.nodup x (hold x hx)

theorem updateCapacityLoop_cases (shelterID newCap : Int) :
    ∀ (l : List Shelter),
      (updateCapacityLoop shelterID newCap l).2 = l ∨
      ∃ pre s post, l = pre ++ s :: post ∧ newCap ≥ s.capacityOccupied ∧
        (updateCapacityLoop shelterID newCap l).2
          = pre ++ { s with capacityTotal := newCap } :: post := by
  intro l
  induction l with
  | nil => exact Or.inl rfl
  | cons x l ih =>
    rw [updateCapacityLoop]
    by_cases hx : x.id = shelterID
    · rw [if_pos hx]
      by_cases hc : newCap ≥ x.capacityOccupied
      · rw [if_pos hc]
        exact Or.inr ⟨[], x, l, rfl, hc, rfl⟩
      · rw [if_neg hc]
        exact Or.inl rfl
    · rw [if_neg hx]
      rcases ih with h | ⟨pre, s, post, h1, h2, h3⟩
      · exact Or.inl (by rw [h])
      · exact Or.inr ⟨x :: pre, s, post, by rw [h1]; rfl, h2, by rw [h3]; rfl⟩

theorem consistent_capacity {st : State} (shelterID newCap : Int) (hc : Consistent st) :
    Consistent (updateCapacity st shelterID newCap).2 := by
  unfold updateCapacity
  rcases updateCapacityLoop_cases shelterID newCap st.shelters with h | ⟨pre, s, post, h1, h2, h3⟩
  · rw [h]
    exact hc
  · rw [h3]
    have hs : s ∈ st.shelters := by rw [h1]; simp
    have hold : ∀ x, x ∈ pre ∨ x ∈ post → x ∈ st.shelters := by
      intro x hx
      rw [h1]
      exact mem_replaced hx
    refine ⟨?_, ?_, ?_, hc.key, ?_, ?_, ?_⟩
    · show ((pre ++ _ :: post).map Shelter.id).Nodup
      rw [ids_replace (s := s) (t := { s with capacityTotal := newCap }) rfl, ← h1]
      exact hc.ids
    · intro x hx
      rcases mem_split_cases hx with rfl | hx
      · exact hc.occ s hs
      · exact hc.occ x (hold x hx)
    · intro x hx
      rcases mem_split_cases hx with rfl | hx
      · exact h2
      · exact hc.cap x (hold x hx)
    · intro k rec hk ha
      obtain ⟨t, ht, hid, hm⟩ := hc.bound k rec hk ha
      rw [h1] at ht
      rcases mem_split_cases ht with rfl | ht
      · exact ⟨{ t with capacityTotal := newCap }, by simp, hid, hm⟩
      · exact ⟨t, mem_replaced ht, hid, hm⟩
    · intro x hx k hk
      rcases mem_split_cases hx with rfl | hx
      · exact hc.listed s hs k hk
      · exact hc.listed x (hold x hx) k hk
    · intro x hx
      rcases mem_split_cases hx with rfl | hx
      · exact hc.nodup s hs
      · exact hc.nodup x (hold x hx)

theorem reachable_consistent {st : State} (h : Reachable st) : Consistent st := by
  induction h with
  | init now => exact consistent_init now
  | add h now _ ih => exact consistent_add h now ih
  | allocate id _ hrun ih => exact consistent_allocate ih hrun
  | release id _ ih => exact consistent_release id ih
  | capacity shelterID newCap _ ih => exact consistent_capacity shelterID newCap ih

/-! ## Invariants of the reachable states -/

/-- C4: in every state reachable from the sample data through
`addHomelessRecord`, `allocateShelter`, the release operation and the
update-capacity operation, every shelter satisfies
`0 ≤ capacityOccupied ≤ capacityTotal`. -/
theorem reachable_capacity_bounds (st : State) (h : Reachable st) :
    ∀ s ∈ st.shelters, 0 ≤ s.capacityOccupied ∧ s.capacityOccupied ≤ s.capacityTotal := by
  intro s hs
  have hc := reachable_consistent h
  have h1 := hc.occ s hs
  have h2 := initialOccupied_nonneg s.id
  exact ⟨by omega, hc.cap s hs⟩

/-- Witness of C4: the sample data after `allocateShelter(101)`. -/
theorem reachable_capacity_bounds_witness :
    Reachable sampleAfter101 ∧
      ∀ s ∈ sampleAfter101.shelters,
        0 ≤ s.capacityOccupied ∧ s.capacityOccupied ≤ s.capacityTotal :=
  ⟨Reachable.allocate 101 (Reachable.init 0) (by rfl),
    reachable_capacity_bounds sampleAfter101
      (Reachable.allocate 101 (Reachable.init 0) (by rfl))⟩

/-- C5 (amended): in every state reachable from the sample data through
`addHomelessRecord`, `allocateShelter`, the release operation and the
update-capacity operation, every shelter's `capacityOccupied` equals the
length of its `allocatedPersonIDs` plus the occupancy that
`initializeSampleData` gave the shelter with that id (35, 28, 45 and 15 for
the shelters 1 to 4). -/
theorem reachable_occupancy_length (st : State) (h : Reachable st) :
    (∀ s ∈ st.shelters,
      s.capacityOccupied = initialOccupied s.id + (s.allocatedPersonIDs.length : Int)) ∧
    initialOccupied 1 = 35 ∧ initialOccupied 2 = 28 ∧ initialOccupied 3 = 45 ∧
    initialOccupied 4 = 15 :=
  ⟨(reachable_consistent h).occ, by decide, by decide, by decide, by decide⟩

/-- Witness of C5: the sample data after `allocateShelter(101)`. -/
theorem reachable_occupancy_length_witness :
    Reachable sampleAfter101 ∧
      ∀ s ∈ sampleAfter101.shelters,
        s.capacityOccupied = initialOccupied s.id + (s.allocatedPersonIDs.length : Int) :=
  ⟨Reachable.allocate 101 (Reachable.init 0) (by rfl),
    (reachable_occupancy_length sampleAfter101
      (Reachable.allocate 101 (Reachable.init 0) (by rfl))).1⟩

/-- C5 as stated fails in the state built by `initializeSampleData`: every
shelter has an empty occupant list and a positive `capacityOccupied`, for
shelter 1 the length 0 against 35. -/
theorem reachable_occupancy_length_counterexample :
    Reachable (initializeSampleData 0) ∧
      ∃ s ∈ (initializeSampleData 0).shelters,
        s.id = 1 ∧ s.allocatedPersonIDs.length = 0 ∧ s.capacityOccupied = 35 ∧
        (s.allocatedPersonIDs.length : Int) ≠ s.capacityOccupied :=
  ⟨Reachable.init 0, ⟨1, "Hope Shelter", 4, 50, 35, "9876543210", []⟩,
    by decide, rfl, rfl, rfl, by decide⟩

/-- C6: in every state reachable from the sample data through
`addHomelessRecord`, `allocateShelter`, the release operation and the
update-capacity operation, the shelters have pairwise distinct ids and for
every stored request `rec` under the key `id`: `rec.id = id`; its allocated
flag is true exactly when `id` occurs in the occupant list of a shelter;
every shelter whose list holds `id` has the id `rec.allocatedShelterID` and
is the only such shelter; and no request id occurs in the lists of two
shelters or twice in one list. -/
theorem reachable_allocation_consistent (st : State) (h : Reachable st) :
    (st.shelters.map Shelter.id).Nodup ∧
    (∀ id rec, st.homelessRecords id = some rec →
      rec.id = id ∧
      (rec.allocated = true ↔ ∃ s ∈ st.shelters, id ∈ s.allocatedPersonIDs) ∧
      (∀ s ∈ st.shelters, id ∈ s.allocatedPersonIDs →
        s.id = rec.allocatedShelterID ∧
        ∀ s2 ∈ st.shelters, id ∈ s2.allocatedPersonIDs → s2 = s)) ∧
    (∀ x, ∀ s ∈ st.shelters, ∀ s2 ∈ st.shelters,
      x ∈ s.allocatedPersonIDs → x ∈ s2.allocatedPersonIDs → s = s2) ∧
    (∀ s ∈ st.shelters, s.allocatedPersonIDs.Nodup) := by
  have hc := reachable_consistent h
  have huniq : ∀ x, ∀ s ∈ st.shelters, ∀ s2 ∈ st.shelters,
      x ∈ s.allocatedPersonIDs → x ∈ s2.allocatedPersonIDs → s = s2 := by
    intro x s hs s2 hs2 hx hx2
    obtain ⟨r1, h1, _, hb1⟩ := hc.listed s hs x hx
    obtain ⟨r2, h2, _, hb2⟩ := hc.listed s2 hs2 x hx2
    rw [h1] at h2
    cases h2
    exact List.inj_on_of_nodup_map hc.ids hs hs2 (hb1.symm.trans hb2).symm.symm
  refine ⟨hc.ids, ?_, huniq, hc.nodup⟩
  intro id rec hrec
  refine ⟨hc.key id rec hrec, ⟨?_, ?_⟩, ?_⟩
  · intro ha
    obtain ⟨s, hs, _, hm⟩ := hc.bound id rec hrec ha
    exact ⟨s, hs, hm⟩
  · rintro ⟨s, hs, hm⟩
    obtain ⟨r1, h1, ha1, _⟩ := hc.listed s hs id hm
    rw [hrec] at h1
    cases h1
    exact ha1
  · intro s hs hm
    obtain ⟨r1, h1, _, hb1⟩ := hc.listed s hs id hm
    rw [hrec] at h1
    cases h1
    exact ⟨hb1.symm, fun s2 hs2 hm2 => huniq id s2 hs2 s hs hm2 hm⟩

/-- Witness of C6: the sample data after `allocateShelter(101)`. -/
theorem reachable_allocation_consistent_witness :
    Reachable sampleAfter101 ∧
      (sampleAfter101.homelessRecords 101).map (fun r => (r.allocated, r.allocatedShelterID))
        = some (true, 1) ∧
      (∀ id rec, sampleAfter101.homelessRecords id = some rec →
        rec.id = id ∧
        (rec.allocated = true ↔ ∃ s ∈ sampleAfter101.shelters, id ∈ s.allocatedPersonIDs) ∧
        (∀ s ∈ sampleAfter101.shelters, id ∈ s.allocatedPersonIDs →
          s.id = rec.allocatedShelterID ∧
          ∀ s2 ∈ sampleAfter101.shelters, id ∈ s2.allocatedPersonIDs → s2 = s)) :=
  ⟨Reachable.allocate 101 (Reachable.init 0) (by rfl), by rfl,
    (reachable_allocation_consistent sampleAfter101
      (Reachable.allocate 101 (Reachable.init 0) (by rfl))).2.1⟩

/-! ## Dijkstra: the loop runs to its end -/

theorem getAt_setAt_self {α : Type} {l : List α} {i : Int} (a : α)
    (h : (getAt l i).isSome) : getAt (setAt l i a) i = some a := by
  cases i with
  | ofNat k =>
    have hk : k < l.length := by
      have := (getAt_isSome_iff l (Int.ofNat k)).1 h
      exact Int.ofNat_lt.1 this.2
    show (l.set k a).get? k = some a
    simp [hk]
  | negSucc k => cases h

theorem getAt_setAt_ne {α : Type} {l : List α} {i j : Int} (a : α) (h : i ≠ j) :
    getAt (setAt l i a) j = getAt l j := by
  cases i with
  | ofNat k =>
    cases j with
    | ofNat m =>
      have hkm : k ≠ m := fun e => h (by rw [e])
      show (l.set k a).get? m = l.get? m
      simp [hkm]
    | negSucc m => rfl
  | negSucc k => rfl

theorem getAt_replicate {α : Type} {n : Nat} {a b : α} {i : Int}
    (h : getAt (List.replicate n a) i = some b) : b = a := by
  obtain ⟨k, _, hk⟩ := (getAt_some_iff _ _ _).1 h
  exact List.eq_of_mem_replicate (List.getElem?_mem hk)

theorem getAt_isSome_of_range {α : Type} {l : List α} {n : Nat} {i : Int}
    (hl : l.length = n) (h0 : 0 ≤ i) (h1 : i < (n : Int)) : ∃ a, getAt l i = some a :=
  Option.isSome_iff_exists.1 ((getAt_isSome_iff l i).2 ⟨h0, hl ▸ h1⟩)

theorem getAt_range {α : Type} {l : List α} {n : Nat} {i : Int} {a : α}
    (hl : l.length = n) (h : getAt l i = some a) : 0 ≤ i ∧ i < (n : Int) := by
  have := (getAt_isSome_iff l i).1 (by rw [h]; rfl)
  rw [hl] at this
  exact this

theorem getAt_mem {α : Type} {l : List α} {i : Int} {a : α} (h : getAt l i = some a) :
    a ∈ l := by
  obtain ⟨k, _, hk⟩ := (getAt_some_iff _ _ _).1 h
  exact List.getElem?_mem hk

theorem pqTop_mem : ∀ (pq : List (Int × Int)) (top : Int × Int), pqTop pq = some top → top ∈ pq := by
  intro pq
  induction pq with
  | nil => intro top h; cases h
  | cons a rest ih =>
    intro top h
    unfold pqTop at h
    cases hr : pqTop rest with
    | none =>
      simp only [hr, Option.some.injEq] at h
      rw [← h]
      exact List.mem_cons_self _ _
    | some b =>
      simp only [hr] at h
      split at h
      · cases h
        exact List.mem_cons_of_mem _ (ih _ hr)
      · cases h
        exact List.mem_cons_self _ _

theorem pqTop_none : ∀ (pq : List (Int × Int)), pqTop pq = none → pq = [] := by
  intro pq h
  cases pq with
  | nil => rfl
  | cons a rest =>
    unfold pqTop at h
    cases hr : pqTop rest with
    | none => simp [hr] at h
    | some b =>
      simp only [hr] at h
      split at h <;> cases h

theorem pairLt_false_le {a b : Int × Int} (h : pairLt a b = false) : b.1 ≤ a.1 := by
  unfold pairLt at h
  simp only [Bool.or_eq_false_iff, decide_eq_false_iff_not, not_lt] at h
  exact h.1

theorem pairLt_true_le {a b : Int × Int} (h : pairLt a b = true) : a.1 ≤ b.1 := by
  unfold pairLt at h
  simp only [Bool.or_eq_true, decide_eq_true_eq, Bool.and_eq_true] at h
  rcases h with h | h
  · exact le_of_lt h
  · exact le_of_eq h.1

theorem pqTop_le : ∀ (pq : List (Int × Int)) (top : Int × Int), pqTop pq = some top →
    ∀ p ∈ pq, top.1 ≤ p.1 := by
  intro pq
  induction pq with
  | nil => intro top h; cases h
  | cons a rest ih =>
    intro top h p hp
    unfold pqTop at h
    cases hr : pqTop rest with
    | none =>
      simp only [hr, Option.some.injEq] at h
      have : rest = [] := pqTop_none rest hr
      subst this
      rw [List.mem_singleton] at hp
      rw [← h, hp]
    | some b =>
      simp only [hr] at h
      cases hlt : pairLt b a with
      | true =>
        simp only [hlt, if_true, Option.some.injEq] at h
        subst h
        rcases List.mem_cons.1 hp with rfl | hp
        · exact pairLt_true_le hlt
        · exact ih _ hr p hp
      | false =>
        simp only [hlt, Bool.false_eq_true, if_false, Option.some.injEq] at h
        subst h
        rcases List.mem_cons.1 hp with rfl | hp
        · exact le_refl _
        · exact le_trans (pairLt_false_le hlt) (ih _ hr p hp)

theorem pendingEdges_replicate : ∀ (g : List (List Edge)),
    pendingEdges g (List.replicate g.length false) = edgeCount g := by
  intro g
  induction g with
  | nil => rfl
  | cons adj g ih =>
    show (if false = true then 0 else adj.length)
      + pendingEdges g (List.replicate g.length false) = edgeCount (adj :: g)
    rw [ih]
    simp [edgeCount]

theorem pendingEdges_set : ∀ (g : List (List Edge)) (visited : List Bool) (k : Nat)
    (adj : List Edge), g[k]? = some adj → visited[k]? = some false →
    pendingEdges g (visited.set k true) + adj.length = pendingEdges g visited := by
  intro g
  induction g with
  | nil => intro visited k adj h; simp at h
  | cons a g ih =>
    intro visited k adj hg hv
    cases visited with
    | nil => simp at hv
    | cons b visited =>
      cases k with
      | zero =>
        simp only [List.getElem?_cons_zero, Option.some.injEq] at hg hv
        subst hg hv
        simp [pendingEdges]
        omega
      | succ k =>
        simp only [List.getElem?_cons_succ] at hg hv
        have := ih visited k adj hg hv
        simp only [List.set_cons_succ, pendingEdges]
        omega

theorem relaxEdges_total (n : Nat) (u : Int) :
    ∀ (es : List Edge) (dist : List Int) (pq : List (Int × Int)),
      dist.length = n → 0 ≤ u → u < (n : Int) →
      (∀ e ∈ es, 0 ≤ e.dest ∧ e.dest < (n : Int)) →
      (∀ p ∈ pq, 0 ≤ p.2 ∧ p.2 < (n : Int)) →
      ∃ dist2 pq2, relaxEdges u es dist pq = some (dist2, pq2) ∧ dist2.length = n ∧
        (∀ p ∈ pq2, 0 ≤ p.2 ∧ p.2 < (n : Int)) ∧ pq2.length ≤ pq.length + es.length := by
  intro es
  induction es with
  | nil =>
    intro dist pq hl _ _ _ hpq
    exact ⟨dist, pq, rfl, hl, hpq, by simp⟩
  | cons e es ih =>
    intro dist pq hl hu0 hu1 hes hpq
    have hes2 : ∀ x ∈ es, 0 ≤ x.dest ∧ x.dest < (n : Int) :=
      fun x hx => hes x (List.mem_cons_of_mem _ hx)
    obtain ⟨du, hdu⟩ := getAt_isSome_of_range hl hu0 hu1
    obtain ⟨dv, hdv⟩ := getAt_isSome_of_range hl (hes e (List.mem_cons_self _ _)).1
      (hes e (List.mem_cons_self _ _)).2
    unfold relaxEdges
    simp only [hdu, hdv]
    split
    · obtain ⟨d2, p2, h1, h2, h3, h4⟩ := ih dist pq hl hu0 hu1 hes2 hpq
      exact ⟨d2, p2, h1, h2, h3, by simp only [List.length_cons]; omega⟩
    · split
      · obtain ⟨d2, p2, h1, h2, h3, h4⟩ := ih (setAt dist e.dest (wrapInt (du + e.weight)))
          ((wrapInt (du + e.weight), e.dest) :: pq) (by rw [length_setAt]; exact hl) hu0 hu1 hes2
          (by
            intro p hp
            rcases List.mem_cons.1 hp with rfl | hp
            · exact hes e (List.mem_cons_self _ _)
            · exact hpq p hp)
        refine ⟨d2, p2, h1, h2, h3, ?_⟩
        simp only [List.length_cons] at h4 ⊢
        omega
      · obtain ⟨d2, p2, h1, h2, h3, h4⟩ := ih dist pq hl hu0 hu1 hes2 hpq
        exact ⟨d2, p2, h1, h2, h3, by simp only [List.length_cons]; omega⟩

theorem dijkstraLoop_total {g : List (List Edge)} {n : Nat} (hg : WellFormed g n) :
    ∀ (fuel : Nat) (dist : List Int) (visited : List Bool) (pq : List (Int × Int)),
      dist.length = n → visited.length = n →
      (∀ p ∈ pq, 0 ≤ p.2 ∧ p.2 < (n : Int)) →
      pq.length + pendingEdges g visited < fuel →
      ∃ out, dijkstraLoop g fuel dist visited pq = some out := by
  intro fuel
  induction fuel with
  | zero => intro dist visited pq _ _ _ h; omega
  | succ fuel ih =>
    intro dist visited pq hd hv hpq hm
    unfold dijkstraLoop
    cases ht : pqTop pq with
    | none => exact ⟨dist, rfl⟩
    | some top =>
      have hmem := pqTop_mem pq top ht
      have hr := hpq top hmem
      have hlen : (pq.erase top).length + 1 = pq.length := by
        rw [List.length_erase_of_mem hmem]
        have := List.length_pos_of_mem hmem
        omega
      have hpq2 : ∀ p ∈ pq.erase top, 0 ≤ p.2 ∧ p.2 < (n : Int) :=
        fun p hp => hpq p (List.mem_of_mem_erase hp)
      obtain ⟨b, hb⟩ := getAt_isSome_of_range hv hr.1 hr.2
      cases b with
      | true =>
        simp only [hb]
        exact ih _ _ _ hd hv hpq2 (by omega)
      | false =>
        obtain ⟨adj, hadj⟩ := getAt_isSome_of_range hg.1 hr.1 hr.2
        simp only [hb, hadj]
        obtain ⟨d2, p2, h1, h2, h3, h4⟩ := relaxEdges_total n top.2 adj dist (pq.erase top) hd
          hr.1 hr.2 (hg.2 adj (getAt_mem hadj)) hpq2
        simp only [h1]
        apply ih _ _ _ h2 (by rw [length_setAt]; exact hv) h3
        obtain ⟨k, hk, hgk⟩ := (getAt_some_iff _ _ _).1 hadj
        obtain ⟨k2, hk2, hvk⟩ := (getAt_some_iff _ _ _).1 hb
        have hkk : k2 = k := by
          have := hk.symm.trans hk2
          exact_mod_cast this.symm
        subst hkk
        rw [hk2, setAt_natCast]
        have := pendingEdges_set g visited k2 adj hgk hvk
        omega

theorem dijkstra_total {g : List (List Edge)} {n : Nat} {source : Int}
    (hg : WellFormed g n) (h0 : 0 ≤ source) (h1 : source < (n : Int)) :
    ∃ out, dijkstra g n source = some out := by
  unfold dijkstra
  obtain ⟨a, ha⟩ := getAt_isSome_of_range (List.length_replicate n INT_MAX) h0 h1
  simp only [ha]
  apply dijkstraLoop_total hg
  · rw [length_setAt, List.length_replicate]
  · rw [List.length_replicate]
  · intro p hp
    rw [List.mem_singleton] at hp
    rw [hp]
    exact ⟨h0, h1⟩
  · have := pendingEdges_replicate g
    rw [hg.1] at this
    rw [this]
    simp only [List.length_singleton]
    omega

/-! ## Dijkstra: the invariants -/

theorem hasEdge_weight_nonneg {g : List (List Edge)} {u v w : Int}
    (hw : ∀ adj ∈ g, ∀ e ∈ adj, 0 ≤ e.weight) (h : HasEdge g u v w) : 0 ≤ w := by
  obtain ⟨adj, hadj, he⟩ := h
  exact hw adj (getAt_mem hadj) _ he

theorem path_nonneg {g : List (List Edge)} {s v d : Int} {k : Nat}
    (hw : ∀ adj ∈ g, ∀ e ∈ adj, 0 ≤ e.weight) (h : Path g s v d k) : 0 ≤ d := by
  induction h with
  | start => exact le_refl 0
  | step _ he ih =>
    have := hasEdge_weight_nonneg hw he
    omega

theorem visitedCount_le (visited : List Bool) : visitedCount visited ≤ visited.length :=
  List.count_le_length _ _

theorem getAt_setAt {α : Type} {l : List α} {i j : Int} (a : α) (h : (getAt l i).isSome) :
    getAt (setAt l i a) j = if j = i then some a else getAt l j := by
  by_cases hji : j = i
  · rw [if_pos hji, hji]
    exact getAt_setAt_self a h
  · rw [if_neg hji]
    exact getAt_setAt_ne a (Ne.symm hji)

theorem relaxEdges_inv {g : List (List Edge)} {n : Nat} {s : Int} (hset : Setting g n s)
    {u du : Int} {visited : List Bool} {adj : List Edge} (hadj : getAt g u = some adj) :
    ∀ (es : List Edge) (dist : List Int) (pq : List (Int × Int)) (dist2 : List Int)
      (pq2 : List (Int × Int)),
      (∀ e ∈ es, e ∈ adj) →
      RelaxInv g n s u du es visited dist pq →
      relaxEdges u es dist pq = some (dist2, pq2) →
      RelaxInv g n s u du [] visited dist2 pq2 := by
  intro es
  induction es with
  | nil =>
    intro dist pq dist2 pq2 _ hinv h
    simp only [relaxEdges, Option.some.injEq, Prod.mk.injEq] at h
    rw [← h.1, ← h.2]
    exact hinv
  | cons e es ih =>
    intro dist pq dist2 pq2 hsub hinv h
    have hes : ∀ x ∈ es, x ∈ adj := fun x hx => hsub x (List.mem_cons_of_mem _ hx)
    have hein : e ∈ adj := hsub e (List.mem_cons_self _ _)
    obtain ⟨hdu, hvu, hfin⟩ := hinv.cur
    unfold relaxEdges at h
    simp only [hdu, if_neg hfin] at h
    cases hdv : getAt dist e.dest with
    | none => simp [hdv] at h
    | some dv =>
      simp only [hdv] at h
      obtain ⟨k, hpath, _, hk1⟩ := hinv.sound u du hdu hfin
      have hk1 := hk1 hvu
      have hcnt : visitedCount visited ≤ n := hinv.len_v ▸ visitedCount_le visited
      have hedge : HasEdge g u e.dest e.weight := ⟨adj, hadj, hein⟩
      have hpath2 : Path g s e.dest (du + e.weight) (k + 1) := Path.step hpath hedge
      have hlt : du + e.weight < INT_MAX := hset.bounded _ _ _ hpath2 (by omega)
      have hnn : 0 ≤ du + e.weight := path_nonneg hset.nonneg hpath2
      have hw : 0 ≤ e.weight := hasEdge_weight_nonneg hset.nonneg hedge
      have hwrap : wrapInt (du + e.weight) = du + e.weight :=
        wrapInt_eq_self (by omega) (le_of_lt hlt)
      rw [hwrap] at h
      have hrel : ∀ (dist3 : List Int),
          (∀ j dj, getAt dist j = some dj → ∃ dj3, getAt dist3 j = some dj3 ∧ dj3 ≤ dj) →
          (∀ x, getAt visited x = some true → getAt dist3 x = getAt dist x) →
          (∃ dv3, getAt dist3 e.dest = some dv3 ∧ dv3 ≤ du + e.weight) →
          ∀ x adj2 e2 dx, getAt visited x = some true → getAt g x = some adj2 → e2 ∈ adj2 →
            (x = u → e2 ∉ es) → getAt dist3 x = some dx →
            ∃ dv3, getAt dist3 e2.dest = some dv3 ∧ dv3 ≤ dx + e2.weight := by
        intro dist3 hdec hsame hnew x adj2 e2 dx hx hadj2 he2 hcond hdx
        rw [hsame x hx] at hdx
        by_cases hxe : x = u ∧ e2 = e
        · obtain ⟨hxu, hee⟩ := hxe
          subst hxu hee
          rw [hdu] at hdx
          cases hdx
          exact hnew
        · have hcond2 : x = u → e2 ∉ e :: es := by
            intro hxu hmem
            rcases List.mem_cons.1 hmem with hm | hm
            · exact hxe ⟨hxu, hm⟩
            · exact hcond hxu hm
          obtain ⟨dv0, h1, h2⟩ := hinv.relaxed x adj2 e2 dx hx hadj2 he2 hcond2 hdx
          obtain ⟨dj3, h3, h4⟩ := hdec _ _ h1
          exact ⟨dj3, h3, le_trans h4 h2⟩
      by_cases hc : du + e.weight < dv
      · rw [if_pos hc] at h
        have hsome : (getAt dist e.dest).isSome := by rw [hdv]; rfl
        have hrange := getAt_range hinv.len_d hdv
        obtain ⟨b, hb⟩ := getAt_isSome_of_range hinv.len_v hrange.1 hrange.2
        have hvun : getAt visited e.dest = some false := by
          cases b with
          | false => exact hb
          | true =>
            have := hinv.umax e.dest dv hb hdv
            omega
        have hne : e.dest ≠ u := by
          intro heq
          rw [heq, hvu] at hvun
          cases hvun
        have hget : ∀ j, getAt (setAt dist e.dest (du + e.weight)) j
            = if j = e.dest then some (du + e.weight) else getAt dist j :=
          fun j => getAt_setAt _ hsome
        have hvis : ∀ x, getAt visited x = some true →
            getAt (setAt dist e.dest (du + e.weight)) x = getAt dist x := by
          intro x hx
          rw [hget, if_neg]
          intro heq
          rw [heq, hvun] at hx
          cases hx
        apply ih _ _ _ _ hes _ h
        refine ⟨by rw [length_setAt]; exact hinv.len_d, hinv.len_v, ?_, ?_, ?_, ?_, ?_, ?_, ?_, ?_⟩
        · obtain ⟨d0, hd0, hle⟩ := hinv.src
          rw [hget]
          by_cases hse : s = e.dest
          · rw [if_pos hse]
            rw [hse, hdv] at hd0
            cases hd0
            exact ⟨_, rfl, by omega⟩
          · rw [if_neg hse]
            exact ⟨d0, hd0, hle⟩
        · exact ⟨by rw [hvis u hvu]; exact hdu, hvu, hfin⟩
        · intro v d hv hd
          rw [hget] at hv
          by_cases hve : v = e.dest
          · rw [if_pos hve] at hv
            cases hv
            rw [hve]
            refine ⟨k + 1, hpath2, hk1, ?_⟩
            intro hcon
            rw [hvun] at hcon
            cases hcon
          · rw [if_neg hve] at hv
            exact hinv.sound v d hv hd
        · intro p hp
          rcases List.mem_cons.1 hp with rfl | hp
          · refine ⟨hlt, du + e.weight, ?_, le_refl _⟩
            rw [hget, if_pos rfl]
          · obtain ⟨h1, d0, h2, h3⟩ := hinv.pqok p hp
            refine ⟨h1, ?_⟩
            rw [hget]
            by_cases hpe : p.2 = e.dest
            · rw [if_pos hpe]
              rw [hpe, hdv] at h2
              cases h2
              exact ⟨_, rfl, by omega⟩
            · rw [if_neg hpe]
              exact ⟨d0, h2, h3⟩
        · intro v d hv hd hvv
          rw [hget] at hv
          by_cases hve : v = e.dest
          · rw [if_pos hve] at hv
            cases hv
            rw [hve]
            exact List.mem_cons_self _ _
          · rw [if_neg hve] at hv
            exact List.mem_cons_of_mem _ (hinv.pend v d hv hd hvv)
        · intro x dx hx hdx
          rw [hvis x hx] at hdx
          exact hinv.umax x dx hx hdx
        · intro v dv2 hv hdv2
          rw [hget] at hdv2
          by_cases hve : v = e.dest
          · rw [if_pos hve] at hdv2
            cases hdv2
            omega
          · rw [if_neg hve] at hdv2
            exact hinv.umin v dv2 hv hdv2
        · apply hrel _ _ hvis
          · exact ⟨du + e.weight, by rw [hget, if_pos rfl], le_refl _⟩
          · intro j dj hj
            rw [hget]
            by_cases hje : j = e.dest
            · rw [if_pos hje]
              rw [hje, hdv] at hj
              cases hj
              exact ⟨_, rfl, by omega⟩
            · rw [if_neg hje]
              exact ⟨dj, hj, le_refl _⟩
      · rw [if_neg hc] at h
        apply ih _ _ _ _ hes _ h
        refine ⟨hinv.len_d, hinv.len_v, hinv.src, hinv.cur, hinv.sound, hinv.pqok, hinv.pend,
          hinv.umax, hinv.umin, ?_⟩
        apply hrel dist (fun j dj hj => ⟨dj, hj, le_refl _⟩) (fun _ _ => rfl)
        exact ⟨dv, hdv, by omega⟩

theorem visitedCount_set : ∀ (visited : List Bool) (k : Nat), visited[k]? = some false →
    visitedCount (visited.set k true) = visitedCount visited + 1 := by
  intro visited
  induction visited with
  | nil => intro k h; simp at h
  | cons b visited ih =>
    intro k h
    cases k with
    | zero =>
      simp only [List.getElem?_cons_zero, Option.some.injEq] at h
      subst h
      simp [visitedCount]
    | succ k =>
      simp only [List.getElem?_cons_succ] at h
      have := ih k h
      unfold visitedCount at this ⊢
      simp only [List.set_cons_succ, List.count_cons, this]
      omega

theorem visitedCount_setAt {visited : List Bool} {u : Int} (h : getAt visited u = some false) :
    visitedCount (setAt visited u true) = visitedCount visited + 1 := by
  obtain ⟨k, hk, hvk⟩ := (getAt_some_iff _ _ _).1 h
  rw [hk, setAt_natCast]
  exact visitedCount_set visited k hvk

theorem relaxInv_start {g : List (List Edge)} {n : Nat} {s : Int}
    {visited : List Bool} {dist : List Int} {pq : List (Int × Int)} {top : Int × Int}
    {adj : List Edge}
    (hinv : LoopInv g n s visited dist pq) (ht : pqTop pq = some top)
    (hv : getAt visited top.2 = some false) (hadj : getAt g top.2 = some adj) :
    ∃ du, RelaxInv g n s top.2 du adj (setAt visited top.2 true) dist (pq.erase top) := by
  have hmem := pqTop_mem pq top ht
  obtain ⟨htop, du, hdu, hle⟩ := hinv.pqok top hmem
  have hsome : (getAt visited top.2).isSome := by rw [hv]; rfl
  have hget : ∀ j, getAt (setAt visited top.2 true) j
      = if j = top.2 then some true else getAt visited j :=
    fun j => getAt_setAt _ hsome
  have hcnt := visitedCount_setAt hv
  have hunv : ∀ v, getAt (setAt visited top.2 true) v = some false →
      v ≠ top.2 ∧ getAt visited v = some false := by
    intro v h
    rw [hget] at h
    by_cases hvt : v = top.2
    · rw [if_pos hvt] at h
      cases h
    · rw [if_neg hvt] at h
      exact ⟨hvt, h⟩
  refine ⟨du, hinv.len_d, by rw [length_setAt]; exact hinv.len_v, hinv.src, ?_, ?_, ?_, ?_, ?_,
    ?_, ?_⟩
  · exact ⟨hdu, by rw [hget, if_pos rfl], by omega⟩
  · intro v d hvd hd
    obtain ⟨k, hp, hk, hkv⟩ := hinv.sound v d hvd hd
    refine ⟨k, hp, by omega, ?_⟩
    intro hvis
    rw [hget] at hvis
    by_cases hvt : v = top.2
    · omega
    · rw [if_neg hvt] at hvis
      have := hkv hvis
      omega
  · intro p hp
    exact hinv.pqok p (List.mem_of_mem_erase hp)
  · intro v d hvd hd hvv
    obtain ⟨hne, hold⟩ := hunv v hvv
    have := hinv.pend v d hvd hd hold
    refine (List.mem_erase_of_ne ?_).2 this
    intro heq
    apply hne
    rw [← heq]
  · intro x dx hx hdx
    rw [hget] at hx
    by_cases hxt : x = top.2
    · rw [hxt, hdu] at hdx
      cases hdx
      exact le_refl _
    · rw [if_neg hxt] at hx
      exact hinv.sep x top.2 dx du hx hv hdx hdu
  · intro v dv hvv hdv
    obtain ⟨_, hold⟩ := hunv v hvv
    by_cases hfin : dv = INT_MAX
    · omega
    · have h1 := hinv.pend v dv hdv hfin hold
      have h2 := pqTop_le pq top ht _ h1
      have h3 : top.1 ≤ dv := h2
      omega
  · intro x adj2 e dx hx hadj2 he hcond hdx
    rw [hget] at hx
    by_cases hxt : x = top.2
    · exfalso
      rw [hxt, hadj] at hadj2
      cases hadj2
      exact hcond hxt he
    · rw [if_neg hxt] at hx
      exact hinv.relaxed x adj2 e dx hx hadj2 he hdx

theorem relaxInv_finish {g : List (List Edge)} {n : Nat} {s u du : Int}
    {visited : List Bool} {dist : List Int} {pq : List (Int × Int)}
    (h : RelaxInv g n s u du [] visited dist pq) : LoopInv g n s visited dist pq :=
  ⟨h.len_d, h.len_v, h.src, h.sound, h.pqok, h.pend,
    fun x v dx dv hx hv hdx hdv => le_trans (h.umax x dx hx hdx) (h.umin v dv hv hdv),
    fun x adj e dx hx hadj he hdx =>
      h.relaxed x adj e dx hx hadj he (fun _ hmem => by cases hmem) hdx⟩

theorem dijkstraLoop_inv {g : List (List Edge)} {n : Nat} {s : Int} (hset : Setting g n s) :
    ∀ (fuel : Nat) (dist : List Int) (visited : List Bool) (pq : List (Int × Int))
      (out : List Int),
      LoopInv g n s visited dist pq →
      dijkstraLoop g fuel dist visited pq = some out →
      ∃ visited2, LoopInv g n s visited2 out [] := by
  intro fuel
  induction fuel with
  | zero => intro dist visited pq out _ h; simp [dijkstraLoop] at h
  | succ fuel ih =>
    intro dist visited pq out hinv h
    unfold dijkstraLoop at h
    cases ht : pqTop pq with
    | none =>
      simp only [ht, Option.some.injEq] at h
      rw [← h]
      have := pqTop_none pq ht
      subst this
      exact ⟨visited, hinv⟩
    | some top =>
      simp only [ht] at h
      cases hv : getAt visited top.2 with
      | none => simp [hv] at h
      | some b =>
        cases b with
        | true =>
          simp only [hv] at h
          apply ih _ _ _ _ _ h
          refine ⟨hinv.len_d, hinv.len_v, hinv.src, hinv.sound, ?_, ?_, hinv.sep, hinv.relaxed⟩
          · intro p hp
            exact hinv.pqok p (List.mem_of_mem_erase hp)
          · intro v d hvd hd hvv
            have := hinv.pend v d hvd hd hvv
            refine (List.mem_erase_of_ne ?_).2 this
            intro heq
            have h2 : v = top.2 := by rw [← heq]
            rw [h2, hv] at hvv
            cases hvv
        | false =>
          simp only [hv] at h
          cases hg : getAt g top.2 with
          | none => simp [hg] at h
          | some adj =>
            simp only [hg] at h
            cases hr : relaxEdges top.2 adj dist (pq.erase top) with
            | none => simp [hr] at h
            | some r =>
              obtain ⟨dist2, pq2⟩ := r
              simp only [hr] at h
              obtain ⟨du, hstart⟩ := relaxInv_start hinv ht hv hg
              have hfin := relaxEdges_inv hset hg adj dist (pq.erase top) dist2 pq2
                (fun e he => he) hstart hr
              exact ih _ _ _ _ (relaxInv_finish hfin) h

theorem loopInv_init {g : List (List Edge)} {n : Nat} {s : Int} (hset : Setting g n s) :
    LoopInv g n s (List.replicate n false) (setAt (List.replicate n INT_MAX) s 0) [(0, s)] := by
  have hsome : (getAt (List.replicate n INT_MAX) s).isSome :=
    (getAt_isSome_iff _ _).2 ⟨hset.src0, by rw [List.length_replicate]; exact hset.src1⟩
  have hget : ∀ j, getAt (setAt (List.replicate n INT_MAX) s 0) j
      = if j = s then some 0 else getAt (List.replicate n INT_MAX) j :=
    fun j => getAt_setAt _ hsome
  have hfin : ∀ v d, getAt (setAt (List.replicate n INT_MAX) s 0) v = some d → d ≠ INT_MAX →
      v = s ∧ d = 0 := by
    intro v d hv hd
    rw [hget] at hv
    by_cases hvs : v = s
    · rw [if_pos hvs] at hv
      cases hv
      exact ⟨hvs, rfl⟩
    · rw [if_neg hvs] at hv
      exact absurd (getAt_replicate hv) hd
  have hnov : ∀ x, getAt (List.replicate n false) x ≠ some true := by
    intro x hx
    have := getAt_replicate hx
    cases this
  refine ⟨by rw [length_setAt, List.length_replicate], List.length_replicate _ _, ?_, ?_, ?_, ?_,
    ?_, ?_⟩
  · exact ⟨0, by rw [hget, if_pos rfl], le_refl _⟩
  · intro v d hv hd
    obtain ⟨h1, h2⟩ := hfin v d hv hd
    subst h1 h2
    exact ⟨0, Path.start, Nat.zero_le _, fun hx => absurd hx (hnov _)⟩
  · intro p hp
    rw [List.mem_singleton] at hp
    subst hp
    exact ⟨show (0 : Int) < INT_MAX by decide, 0, by rw [hget, if_pos rfl], le_refl _⟩
  · intro v d hv hd _
    obtain ⟨h1, h2⟩ := hfin v d hv hd
    subst h1 h2
    exact List.mem_singleton_self _
  · intro x v dx dv hx
    exact absurd hx (hnov _)
  · intro x adj e dx hx
    exact absurd hx (hnov _)

theorem loopInv_final_path {g : List (List Edge)} {n : Nat} {s : Int} (hset : Setting g n s)
    {visited : List Bool} {out : List Int} (hinv : LoopInv g n s visited out [])
    {v d : Int} {k : Nat} (hp : Path g s v d k) :
    getAt visited v = some true ∧ ∃ d0, getAt out v = some d0 ∧ d0 ≤ d ∧ d0 ≠ INT_MAX := by
  have hvis : ∀ x dx, getAt out x = some dx → dx ≠ INT_MAX → getAt visited x = some true := by
    intro x dx hx hdx
    have hr := getAt_range hinv.len_d hx
    obtain ⟨b, hb⟩ := getAt_isSome_of_range hinv.len_v hr.1 hr.2
    cases b with
    | true => exact hb
    | false =>
      have := hinv.pend x dx hx hdx hb
      cases this
  have hcnt : visitedCount visited ≤ n := hinv.len_v ▸ visitedCount_le visited
  induction hp with
  | start =>
    obtain ⟨d0, hd0, hle⟩ := hinv.src
    have hne : d0 ≠ INT_MAX := by
      intro h
      rw [h] at hle
      exact absurd hle (by decide)
    exact ⟨hvis s d0 hd0 hne, d0, hd0, hle, hne⟩
  | step hpu he ih =>
    rename_i u v w d k
    obtain ⟨hu, du, hdu, hle, hne⟩ := ih
    obtain ⟨adj, hadj, hmem⟩ := he
    obtain ⟨dv, hdv, hle2⟩ := hinv.relaxed u adj _ du hu hadj hmem hdu
    obtain ⟨k0, hp0, _, hk0⟩ := hinv.sound u du hdu hne
    have hk0 := hk0 hu
    have hp1 : Path g s v (du + w) (k0 + 1) := Path.step hp0 ⟨adj, hadj, hmem⟩
    have hlt := hset.bounded _ _ _ hp1 (by omega)
    have hle3 : dv ≤ du + w := hle2
    have hne2 : dv ≠ INT_MAX := by omega
    exact ⟨hvis v dv hdv hne2, dv, hdv, by omega, hne2⟩

/-! ## Dijkstra computes the shortest distances -/

theorem path_weight_le {g : List (List Edge)} {s v d : Int} {k : Nat} (W : Int)
    (hW : ∀ adj ∈ g, ∀ e ∈ adj, e.weight ≤ W) (h : Path g s v d k) : d ≤ (k : Int) * W := by
  induction h with
  | start => simp
  | step _ he ih =>
    obtain ⟨adj, hadj, hmem⟩ := he
    have := hW adj (getAt_mem hadj) _ hmem
    simp only [Nat.cast_add, Nat.cast_one, add_mul, one_mul]
    have h2 : (⟨_, _⟩ : Edge).weight ≤ W := this
    simp only at h2
    omega

/-- In a setting, `dijkstra` returns and the loop invariant holds at its
end, with an empty queue. -/
theorem dijkstra_final {g : List (List Edge)} {n : Nat} {s : Int} (hset : Setting g n s) :
    ∃ out visited, dijkstra g n s = some out ∧ LoopInv g n s visited out [] := by
  obtain ⟨out, hout⟩ := dijkstra_total hset.wf hset.src0 hset.src1
  have hloop := hout
  unfold dijkstra at hloop
  obtain ⟨a, ha⟩ :=
    getAt_isSome_of_range (List.length_replicate n INT_MAX) hset.src0 hset.src1
  simp only [ha] at hloop
  obtain ⟨visited, hinv⟩ := dijkstraLoop_inv hset _ _ _ _ _ (loopInv_init hset) hloop
  exact ⟨out, visited, hout, hinv⟩

/-- C2 (amended): for a graph of `n` adjacency lists whose edge
destinations are all in `[0, n)` and whose weights are all non-negative,
and a source `s` in `[0, n)`, such that every directed path from `s` of at
most `n` edges has a total weight below `INT_MAX`: `dijkstra(s)` returns a
vector of `n` distances; its entry at `v` is `INT_MAX` exactly when no
directed path leads from `s` to `v`, and otherwise it is the weight of a
path from `s` to `v` and not greater than the weight of any path from `s`
to `v`. -/
theorem dijkstra_shortest (g : List (List Edge)) (n : Nat) (s : Int)
    (hwf : WellFormed g n) (hw : ∀ adj ∈ g, ∀ e ∈ adj, 0 ≤ e.weight)
    (hs0 : 0 ≤ s) (hs1 : s < (n : Int))
    (hb : ∀ v d k, Path g s v d k → k ≤ n → d < INT_MAX) :
    ∃ dist, dijkstra g n s = some dist ∧ dist.length = n ∧
      ∀ v, 0 ≤ v → v < (n : Int) → ∃ dv, getAt dist v = some dv ∧
        (dv = INT_MAX ↔ ¬ ∃ d k, Path g s v d k) ∧
        ((∃ d k, Path g s v d k) →
          (∃ k, Path g s v dv k) ∧ ∀ d k, Path g s v d k → dv ≤ d) := by
  have hset : Setting g n s := ⟨hwf, hw, hs0, hs1, hb⟩
  obtain ⟨out, visited, hout, hinv⟩ := dijkstra_final hset
  have hlen := (dijkstra_bound hout).2
  refine ⟨out, hout, hlen, ?_⟩
  intro v hv0 hv1
  obtain ⟨dv, hdv⟩ := getAt_isSome_of_range hlen hv0 hv1
  have hopt : ∀ d k, Path g s v d k → dv ≤ d ∧ dv ≠ INT_MAX := by
    intro d k hp
    obtain ⟨_, d0, hd0, hle, hne⟩ := loopInv_final_path hset hinv hp
    rw [hdv] at hd0
    cases hd0
    exact ⟨hle, hne⟩
  have hsound : dv ≠ INT_MAX → ∃ k, Path g s v dv k := by
    intro hne
    obtain ⟨k, hp, _⟩ := hinv.sound v dv hdv hne
    exact ⟨k, hp⟩
  refine ⟨dv, hdv, ⟨?_, ?_⟩, ?_⟩
  · rintro hmax ⟨d, k, hp⟩
    exact (hopt d k hp).2 hmax
  · intro hno
    by_contra hne
    obtain ⟨k, hp⟩ := hsound hne
    exact hno ⟨dv, k, hp⟩
  · rintro ⟨d, k, hp⟩
    exact ⟨hsound (hopt d k hp).2, fun d2 k2 hp2 => (hopt d2 k2 hp2).1⟩

/-- Witness of C2: the graph of the sample data and the source 0. -/
theorem dijkstra_shortest_witness :
    WellFormed sampleGraph 15 ∧ (∀ adj ∈ sampleGraph, ∀ e ∈ adj, 0 ≤ e.weight) ∧
      (∀ v d k, Path sampleGraph 0 v d k → k ≤ 15 → d < INT_MAX) ∧
      ∃ dist, dijkstra sampleGraph 15 0 = some dist ∧ dist.length = 15 ∧
        ∀ v, 0 ≤ v → v < ((15 : Nat) : Int) → ∃ dv, getAt dist v = some dv ∧
          (dv = INT_MAX ↔ ¬ ∃ d k, Path sampleGraph 0 v d k) ∧
          ((∃ d k, Path sampleGraph 0 v d k) →
            (∃ k, Path sampleGraph 0 v dv k) ∧ ∀ d k, Path sampleGraph 0 v d k → dv ≤ d) :=
  have hb : ∀ v d k, Path sampleGraph 0 v d k → k ≤ 15 → d < INT_MAX := by
    intro v d k hp hk
    have h1 := path_weight_le 12 (by decide) hp
    have h2 : (k : Int) ≤ 15 := by exact_mod_cast hk
    unfold INT_MAX
    omega
  ⟨⟨rfl, by decide⟩, by decide, hb,
    dijkstra_shortest sampleGraph 15 0 ⟨rfl, by decide⟩ (by decide) (by decide) (by decide) hb⟩

/-- C2 as stated fails when a shortest path weighs exactly `INT_MAX`: in
`maxEdgeGraph` the weights are non-negative, the destinations are in range
and no path from node 0 weighs more than `INT_MAX`; a path of weight
`INT_MAX` leads from node 0 to node 1, and `dijkstra(0)[1]` is `INT_MAX`,
the value for "no path". -/
theorem dijkstra_shortest_counterexample :
    WellFormed maxEdgeGraph 2 ∧ (∀ adj ∈ maxEdgeGraph, ∀ e ∈ adj, 0 ≤ e.weight) ∧
      (∀ v d k, Path maxEdgeGraph 0 v d k → d ≤ INT_MAX) ∧
      Path maxEdgeGraph 0 1 INT_MAX 1 ∧
      dijkstra maxEdgeGraph 2 0 = some [0, INT_MAX] := by
  refine ⟨⟨rfl, by decide⟩, by decide, ?_, ?_, by decide⟩
  · intro v d k hp
    have key : (v = 0 ∧ d = 0) ∨ (v = 1 ∧ d = INT_MAX) := by
      induction hp with
      | start => exact Or.inl ⟨rfl, rfl⟩
      | step _ he ih =>
        obtain ⟨adj, hadj, hmem⟩ := he
        rcases ih with ⟨hu, hd⟩ | ⟨hu, hd⟩
        · subst hu hd
          have : adj = [⟨1, 2147483647⟩] := (Option.some.inj hadj).symm
          subst this
          rw [List.mem_singleton] at hmem
          cases hmem
          exact Or.inr ⟨rfl, by decide⟩
        · subst hu
          have : adj = [] := (Option.some.inj hadj).symm
          subst this
          cases hmem
    rcases key with ⟨_, hd⟩ | ⟨_, hd⟩
    · rw [hd]; decide
    · rw [hd]
  · have h0 : Path maxEdgeGraph 0 0 0 0 := Path.start
    have h1 : HasEdge maxEdgeGraph 0 1 2147483647 := ⟨[⟨1, 2147483647⟩], rfl, by simp⟩
    exact Path.step h0 h1

/-! ## `allocateShelter` is defined on the reachable states -/

/-- In a state with a well-formed graph in which the node of the request
and the nodes of the shelters are inside the graph, `allocateShelter`
returns: no index leaves its vector and the fuel of the Dijkstra loop
suffices. -/
theorem allocateShelter_defined (st : State) (id : Int)
    (hwf : WellFormed st.graph st.nodeCount)
    (hloc : ∀ rec, st.homelessRecords id = some rec →
      0 ≤ rec.locationNodeID ∧ rec.locationNodeID < (st.nodeCount : Int))
    (hnodes : ∀ s ∈ st.shelters, 0 ≤ s.nodeID ∧ s.nodeID < (st.nodeCount : Int)) :
    ∃ r st2, allocateShelter st id = some (r, st2) := by
  cases hrec : st.homelessRecords id with
  | none =>
    exact ⟨AllocOutcome.notFound, st, by simp [allocateShelter, searchHomeless, hrec]⟩
  | some rec =>
    cases ha : rec.allocated with
    | true =>
      exact ⟨AllocOutcome.alreadyAllocated, st, by
        simp [allocateShelter, searchHomeless, hrec, ha]⟩
    | false =>
      obtain ⟨distances, hd⟩ := dijkstra_total hwf (hloc rec hrec).1 (hloc rec hrec).2
      have hsome : (selectShelter distances st.shelters (-1) INT_MAX).isSome := by
        apply selectShelter_isSome
        intro x hx
        rw [getAt_isSome_iff, (dijkstra_bound hd).2]
        exact hnodes x hx
      obtain ⟨⟨b, m⟩, hsel⟩ := Option.isSome_iff_exists.1 hsome
      by_cases hb : b = -1
      · exact ⟨AllocOutcome.noAvailableShelter, st, by
          simp [allocateShelter, searchHomeless, hrec, ha, hd, hsel, hb]⟩
      · cases ho : occupyShelter b id st.shelters with
        | none =>
          exact ⟨AllocOutcome.unmatched, st, by
            simp [allocateShelter, searchHomeless, hrec, ha, hd, hsel, hb, ho]⟩
        | some sh =>
          exact ⟨AllocOutcome.success b m,
            { st with
              shelters := sh,
              homelessRecords := storeRecord st.homelessRecords id
                { rec with allocated := true, allocatedShelterID := b } }, by
            simp [allocateShelter, searchHomeless, hrec, ha, hd, hsel, hb, ho]⟩

theorem occupyShelter_nodes (b id : Int) :
    ∀ (l l2 : List Shelter), occupyShelter b id l = some l2 →
      l2.map Shelter.nodeID = l.map Shelter.nodeID := by
  intro l l2 h
  obtain ⟨pre, s, post, h1, _, _, h4⟩ := occupyShelter_inv b id l l2 h
  rw [h1, h4]
  simp [Shelter.occupy]

theorem vacateShelter_nodes (b id : Int) :
    ∀ (l l2 : List Shelter), vacateShelter b id l = some l2 →
      l2.map Shelter.nodeID = l.map Shelter.nodeID := by
  intro l
  induction l with
  | nil => intro l2 h; simp [vacateShelter] at h
  | cons x l ih =>
    intro l2 h
    unfold vacateShelter at h
    by_cases hx : x.id = b
    · rw [if_pos hx] at h
      cases h
      rfl
    · rw [if_neg hx] at h
      cases hr : vacateShelter b id l with
      | none => simp [hr] at h
      | some r =>
        simp only [hr, Option.map_some', Option.some.injEq] at h
        rw [← h, List.map_cons, List.map_cons, ih r hr]

theorem updateCapacityLoop_nodes (shelterID newCap : Int) (l : List Shelter) :
    (updateCapacityLoop shelterID newCap l).2.map Shelter.nodeID = l.map Shelter.nodeID := by
  rcases updateCapacityLoop_cases shelterID newCap l with h | ⟨pre, s, post, h1, _, h3⟩
  · rw [h]
  · rw [h3, h1]
    simp

theorem loadSample_located (now : Int) :
    ∀ (l : List Homeless) (st : State),
      (∀ h ∈ l, 0 ≤ h.locationNodeID ∧ h.locationNodeID < 15) →
      (∀ id rec, st.homelessRecords id = some rec →
        0 ≤ rec.locationNodeID ∧ rec.locationNodeID < 15) →
      ∀ id rec, (l.foldl (loadSample now) st).homelessRecords id = some rec →
        0 ≤ rec.locationNodeID ∧ rec.locationNodeID < 15 := by
  intro l
  induction l with
  | nil => intro st _ hst; exact hst
  | cons h l ih =>
    intro st hl hst
    apply ih _ (fun x hx => hl x (List.mem_cons_of_mem _ hx))
    intro id rec hr
    simp only [loadSample, storeRecord, calculatePriority] at hr
    split at hr
    · cases hr
      exact hl h (List.mem_cons_self _ _)
    · exact hst id rec hr

theorem reachable_grounded {st : State} (h : Reachable st) : Grounded st := by
  induction h with
  | init now =>
    refine ⟨rfl, rfl, ?_, rfl⟩
    apply loadSample_located
    · intro h hh
      simp only [sampleRecords, List.mem_cons, List.mem_singleton, List.not_mem_nil,
        or_false] at hh
      rcases hh with rfl | rfl | rfl | rfl | rfl <;> simp
    · intro id rec h
      cases h
  | @add st h now _ ih =>
    unfold addHomelessRecord
    split
    · exact ih
    · split
      · exact ih
      · rename_i hloc
        refine ⟨ih.graph, ih.count, ?_, ih.nodes⟩
        intro id rec hr
        simp only [storeRecord] at hr
        split at hr
        · cases hr
          have hc := ih.count
          simp only [not_or, not_lt, ge_iff_le, not_le, hc] at hloc
          exact ⟨hloc.1, by exact_mod_cast hloc.2⟩
        · exact ih.located id rec hr
  | @allocate st st2 r id _ hrun ih =>
    by_cases hr : ∃ b m, r = AllocOutcome.success b m
    · obtain ⟨b, m, hr⟩ := hr
      subst hr
      obtain ⟨rec, distances, shelters2, hrec, _, _, _, _, hocc, hst⟩ :=
        allocateShelter_success hrun
      rw [hst]
      refine ⟨ih.graph, ih.count, ?_, ?_⟩
      · intro k rec2 hk
        simp only [storeRecord] at hk
        split at hk
        · cases hk
          exact ih.located id rec hrec
        · exact ih.located k rec2 hk
      · show shelters2.map Shelter.nodeID = _
        rw [occupyShelter_nodes _ _ _ _ hocc]
        exact ih.nodes
    · rw [allocateShelter_failure hrun (fun b m hbm => hr ⟨b, m, hbm⟩)]
      exact ih
  | @release st id _ ih =>
    rcases releasePerson_cases st id with h | ⟨rec, shelters2, hrec, _, hv, hrun⟩
    · rw [h.1]
      exact ih
    · rw [hrun]
      refine ⟨ih.graph, ih.count, ?_, ?_⟩
      · intro k rec2 hk
        simp only [storeRecord] at hk
        split at hk
        · cases hk
          exact ih.located id rec hrec
        · exact ih.located k rec2 hk
      · show shelters2.map Shelter.nodeID = _
        rw [vacateShelter_nodes _ _ _ _ hv]
        exact ih.nodes
  | @capacity st shelterID newCap _ ih =>
    refine ⟨ih.graph, ih.count, ih.located, ?_⟩
    show (updateCapacityLoop shelterID newCap st.shelters).2.map Shelter.nodeID = _
    rw [updateCapacityLoop_nodes]
    exact ih.nodes

/-- On every reachable state `allocateShelter` returns, for every request
id: the steps of `Reachable` leave out no run of the program. -/
theorem reachable_allocate_defined (st : State) (id : Int) (h : Reachable st) :
    ∃ r st2, allocateShelter st id = some (r, st2) := by
  have hg := reachable_grounded h
  apply allocateShelter_defined
  · rw [hg.graph, hg.count]
    exact ⟨rfl, by decide⟩
  · intro rec hrec
    rw [hg.count]
    exact hg.located id rec hrec
  · intro s hs
    have hmem : s.nodeID ∈ st.shelters.map Shelter.nodeID := List.mem_map_of_mem _ hs
    rw [hg.nodes] at hmem
    rw [hg.count]
    simp only [List.mem_cons, List.mem_singleton, List.not_mem_nil, or_false] at hmem
    rcases hmem with h | h | h | h <;> rw [h] <;> decide

/-! ## Rabin-Karp: the hash arithmetic -/

theorem tmod101_lt (a : Int) : Int.tmod a 101 < 101 :=
  Int.tmod_lt_of_pos a (by decide)

theorem tmod101_gt (a : Int) : -101 < Int.tmod a 101 := by
  cases a with
  | ofNat k =>
    have : 0 ≤ Int.tmod (Int.ofNat k) 101 := Int.tmod_nonneg 101 (Int.ofNat_nonneg k)
    omega
  | negSucc k =>
    show -101 < -((((k + 1) % 101 : Nat) : Int))
    have := Nat.mod_lt (k + 1) (show 0 < 101 by decide)
    omega

theorem tmod101_modEq (a : Int) : Int.tmod a 101 ≡ a [ZMOD 101] := by
  have := Int.tmod_def a 101
  unfold Int.ModEq
  omega

theorem rkFold_modEq : ∀ (cs : List Int) (a b : Int), a ≡ b [ZMOD 101] →
    cs.foldl (fun p c => Int.tmod (256 * p + c) 101) a
      ≡ cs.foldl (fun p c => 256 * p + c) b [ZMOD 101] := by
  intro cs
  induction cs with
  | nil => intro a b h; exact h
  | cons c cs ih =>
    intro a b h
    simp only [List.foldl_cons]
    apply ih
    exact (tmod101_modEq _).trans ((h.mul_left 256).add_right c)

theorem rkHash_modEq (cs : List Int) : rkHash cs ≡ polyHash cs [ZMOD 101] :=
  rkFold_modEq cs 0 0 (Int.ModEq.refl 0)

theorem rkFold_range : ∀ (cs : List Int) (a : Int), 0 ≤ a → a < 101 → (∀ c ∈ cs, 0 ≤ c) →
    0 ≤ cs.foldl (fun p c => Int.tmod (256 * p + c) 101) a ∧
    cs.foldl (fun p c => Int.tmod (256 * p + c) 101) a < 101 := by
  intro cs
  induction cs with
  | nil => intro a h0 h1 _; exact ⟨h0, h1⟩
  | cons c cs ih =>
    intro a h0 h1 hc
    simp only [List.foldl_cons]
    apply ih
    · apply Int.tmod_nonneg
      have := hc c (List.mem_cons_self _ _)
      omega
    · exact tmod101_lt _
    · exact fun x hx => hc x (List.mem_cons_of_mem _ hx)

theorem rkHash_range (cs : List Int) (h : ∀ c ∈ cs, 0 ≤ c) : 0 ≤ rkHash cs ∧ rkHash cs < 101 :=
  rkFold_range cs 0 (le_refl 0) (by decide) h

theorem rkPow_modEq : ∀ (k : Nat) (h : Int), rkPow k h ≡ h * 256 ^ k [ZMOD 101] := by
  intro k
  induction k with
  | zero => intro h; simp [rkPow]
  | succ k ih =>
    intro h
    show rkPow k (Int.tmod (h * 256) 101) ≡ _ [ZMOD 101]
    refine (ih _).trans ?_
    have h1 : Int.tmod (h * 256) 101 * 256 ^ k ≡ h * 256 * 256 ^ k [ZMOD 101] :=
      (tmod101_modEq _).mul_right _
    rw [pow_succ]
    have h2 : h * 256 * 256 ^ k = h * (256 ^ k * 256) := by ring
    rw [← h2]
    exact h1

theorem polyFold_eq : ∀ (cs : List Int) (a : Int),
    cs.foldl (fun p c => 256 * p + c) a = a * 256 ^ cs.length + polyHash cs := by
  intro cs
  induction cs with
  | nil => intro a; simp [polyHash]
  | cons c cs ih =>
    intro a
    unfold polyHash
    simp only [List.foldl_cons, List.length_cons]
    rw [ih (256 * a + c), ih (256 * 0 + c)]
    ring

theorem polyHash_cons (c : Int) (w : List Int) :
    polyHash (c :: w) = c * 256 ^ w.length + polyHash w := by
  unfold polyHash
  simp only [List.foldl_cons]
  rw [polyFold_eq]
  unfold polyHash
  ring

theorem polyHash_snoc (w : List Int) (c : Int) :
    polyHash (w ++ [c]) = 256 * polyHash w + c := by
  unfold polyHash
  simp [List.foldl_append]

/-- One step of the rolling hash: from a value congruent to the hash of the
window `c :: w` to a value in `[0, 101)` congruent to the hash of
`w ++ [c2]`. -/
theorem roll_step (h t c c2 : Int) (w : List Int)
    (hh : h ≡ 256 ^ w.length [ZMOD 101]) (ht : t ≡ polyHash (c :: w) [ZMOD 101]) :
    let t1 := Int.tmod (256 * (t - c * h) + c2) 101
    let t2 := if t1 < 0 then t1 + 101 else t1
    t2 ≡ polyHash (w ++ [c2]) [ZMOD 101] ∧ 0 ≤ t2 ∧ t2 < 101 := by
  intro t1 t2
  have hlt := tmod101_lt (256 * (t - c * h) + c2)
  have hgt := tmod101_gt (256 * (t - c * h) + c2)
  have h1 : t1 ≡ 256 * (t - c * h) + c2 [ZMOD 101] := tmod101_modEq _
  have h2 : 256 * (t - c * h) + c2 ≡ polyHash (w ++ [c2]) [ZMOD 101] := by
    rw [polyHash_snoc]
    apply Int.ModEq.add_right
    apply Int.ModEq.mul_left
    have h3 : t - c * h ≡ polyHash (c :: w) - c * 256 ^ w.length [ZMOD 101] :=
      ht.sub (hh.mul_left c)
    rw [polyHash_cons] at h3
    have h4 : c * 256 ^ w.length + polyHash w - c * 256 ^ w.length = polyHash w := by ring
    rw [h4] at h3
    exact h3
  have h5 : t2 ≡ t1 [ZMOD 101] := by
    show (if t1 < 0 then t1 + 101 else t1) ≡ t1 [ZMOD 101]
    split
    · unfold Int.ModEq
      omega
    · exact Int.ModEq.refl _
  refine ⟨h5.trans (h1.trans h2), ?_, ?_⟩
  · show 0 ≤ (if t1 < 0 then t1 + 101 else t1)
    have : -101 < t1 := hgt
    split <;> omega
  · show (if t1 < 0 then t1 + 101 else t1) < 101
    have : t1 < 101 := hlt
    split <;> omega

theorem modEq_eq_of_range {a b : Int} (h : a ≡ b [ZMOD 101]) (ha0 : 0 ≤ a) (ha1 : a < 101)
    (hb0 : 0 ≤ b) (hb1 : b < 101) : a = b := by
  unfold Int.ModEq at h
  omega

/-! ## Rabin-Karp: the scan -/

theorem take_succ_getD : ∀ (l : List Int) (k : Nat), k < l.length →
    l.take (k + 1) = l.take k ++ [l.getD k 0] := by
  intro l
  induction l with
  | nil => intro k h; simp at h
  | cons c l ih =>
    intro k h
    cases k with
    | zero => simp
    | succ k =>
      have hk : k < l.length := by simpa using h
      simp only [List.take_succ_cons, List.cons_append, List.getD_cons_succ]
      rw [ih k hk]

theorem window_step : ∀ (text : List Int) (i k : Nat), i + k + 1 < text.length →
    ∃ w, w.length = k ∧ (text.drop i).take (k + 1) = text.getD i 0 :: w ∧
      (text.drop (i + 1)).take (k + 1) = w ++ [text.getD (i + (k + 1)) 0] := by
  intro text
  induction text with
  | nil => intro i k h; simp at h
  | cons c rest ih =>
    intro i k h
    cases i with
    | zero =>
      have hk : k < rest.length := by simp only [List.length_cons] at h; omega
      refine ⟨rest.take k, ?_, ?_, ?_⟩
      · rw [List.length_take]
        omega
      · simp
      · simp only [Nat.zero_add, List.drop_succ_cons, List.drop_zero]
        rw [take_succ_getD rest k hk]
        simp
    | succ i =>
      have hi : i + k + 1 < rest.length := by simp only [List.length_cons] at h; omega
      obtain ⟨w, h1, h2, h3⟩ := ih i k hi
      refine ⟨w, h1, ?_, ?_⟩
      · simpa using h2
      · have e : i + 1 + (k + 1) = (i + (k + 1)) + 1 := by omega
        rw [e]
        simpa using h3

theorem rkScan_sound (text pattern : List Int) (h p : Int) :
    ∀ (k i : Nat) (t : Int), rkScan text pattern h p k i t = true →
      ∃ j, (text.drop j).take pattern.length = pattern := by
  intro k
  induction k with
  | zero => intro i t hr; simp [rkScan] at hr
  | succ k ih =>
    intro i t hr
    unfold rkScan at hr
    by_cases hc : p = t ∧ (text.drop i).take pattern.length = pattern
    · exact ⟨i, hc.2⟩
    · rw [if_neg hc] at hr
      by_cases hk : k = 0
      · rw [if_pos hk] at hr
        cases hr
      · rw [if_neg hk] at hr
        exact ih _ _ hr

theorem rkScan_complete (text pattern : List Int) (m : Nat) (hm : pattern.length = m + 1)
    (hpat : ∀ c ∈ pattern, 0 ≤ c) :
    ∀ (k i : Nat) (t : Int), i + k + pattern.length = text.length + 1 →
      t ≡ polyHash ((text.drop i).take pattern.length) [ZMOD 101] →
      ((text.drop i).take pattern.length = pattern → t = rkHash pattern) →
      (∃ j, i ≤ j ∧ j + pattern.length ≤ text.length ∧
        (text.drop j).take pattern.length = pattern) →
      rkScan text pattern (rkPow m 1) (rkHash pattern) k i t = true := by
  intro k
  induction k with
  | zero =>
    intro i t hik _ _ hex
    obtain ⟨j, hij, hj, _⟩ := hex
    omega
  | succ k ih =>
    intro i t hik hcong hmatch hex
    unfold rkScan
    by_cases hw : (text.drop i).take pattern.length = pattern
    · rw [if_pos ⟨(hmatch hw).symm, hw⟩]
    · rw [if_neg (fun hc => hw hc.2)]
      obtain ⟨j, hij, hj, hjw⟩ := hex
      have hne : j ≠ i := fun e => hw (e ▸ hjw)
      have hk : k ≠ 0 := by omega
      rw [if_neg hk]
      have hlen : i + m + 1 < text.length := by omega
      obtain ⟨w, hwl, hw1, hw2⟩ := window_step text i m hlen
      rw [hm] at hcong
      rw [hw1] at hcong
      have hh : rkPow m 1 ≡ 256 ^ w.length [ZMOD 101] := by
        have := rkPow_modEq m 1
        rw [one_mul] at this
        rw [hwl]
        exact this
      have hroll := roll_step (rkPow m 1) t (text.getD i 0) (text.getD (i + (m + 1)) 0) w hh hcong
      simp only at hroll
      obtain ⟨hr1, hr2, hr3⟩ := hroll
      rw [← hw2] at hr1
      apply ih
      · omega
      · rw [hm]
        exact hr1
      · intro hmatch2
        have hp := rkHash_range pattern hpat
        rw [hm] at hmatch2
        rw [hmatch2] at hr1
        rw [hm]
        exact modEq_eq_of_range (hr1.trans (rkHash_modEq pattern).symm) hr2 hr3 hp.1 hp.2
      · exact ⟨j, by omega, hj, hjw⟩

theorem infix_iff_window (text pattern : List Int) :
    pattern <:+: text ↔
      ∃ j, j + pattern.length ≤ text.length ∧ (text.drop j).take pattern.length = pattern := by
  constructor
  · rintro ⟨s, u, rfl⟩
    refine ⟨s.length, by simp, ?_⟩
    simp [List.append_assoc]
  · rintro ⟨j, _, hj⟩
    rw [← hj]
    exact (List.take_prefix _ _).isInfix.trans (List.drop_suffix _ _).isInfix

/-- For a non-empty pattern of non-negative `char` values (ASCII text),
`rabinKarpSearch` finds the pattern exactly when it is a contiguous part of
the text. -/
theorem rabinKarpSearch_iff (text pattern : List Int) (hne : pattern ≠ [])
    (hpat : ∀ c ∈ pattern, 0 ≤ c) :
    rabinKarpSearch text pattern = true ↔ pattern <:+: text := by
  obtain ⟨m, hm⟩ : ∃ m, pattern.length = m + 1 := by
    cases pattern with
    | nil => exact absurd rfl hne
    | cons c cs => exact ⟨cs.length, rfl⟩
  unfold rabinKarpSearch
  by_cases hlen : pattern.length > text.length ∨ pattern.length = 0
  · rw [if_pos hlen]
    constructor
    · intro h
      cases h
    · intro h
      have := h.length_le
      omega
  · rw [if_neg hlen]
    have hle : pattern.length ≤ text.length := by omega
    constructor
    · intro h
      obtain ⟨j, hj⟩ := rkScan_sound _ _ _ _ _ _ _ h
      rw [← hj]
      exact (List.take_prefix _ _).isInfix.trans (List.drop_suffix _ _).isInfix
    · intro h
      obtain ⟨j, hj1, hj2⟩ := (infix_iff_window text pattern).1 h
      have e : pattern.length - 1 = m := by omega
      rw [e]
      apply rkScan_complete text pattern m hm hpat
      · omega
      · simp only [List.drop_zero]
        exact rkHash_modEq _
      · intro hw
        simp only [List.drop_zero] at hw ⊢
        rw [hw]
      · exact ⟨j, Nat.zero_le _, hj1, hj2⟩

/-! ## Keywords in the complaint -/

theorem naiveSearch_iff (text pattern : List Int) :
    naiveSearch text pattern = true ↔ pattern <:+: text := by
  unfold naiveSearch
  rw [List.any_eq_true, infix_iff_window]
  constructor
  · rintro ⟨j, hj, hw⟩
    rw [List.mem_range] at hj
    have hw2 : (text.drop j).take pattern.length = pattern := by simpa using hw
    refine ⟨j, ?_, hw2⟩
    have h1 : ((text.drop j).take pattern.length).length ≤ text.length - j := by
      rw [List.length_take, List.length_drop]
      exact Nat.min_le_right _ _
    rw [hw2] at h1
    omega
  · rintro ⟨j, hj, hw⟩
    exact ⟨j, by rw [List.mem_range]; omega, by simpa using hw⟩

/-- On a non-empty pattern of non-negative `char` values `rabinKarpSearch`
and the naive scan agree. -/
theorem rabinKarpSearch_eq_naive (text pattern : List Int) (hne : pattern ≠ [])
    (hpat : ∀ c ∈ pattern, 0 ≤ c) :
    rabinKarpSearch text pattern = naiveSearch text pattern := by
  have h1 := rabinKarpSearch_iff text pattern hne hpat
  have h2 := naiveSearch_iff text pattern
  cases hr : rabinKarpSearch text pattern <;> cases hn : naiveSearch text pattern <;>
    simp_all

theorem occursNoCase_iff (keyword complaint : String) :
    OccursNoCase keyword complaint ↔ chars keyword <:+: lowerChars complaint := by
  unfold OccursNoCase lowerChars
  constructor
  · rintro ⟨w, hw, hmap⟩
    rw [← hmap]
    exact hw.map toLowerVal
  · rintro ⟨s, u, h⟩
    obtain ⟨l1, l2, h1, h2, _⟩ := List.map_eq_append_iff.1 h.symm
    obtain ⟨l3, l4, h3, _, h5⟩ := List.map_eq_append_iff.1 h2
    exact ⟨l4, ⟨l3, l2, by rw [h1, h3]⟩, h5⟩

theorem occursLower_iff (keyword complaint : String) :
    occursLower keyword complaint = true ↔ OccursNoCase keyword complaint := by
  unfold occursLower
  rw [decide_eq_true_iff, occursNoCase_iff]

/-- For a non-empty keyword of ASCII characters, the search in the
lowercased complaint is the test `occursLower`. -/
theorem search_eq_occursLower (keyword complaint : String) (hne : chars keyword ≠ [])
    (hpat : ∀ c ∈ chars keyword, 0 ≤ c) :
    rabinKarpSearch (lowerChars complaint) (chars keyword) = occursLower keyword complaint := by
  have h1 := rabinKarpSearch_iff (lowerChars complaint) (chars keyword) hne hpat
  unfold occursLower
  cases hr : rabinKarpSearch (lowerChars complaint) (chars keyword)
  · rw [hr] at h1
    symm
    rw [decide_eq_false_iff_not]
    intro h
    exact absurd (h1.2 h) (by simp)
  · rw [hr] at h1
    symm
    rw [decide_eq_true_iff]
    exact h1.1 rfl

/-! ## The priority score -/

theorem priorityOf_keywords (h : Homeless) :
    priorityOf h =
      ageBand h.age
      + (if h.gender = "Female" ∨ h.gender = "female" then 30 else 0)
      + (if h.medicalNeed then 60 else 0)
      + (if occursLower "emergency" h.complaint then 70 else 0)
      + (if occursLower "critical" h.complaint then 60 else 0)
      + (if occursLower "medical" h.complaint then 50 else 0)
      + (if occursLower "child" h.complaint then 40 else 0)
      + (if occursLower "urgent" h.complaint then 45 else 0)
      + (if occursLower "danger" h.complaint then 55 else 0) := by
  have hage : (if h.age < 12 then (50 : Int) else if h.age > 65 then 40
      else if h.age > 55 then 20 else 0) = ageBand h.age := by
    unfold ageBand
    split
    · rfl
    · split
      · rfl
      · split <;> split <;> first | rfl | omega
  unfold priorityOf
  simp only [hage]
  rw [search_eq_occursLower "emergency" h.complaint (by decide) (by decide),
    search_eq_occursLower "critical" h.complaint (by decide) (by decide),
    search_eq_occursLower "medical" h.complaint (by decide) (by decide),
    search_eq_occursLower "child" h.complaint (by decide) (by decide),
    search_eq_occursLower "urgent" h.complaint (by decide) (by decide),
    search_eq_occursLower "danger" h.complaint (by decide) (by decide)]

theorem occursLower_empty (keyword : String) (hne : chars keyword ≠ []) :
    occursLower keyword "" = false := by
  unfold occursLower
  rw [decide_eq_false_iff_not]
  intro h
  have h1 := h.length_le
  have h2 : (lowerChars "").length = 0 := by decide
  rw [h2] at h1
  exact hne (List.length_eq_zero.1 (Nat.le_zero.1 h1))

theorem not_female_of_lower {gender : String} (h : lowerChars gender ≠ chars "female") :
    ¬ (gender = "Female" ∨ gender = "female") := by
  rintro (rfl | rfl) <;> exact h (by decide)

/-- C11: the part of the priority that the complaint contributes,
`calculatePriority(h)` minus `calculatePriority` of `h` with an empty
complaint, is the sum over the six keywords of their points (emergency 70,
critical 60, medical 50, urgent 45, danger 55, child 40), each counted
exactly when `occursLower` finds the keyword in the lowercased complaint;
and `occursLower` holds exactly when the keyword occurs in the complaint as
a contiguous substring compared case-insensitively. -/
theorem complaint_points (h : Homeless) :
    (calculatePriority h).1 - (calculatePriority { h with complaint := "" }).1
      = (if occursLower "emergency" h.complaint then 70 else 0)
        + (if occursLower "critical" h.complaint then 60 else 0)
        + (if occursLower "medical" h.complaint then 50 else 0)
        + (if occursLower "urgent" h.complaint then 45 else 0)
        + (if occursLower "danger" h.complaint then 55 else 0)
        + (if occursLower "child" h.complaint then 40 else 0) ∧
    ∀ keyword, occursLower keyword h.complaint = true ↔ OccursNoCase keyword h.complaint := by
  refine ⟨?_, fun keyword => occursLower_iff keyword h.complaint⟩
  show priorityOf h - priorityOf { h with complaint := "" } = _
  rw [priorityOf_keywords h, priorityOf_keywords { h with complaint := "" }]
  simp only [occursLower_empty "emergency" (by decide), occursLower_empty "critical" (by decide),
    occursLower_empty "medical" (by decide), occursLower_empty "child" (by decide),
    occursLower_empty "urgent" (by decide), occursLower_empty "danger" (by decide)]
  simp only [Bool.false_eq_true, if_false]
  ring

/-- C12: for a request with an empty complaint and a gender that is not
"female" in any letter case, `calculatePriority` returns the age band
(50 below 12, 40 above 65, 20 from 56 to 65, else 0) plus 60 when
`medicalNeed` is set. -/
theorem priority_without_complaint (h : Homeless) (hc : h.complaint = "")
    (hg : lowerChars h.gender ≠ chars "female") :
    (calculatePriority h).1 = ageBand h.age + (if h.medicalNeed then 60 else 0) := by
  show priorityOf h = _
  rw [priorityOf_keywords h, hc, if_neg (not_female_of_lower hg)]
  simp only [occursLower_empty "emergency" (by decide), occursLower_empty "critical" (by decide),
    occursLower_empty "medical" (by decide), occursLower_empty "child" (by decide),
    occursLower_empty "urgent" (by decide), occursLower_empty "danger" (by decide)]
  simp only [Bool.false_eq_true, if_false]
  ring

/-- Witness of C12: a man of 60 with a medical need and no complaint scores
20 + 60. -/
theorem priority_without_complaint_witness :
    (⟨1, "X", 60, "Male", 0, true, 0, "", 0, false, -1⟩ : Homeless).complaint = "" ∧
      lowerChars "Male" ≠ chars "female" ∧
      (calculatePriority ⟨1, "X", 60, "Male", 0, true, 0, "", 0, false, -1⟩).1 = 80 :=
  ⟨rfl, by decide,
    priority_without_complaint ⟨1, "X", 60, "Male", 0, true, 0, "", 0, false, -1⟩ rfl
      (by decide)⟩

/-- C13: for a request with age 70, `medicalNeed` set, the complaint
"Emergency medical case" and a gender that is not "female" in any letter
case, `calculatePriority` returns 220 and stores 220 in `priorityScore`. -/
theorem priority_scenario (h : Homeless) (hage : h.age = 70) (hmed : h.medicalNeed = true)
    (hc : h.complaint = "Emergency medical case")
    (hg : lowerChars h.gender ≠ chars "female") :
    calculatePriority h = (220, { h with priorityScore := 220 }) := by
  have hp : priorityOf h = 220 := by
    rw [priorityOf_keywords h, hc, hage, hmed, if_neg (not_female_of_lower hg)]
    decide
  unfold calculatePriority
  rw [hp]

/-- Witness of C13. -/
theorem priority_scenario_witness :
    calculatePriority ⟨1, "X", 70, "Male", 0, true, 0, "Emergency medical case", 0, false, -1⟩
      = (220, ⟨1, "X", 70, "Male", 0, true, 220, "Emergency medical case", 0, false, -1⟩) :=
  priority_scenario ⟨1, "X", 70, "Male", 0, true, 0, "Emergency medical case", 0, false, -1⟩
    rfl rfl rfl (by decide)

/-- C15: the value `calculatePriority` returns does not depend on the
previous `priorityScore`; a second call in a row returns the same value and
the same record as the first; and the record returned differs from `h` in
`priorityScore` only. -/
theorem calculatePriority_idempotent (h : Homeless) (score : Int) :
    (calculatePriority { h with priorityScore := score }).1 = (calculatePriority h).1 ∧
    calculatePriority (calculatePriority h).2 = calculatePriority h ∧
    (calculatePriority h).2 = { h with priorityScore := (calculatePriority h).1 } :=
  ⟨rfl, rfl, rfl⟩

/-! ## Rabin-Karp on a pattern with a byte above 127 -/

/-- C16 (counterexample): the pattern made of the byte 0xFF and the text "a"
followed by that byte.  The pattern is not empty and the naive scan finds
it at position 1, yet `rabinKarpSearch` returns false.  The pattern hash
is -1, and the rolling hash of every later window is brought into
`[0, 101)`. -/
theorem rabinKarpSearch_highbit :
    chars "\xff" = [-1] ∧ chars "a\xff" = [97, -1] ∧
      chars "\xff" <:+: chars "a\xff" ∧
      naiveSearch (chars "a\xff") (chars "\xff") = true ∧
      rkHash (chars "\xff") = -1 ∧
      rabinKarpSearch (chars "a\xff") (chars "\xff") = false := by
  refine ⟨by decide, by decide, ?_, by decide, by decide, by decide⟩
  exact (naiveSearch_iff _ _).1 (by decide)

/-! ## Complaint classification -/

theorem classifyComplaint_eq (complaint : String) :
    classifyComplaint complaint = joinCategories (categoryNames
      (occursLower "food" complaint || occursLower "hungry" complaint ||
        occursLower "meal" complaint || occursLower "eat" complaint)
      (occursLower "medical" complaint || occursLower "sick" complaint ||
        occursLower "medicine" complaint || occursLower "health" complaint ||
        occursLower "doctor" complaint)
      (occursLower "safe" complaint || occursLower "danger" complaint ||
        occursLower "threat" complaint || occursLower "attack" complaint)
      (occursLower "shelter" complaint || occursLower "bed" complaint ||
        occursLower "sleep" complaint || occursLower "stay" complaint)) := by
  unfold classifyComplaint
  simp only [search_eq_occursLower "food" complaint (by decide) (by decide),
    search_eq_occursLower "hungry" complaint (by decide) (by decide),
    search_eq_occursLower "meal" complaint (by decide) (by decide),
    search_eq_occursLower "eat" complaint (by decide) (by decide),
    search_eq_occursLower "medical" complaint (by decide) (by decide),
    search_eq_occursLower "sick" complaint (by decide) (by decide),
    search_eq_occursLower "medicine" complaint (by decide) (by decide),
    search_eq_occursLower "health" complaint (by decide) (by decide),
    search_eq_occursLower "doctor" complaint (by decide) (by decide),
    search_eq_occursLower "safe" complaint (by decide) (by decide),
    search_eq_occursLower "danger" complaint (by decide) (by decide),
    search_eq_occursLower "threat" complaint (by decide) (by decide),
    search_eq_occursLower "attack" complaint (by decide) (by decide),
    search_eq_occursLower "shelter" complaint (by decide) (by decide),
    search_eq_occursLower "bed" complaint (by decide) (by decide),
    search_eq_occursLower "sleep" complaint (by decide) (by decide),
    search_eq_occursLower "stay" complaint (by decide) (by decide)]
  rfl

theorem matchedCategories_eq (complaint : String) :
    matchedCategories complaint = categoryNames
      (occursLower "food" complaint || occursLower "hungry" complaint ||
        occursLower "meal" complaint || occursLower "eat" complaint)
      (occursLower "medical" complaint || occursLower "sick" complaint ||
        occursLower "medicine" complaint || occursLower "health" complaint ||
        occursLower "doctor" complaint)
      (occursLower "safe" complaint || occursLower "danger" complaint ||
        occursLower "threat" complaint || occursLower "attack" complaint)
      (occursLower "shelter" complaint || occursLower "bed" complaint ||
        occursLower "sleep" complaint || occursLower "stay" complaint) := by
  unfold matchedCategories categoryKeywords categoryNames
  simp only [List.filter, List.any, Bool.or_false, Bool.or_assoc]
  cases (occursLower "food" complaint || (occursLower "hungry" complaint ||
      (occursLower "meal" complaint || occursLower "eat" complaint))) <;>
    cases (occursLower "medical" complaint || (occursLower "sick" complaint ||
      (occursLower "medicine" complaint || (occursLower "health" complaint ||
        occursLower "doctor" complaint)))) <;>
    cases (occursLower "safe" complaint || (occursLower "danger" complaint ||
      (occursLower "threat" complaint || occursLower "attack" complaint))) <;>
    cases (occursLower "shelter" complaint || (occursLower "bed" complaint ||
      (occursLower "sleep" complaint || occursLower "stay" complaint))) <;>
    rfl

theorem joinCategories_names (food medical safety shelter : Bool) :
    (joinCategories (categoryNames food medical safety shelter) = "General" ↔
        categoryNames food medical safety shelter = []) ∧
    joinCategories (categoryNames food medical safety shelter)
      = if categoryNames food medical safety shelter = [] then "General"
        else ", ".intercalate (categoryNames food medical safety shelter) := by
  cases food <;> cases medical <;> cases safety <;> cases shelter <;> decide

theorem matchedCategories_nil (complaint : String) :
    matchedCategories complaint = [] ↔
      ∀ cat ∈ categoryKeywords, ∀ kw ∈ cat.2, ¬ chars kw <:+: lowerChars complaint := by
  unfold matchedCategories
  rw [List.map_eq_nil_iff, List.filter_eq_nil_iff]
  constructor
  · intro h cat hcat kw hkw hin
    apply h cat hcat
    rw [List.any_eq_true]
    exact ⟨kw, hkw, by unfold occursLower; exact decide_eq_true hin⟩
  · intro h cat hcat hany
    rw [List.any_eq_true] at hany
    obtain ⟨kw, hkw, hocc⟩ := hany
    unfold occursLower at hocc
    exact h cat hcat kw hkw (of_decide_eq_true hocc)

/-- C17: `classifyComplaint` returns "General" exactly when the lowercased
complaint contains none of the 17 keywords of `categoryKeywords`; and in
every other case it returns the names of exactly the categories that have a
keyword in the lowercased complaint, each once, in the order Food, Medical,
Safety, Shelter, joined by ", ". -/
theorem classifyComplaint_spec (complaint : String) :
    (classifyComplaint complaint = "General" ↔
      ∀ cat ∈ categoryKeywords, ∀ kw ∈ cat.2, ¬ chars kw <:+: lowerChars complaint) ∧
    classifyComplaint complaint
      = (if matchedCategories complaint = [] then "General"
         else ", ".intercalate (matchedCategories complaint)) ∧
    (categoryKeywords.map (fun cat => cat.2.length)).sum = 17 := by
  have h1 := classifyComplaint_eq complaint
  have h2 := matchedCategories_eq complaint
  have h3 := joinCategories_names
    (occursLower "food" complaint || occursLower "hungry" complaint ||
      occursLower "meal" complaint || occursLower "eat" complaint)
    (occursLower "medical" complaint || occursLower "sick" complaint ||
      occursLower "medicine" complaint || occursLower "health" complaint ||
      occursLower "doctor" complaint)
    (occursLower "safe" complaint || occursLower "danger" complaint ||
      occursLower "threat" complaint || occursLower "attack" complaint)
    (occursLower "shelter" complaint || occursLower "bed" complaint ||
      occursLower "sleep" complaint || occursLower "stay" complaint)
  rw [← h1, ← h2] at h3
  exact ⟨h3.1.trans (matchedCategories_nil complaint), h3.2, by decide⟩

/-- C16 (amended): for every text and every non-empty pattern of ASCII
characters (`char` values from 0 to 127, as in the 23 keywords the program
searches for), `rabinKarpSearch(text, pattern)` returns true if and only if
the pattern occurs as a contiguous part of the text, and its result equals
that of the naive scan. -/
theorem rabinKarpSearch_ascii (text pattern : List Int) (hne : pattern ≠ [])
    (hpat : ∀ x ∈ pattern, 0 ≤ x ∧ x ≤ 127) :
    (rabinKarpSearch text pattern = true ↔ pattern <:+: text) ∧
    rabinKarpSearch text pattern = naiveSearch text pattern :=
  ⟨rabinKarpSearch_iff text pattern hne (fun x hx => (hpat x hx).1),
    rabinKarpSearch_eq_naive text pattern hne (fun x hx => (hpat x hx).1)⟩

/-- Witness of C16 (amended): the keyword "emergency" in the lowercased
complaint of the sample record 105. -/
theorem rabinKarpSearch_ascii_witness :
    rabinKarpSearch (lowerChars "Emergency medical case") (chars "emergency") = true ∧
    chars "emergency" <:+: lowerChars "Emergency medical case" :=
  have h := rabinKarpSearch_ascii (lowerChars "Emergency medical case") (chars "emergency")
    (by decide) (by decide)
  ⟨by decide, h.1.1 (by decide)⟩

/-! ## Dijkstra: triangle inequality -/

theorem path_append {g : List (List Edge)} {s u v d1 d2 : Int} {k1 k2 : Nat}
    (h1 : Path g s u d1 k1) (h2 : Path g u v d2 k2) : Path g s v (d1 + d2) (k1 + k2) := by
  induction h2 with
  | start => simpa using h1
  | step _ he ih =>
    have := Path.step ih he
    simpa only [add_assoc] using this

/-- C18 (amended): for a graph of `n` adjacency lists with edge
destinations in `[0, n)` and non-negative weights, and nodes `s`, `u` in
`[0, n)` such that every path from `s` and every path from `u` of at most
`n` edges weighs less than `INT_MAX`: `dijkstra(s)` and `dijkstra(u)`
return; if `dijkstra(s)[u]` and `dijkstra(u)[v]` are finite, then
`dijkstra(s)[v]` is finite and at most their sum; every finite entry of
`dijkstra(s)` is non-negative; and `dijkstra(s)[s] = 0`. -/
theorem dijkstra_triangle (g : List (List Edge)) (n : Nat) (s u : Int)
    (hwf : WellFormed g n) (hw : ∀ adj ∈ g, ∀ e ∈ adj, 0 ≤ e.weight)
    (hs0 : 0 ≤ s) (hs1 : s < (n : Int)) (hu0 : 0 ≤ u) (hu1 : u < (n : Int))
    (hbs : ∀ v d k, Path g s v d k → k ≤ n → d < INT_MAX)
    (hbu : ∀ v d k, Path g u v d k → k ≤ n → d < INT_MAX) :
    ∃ ds du, dijkstra g n s = some ds ∧ dijkstra g n u = some du ∧
      (∀ v d1 d2, getAt ds u = some d1 → d1 ≠ INT_MAX → getAt du v = some d2 → d2 ≠ INT_MAX →
        ∃ d3, getAt ds v = some d3 ∧ d3 ≠ INT_MAX ∧ d3 ≤ d1 + d2) ∧
      (∀ x d, getAt ds x = some d → d ≠ INT_MAX → 0 ≤ d) ∧
      getAt ds s = some 0 := by
  have hsets : Setting g n s := ⟨hwf, hw, hs0, hs1, hbs⟩
  have hsetu : Setting g n u := ⟨hwf, hw, hu0, hu1, hbu⟩
  obtain ⟨ds, vs, hds, hinvs⟩ := dijkstra_final hsets
  obtain ⟨du, vu, hdu, hinvu⟩ := dijkstra_final hsetu
  refine ⟨ds, du, hds, hdu, ?_, ?_, ?_⟩
  · intro v d1 d2 h1 hf1 h2 hf2
    obtain ⟨k1, hp1, _⟩ := hinvs.sound u d1 h1 hf1
    obtain ⟨k2, hp2, _⟩ := hinvu.sound v d2 h2 hf2
    obtain ⟨_, d3, hd3, hle, hne⟩ := loopInv_final_path hsets hinvs (path_append hp1 hp2)
    exact ⟨d3, hd3, hne, hle⟩
  · intro x d hx hf
    obtain ⟨k, hp, _⟩ := hinvs.sound x d hx hf
    exact path_nonneg hw hp
  · obtain ⟨d, hd, hle⟩ := hinvs.src
    have hne : d ≠ INT_MAX := by
      intro h
      rw [h] at hle
      exact absurd hle (by decide)
    obtain ⟨k, hp, _⟩ := hinvs.sound s d hd hne
    have := path_nonneg hw hp
    have hd0 : d = 0 := by omega
    rw [← hd0]
    exact hd

/-- Witness of C18: the graph of the sample data with `s = 0` and `u = 1`. -/
theorem dijkstra_triangle_witness :
    WellFormed sampleGraph 15 ∧ (∀ adj ∈ sampleGraph, ∀ e ∈ adj, 0 ≤ e.weight) ∧
      (∀ v d k, Path sampleGraph 0 v d k → k ≤ 15 → d < INT_MAX) ∧
      (∀ v d k, Path sampleGraph 1 v d k → k ≤ 15 → d < INT_MAX) ∧
      ∃ ds du, dijkstra sampleGraph 15 0 = some ds ∧ dijkstra sampleGraph 15 1 = some du ∧
        (∀ v d1 d2, getAt ds 1 = some d1 → d1 ≠ INT_MAX → getAt du v = some d2 →
          d2 ≠ INT_MAX → ∃ d3, getAt ds v = some d3 ∧ d3 ≠ INT_MAX ∧ d3 ≤ d1 + d2) ∧
        (∀ x d, getAt ds x = some d → d ≠ INT_MAX → 0 ≤ d) ∧
        getAt ds 0 = some 0 :=
  have hb : ∀ (a v d : Int) (k : Nat), Path sampleGraph a v d k → k ≤ 15 → d < INT_MAX := by
    intro a v d k hp hk
    have h1 := path_weight_le 12 (by decide) hp
    have h2 : (k : Int) ≤ 15 := by exact_mod_cast hk
    unfold INT_MAX
    omega
  ⟨⟨rfl, by decide⟩, by decide, hb 0, hb 1,
    dijkstra_triangle sampleGraph 15 0 1 ⟨rfl, by decide⟩ (by decide) (by decide) (by decide)
      (by decide) (by decide) (hb 0) (hb 1)⟩

/-- C18 as stated fails in `chainGraph` (non-negative weights, all nodes in
range): `dijkstra(0)[1] = 1` and `dijkstra(1)[2] = INT_MAX - 1` are finite,
and `dijkstra(0)[2]` is `INT_MAX`, the value for "no path": the sum of the
two distances is `INT_MAX` itself. -/
theorem dijkstra_triangle_counterexample :
    WellFormed chainGraph 3 ∧ (∀ adj ∈ chainGraph, ∀ e ∈ adj, 0 ≤ e.weight) ∧
      dijkstra chainGraph 3 0 = some [0, 1, INT_MAX] ∧
      dijkstra chainGraph 3 1 = some [INT_MAX, 0, 2147483646] ∧
      getAt [0, 1, INT_MAX] 1 = some 1 ∧ (1 : Int) ≠ INT_MAX ∧
      getAt [INT_MAX, 0, 2147483646] 2 = some 2147483646 ∧ (2147483646 : Int) ≠ INT_MAX ∧
      getAt [0, 1, INT_MAX] 2 = some INT_MAX := by
  refine ⟨⟨rfl, by decide⟩, by decide, by decide, by decide, by decide, by decide, by decide,
    by decide, by decide⟩

/-! ## The scenario of the sample data -/

/-- C19: on the state built by `initializeSampleData` (15 nodes, shelter 1
at node 4 with 35 of 50 beds occupied, request 101 at node 0),
`dijkstra(0)[4] = 17`, and `allocateShelter(101)` reports shelter 1 at
distance 17, binds request 101 to shelter 1 and raises the
`capacityOccupied` of that shelter from 35 to 36. -/
theorem sample_allocation (now : Int) :
    (initializeSampleData now).nodeCount = 15 ∧
    (initializeSampleData now).shelters.head?
      = some ⟨1, "Hope Shelter", 4, 50, 35, "9876543210", []⟩ ∧
    ((initializeSampleData now).homelessRecords 101).map (fun r => r.locationNodeID) = some 0 ∧
    (dijkstra (initializeSampleData now).graph (initializeSampleData now).nodeCount 0).bind
      (fun distances => getAt distances 4) = some 17 ∧
    ∃ st2, allocateShelter (initializeSampleData now) 101
        = some (AllocOutcome.success 1 17, st2) ∧
      st2.shelters.head? = some ⟨1, "Hope Shelter", 4, 50, 36, "9876543210", [101]⟩ ∧
      st2.shelters.tail = (initializeSampleData now).shelters.tail ∧
      (st2.homelessRecords 101).map (fun r => (r.allocated, r.allocatedShelterID))
        = some (true, 1) := by
  have hd : dijkstra (initializeSampleData now).graph (initializeSampleData now).nodeCount 0
      = some [0, 5, 10, 12, 17, 18, 18, 26, 29, 22, 33, 34, 30, 39, 44] := by
    show dijkstra sampleGraph 15 0 = _
    decide
  have hsel : selectShelter [0, 5, 10, 12, 17, 18, 18, 26, 29, 22, 33, 34, 30, 39, 44]
      (initializeSampleData now).shelters (-1) INT_MAX = some (1, 17) := by
    show selectShelter _ sampleShelters (-1) INT_MAX = _
    decide
  have hocc : occupyShelter 1 101 (initializeSampleData now).shelters
      = some (⟨1, "Hope Shelter", 4, 50, 36, "9876543210", [101]⟩ :: sampleShelters.tail) := by
    show occupyShelter 1 101 sampleShelters = _
    decide
  obtain ⟨rec, hrec, hloc, hall⟩ : ∃ rec,
      (initializeSampleData now).homelessRecords 101 = some rec ∧
      rec.locationNodeID = 0 ∧ rec.allocated = false := ⟨_, rfl, rfl, rfl⟩
  refine ⟨rfl, rfl, by rw [hrec, ← hloc]; rfl, by rw [hd]; rfl, ?_⟩
  refine ⟨{ initializeSampleData now with
      shelters := ⟨1, "Hope Shelter", 4, 50, 36, "9876543210", [101]⟩ :: sampleShelters.tail,
      homelessRecords := storeRecord (initializeSampleData now).homelessRecords 101
        { rec with allocated := true, allocatedShelterID := 1 } }, ?_, rfl, rfl, ?_⟩
  · unfold allocateShelter searchHomeless
    rw [hrec]
    simp only [hall, hloc, hd, hsel, hocc]
    simp
  · simp [storeRecord]

/-! ## The emergency queue: the heap functions -/

theorem perm_cons_set {α : Type} : ∀ (xs : List α) (k : Nat) (b x : α), xs[k]? = some b →
    (b :: xs.set k x).Perm (x :: xs) := by
  intro xs
  induction xs with
  | nil => intro k b x h; simp at h
  | cons y t ih =>
    intro k b x h
    cases k with
    | zero =>
      simp only [List.getElem?_cons_zero, Option.some.injEq] at h
      subst h
      exact List.Perm.swap _ _ _
    | succ k =>
      simp only [List.getElem?_cons_succ] at h
      have h1 : (b :: y :: t.set k x).Perm (y :: b :: t.set k x) := List.Perm.swap _ _ _
      have h2 : (y :: b :: t.set k x).Perm (y :: x :: t) := List.Perm.cons y (ih k b x h)
      have h3 : (y :: x :: t).Perm (x :: y :: t) := List.Perm.swap _ _ _
      exact h1.trans (h2.trans h3)

/-- Exchanging two entries of a list gives a permutation of it. -/
theorem perm_set_swap {α : Type} : ∀ (l : List α) (i j : Nat) (a b : α), l[i]? = some a →
    l[j]? = some b → i ≠ j → ((l.set i b).set j a).Perm l := by
  intro l
  induction l with
  | nil => intro i j a b h; simp at h
  | cons y t ih =>
    intro i j a b hi hj hij
    cases i with
    | zero =>
      cases j with
      | zero => exact absurd rfl hij
      | succ j =>
        simp only [List.getElem?_cons_zero, Option.some.injEq] at hi
        simp only [List.getElem?_cons_succ] at hj
        subst hi
        exact perm_cons_set t j b y hj
    | succ i =>
      cases j with
      | zero =>
        simp only [List.getElem?_cons_zero, Option.some.injEq] at hj
        simp only [List.getElem?_cons_succ] at hi
        subst hj
        exact perm_cons_set t i a y hi
      | succ j =>
        simp only [List.getElem?_cons_succ] at hi hj
        exact List.Perm.cons y (ih i j a b hi hj (fun h => hij (by rw [h])))

/-- The entries of a vector after two writes at different indices. -/
theorem getElem?_set_two {a : List EmergencyCase} {h p : Nat} (x y : EmergencyCase)
    (hh : h < a.length) (hp : p < a.length) (i : Nat) :
    ((a.set h x).set p y)[i]? = if i = p then some y else if i = h then some x else a[i]? := by
  rw [List.getElem?_set, List.length_set]
  by_cases e1 : p = i
  · rw [if_pos e1, if_pos hp, if_pos e1.symm]
  · rw [if_neg e1, if_neg (fun e => e1 e.symm), List.getElem?_set]
    by_cases e2 : h = i
    · rw [if_pos e2, if_pos hh, if_pos e2.symm]
    · rw [if_neg e2, if_neg (fun e => e2 e.symm)]

theorem lt_length_of_getElem? {α : Type} {l : List α} {i : Nat} {x : α} (h : l[i]? = some x) :
    i < l.length := by
  obtain ⟨hi, _⟩ := List.getElem?_eq_some.1 h
  exact hi

/-- One iteration of the loop of `__push_heap` keeps `UpInv`. -/
theorem upInv_step {a : List EmergencyCase} {h : Nat} {value parent : EmergencyCase}
    (hh : 0 < h) (hv : a[h]? = some value) (hp : a[(h - 1) / 2]? = some parent)
    (hlt : parent.priority < value.priority) (hinv : UpInv a h) :
    UpInv ((a.set h parent).set ((h - 1) / 2) value) ((h - 1) / 2) := by
  have hhl := lt_length_of_getElem? hv
  have hpl := lt_length_of_getElem? hp
  have hget := getElem?_set_two (a := a) parent value hhl hpl
  have hph : (h - 1) / 2 ≠ h := by omega
  constructor
  · intro i x y hi hip hx hy
    rw [hget, if_neg hip] at hx
    rw [hget] at hy
    by_cases hih : i = h
    · rw [if_pos hih] at hx
      rw [hih, if_pos rfl] at hy
      rw [← Option.some.inj hx, ← Option.some.inj hy]
      exact le_of_lt hlt
    · rw [if_neg hih] at hx
      by_cases hq : (i - 1) / 2 = (h - 1) / 2
      · rw [if_pos hq] at hy
        rw [← Option.some.inj hy]
        have := hinv.1 i x parent hi hih hx (by rw [hq]; exact hp)
        exact le_trans this (le_of_lt hlt)
      · rw [if_neg hq] at hy
        by_cases hqh : (i - 1) / 2 = h
        · rw [if_pos hqh] at hy
          rw [← Option.some.inj hy]
          exact hinv.2 i x parent hh hi hqh hx hp
        · rw [if_neg hqh] at hy
          exact hinv.1 i x y hi hih hx hy
  · intro j x y hp0 hj hjp hx hy
    have hjne : j ≠ (h - 1) / 2 := by omega
    rw [hget, if_neg hjne] at hx
    rw [hget, if_neg (by omega), if_neg (by omega)] at hy
    have hpar : parent.priority ≤ y.priority := hinv.1 _ parent y hp0 hph hp hy
    by_cases hjh : j = h
    · rw [if_pos hjh] at hx
      rw [← Option.some.inj hx]
      exact hpar
    · rw [if_neg hjh] at hx
      have := hinv.1 j x parent hj hjh hx (by rw [hjp]; exact hp)
      exact le_trans this hpar

/-- The function `__push_heap` from a hole that satisfies `UpInv`: the
result is a heap and a permutation of the vector with `value` in the
hole. -/
theorem pushHeap_spec : ∀ (fuel : Nat) (v : List EmergencyCase) (hole : Nat)
    (value : EmergencyCase), hole < v.length → hole < fuel → UpInv (v.set hole value) hole →
    IsHeap (pushHeap fuel v hole 0 value) ∧
    (pushHeap fuel v hole 0 value).Perm (v.set hole value) := by
  intro fuel
  induction fuel with
  | zero => intro v hole value _ h; omega
  | succ fuel ih =>
    intro v hole value hlen hfuel hinv
    have hpl : (hole - 1) / 2 < v.length := by omega
    have hparent : v[(hole - 1) / 2]? = some v[(hole - 1) / 2] := List.getElem?_eq_getElem hpl
    generalize v[(hole - 1) / 2] = parent at hparent
    have hAv : (v.set hole value)[hole]? = some value := List.getElem?_set_self hlen
    rw [pushHeap]
    simp only [hparent]
    by_cases hc : hole > 0 ∧ parent.less value = true
    · rw [if_pos hc]
      obtain ⟨h0, hless⟩ := hc
      have hlt : parent.priority < value.priority := of_decide_eq_true hless
      have hne : hole ≠ (hole - 1) / 2 := by omega
      have hAp : (v.set hole value)[(hole - 1) / 2]? = some parent := by
        rw [List.getElem?_set_ne hne]; exact hparent
      have hstep := upInv_step h0 hAv hAp hlt hinv
      rw [List.set_set] at hstep
      obtain ⟨hheap, hperm⟩ := ih (v.set hole parent) ((hole - 1) / 2) value
        (by rw [List.length_set]; exact hpl) (by omega) hstep
      refine ⟨hheap, hperm.trans ?_⟩
      have := perm_set_swap (v.set hole value) hole ((hole - 1) / 2) value parent hAv hAp hne
      rw [List.set_set] at this
      exact this
    · rw [if_neg hc]
      refine ⟨?_, List.Perm.refl _⟩
      intro i x y hi hx hy
      by_cases hih : i = hole
      · subst hih
        have hne : i ≠ (i - 1) / 2 := by omega
        rw [hAv] at hx
        rw [List.getElem?_set_ne hne, hparent] at hy
        rw [← Option.some.inj hx, ← Option.some.inj hy]
        have : ¬ parent.priority < value.priority := by
          intro hlt
          exact hc ⟨hi, decide_eq_true hlt⟩
        exact not_lt.1 this
      · exact hinv.1 i x y hi hih hx hy

/-- One step of the descent of the hole in `__adjust_heap` keeps `DownInv`:
the hole at `h` receives its child `w` at `s`, which no other child of `h`
exceeds. -/
theorem downInv_step {v : List EmergencyCase} {h s : Nat} {w : EmergencyCase}
    (hs : s = 2 * h + 1 ∨ s = 2 * h + 2) (hw : v[s]? = some w)
    (hother : ∀ o x, (o = 2 * h + 1 ∨ o = 2 * h + 2) → o ≠ s → v[o]? = some x →
      x.priority ≤ w.priority)
    (hinv : DownInv v h) : DownInv (v.set h w) s := by
  have hsl := lt_length_of_getElem? hw
  have hhl : h < v.length := by omega
  have hget : ∀ i, (v.set h w)[i]? = if i = h then some w else v[i]? := by
    intro i
    rw [List.getElem?_set]
    by_cases e : h = i
    · rw [if_pos e, if_pos hhl, if_pos e.symm]
    · rw [if_neg e, if_neg (fun e2 => e e2.symm)]
  constructor
  · intro i x y hi his hqs hx hy
    rw [hget] at hx hy
    by_cases hih : i = h
    · rw [if_pos hih] at hx
      rw [if_neg (by omega)] at hy
      rw [← Option.some.inj hx]
      exact hinv.2 s w y (by omega) (by omega) (by omega) hw (by rw [← hih]; exact hy)
    · rw [if_neg hih] at hx
      by_cases hq : (i - 1) / 2 = h
      · rw [if_pos hq] at hy
        rw [← Option.some.inj hy]
        exact hother i x (by omega) his hx
      · rw [if_neg hq] at hy
        exact hinv.1 i x y hi hih hq hx hy
  · intro j x y hs0 hj hjs hx hy
    rw [hget, if_neg (by omega)] at hx
    have hsh : (s - 1) / 2 = h := by omega
    rw [hget, if_pos hsh] at hy
    rw [← Option.some.inj hy]
    exact hinv.1 j x w hj (by omega) (by omega) hx (by rw [hjs]; exact hw)

/-- The loop of `__adjust_heap` returns with the hole at an entry that does
not have two children, keeps `DownInv`, and what it moved is undone by
putting one value into the hole. -/
theorem adjustLoop_spec : ∀ (fuel : Nat) (v : List EmergencyCase) (h len : Nat),
    v.length = len → len - h ≤ fuel → h < len → DownInv v h →
    (adjustLoop fuel v h len).1.length = len ∧
    (adjustLoop fuel v h len).2 < len ∧
    ¬ (adjustLoop fuel v h len).2 < (len - 1) / 2 ∧
    DownInv (adjustLoop fuel v h len).1 (adjustLoop fuel v h len).2 ∧
    ∀ x, ((adjustLoop fuel v h len).1.set (adjustLoop fuel v h len).2 x).Perm (v.set h x) := by
  intro fuel
  induction fuel with
  | zero => intro v h len _ hf hh _; omega
  | succ fuel ih =>
    intro v h len hlen hf hh hinv
    rw [adjustLoop]
    by_cases hcond : h < (len - 1) / 2
    · rw [if_pos hcond]
      have hrl : 2 * (h + 1) < v.length := by omega
      have hll : 2 * (h + 1) - 1 < v.length := by omega
      have hr : v[2 * (h + 1)]? = some v[2 * (h + 1)] := List.getElem?_eq_getElem hrl
      have hl : v[2 * (h + 1) - 1]? = some v[2 * (h + 1) - 1] := List.getElem?_eq_getElem hll
      generalize v[2 * (h + 1)] = right at hr
      generalize v[2 * (h + 1) - 1] = left at hl
      simp only [hr, hl]
      have hswap : ∀ (s : Nat) (w x : EmergencyCase), v[s]? = some w → h ≠ s →
          ((v.set h w).set s x).Perm (v.set h x) := by
        intro s w x hw hne
        have h1 : (v.set h x)[h]? = some x := List.getElem?_set_self (by omega)
        have h2 : (v.set h x)[s]? = some w := by rw [List.getElem?_set_ne hne]; exact hw
        have := perm_set_swap (v.set h x) h s x w h1 h2 hne
        rw [List.set_set] at this
        exact this
      by_cases hless : right.less left = true
      · rw [if_pos hless]
        have hlt : right.priority < left.priority := of_decide_eq_true hless
        have hstep : DownInv (v.set h left) (2 * (h + 1) - 1) := by
          apply downInv_step (Or.inl (by omega)) hl _ hinv
          intro o x ho hne hx
          have ho2 : o = 2 * (h + 1) := by omega
          rw [ho2, hr] at hx
          rw [← Option.some.inj hx]
          exact le_of_lt hlt
        obtain ⟨r1, r2, r3, r4, r5⟩ := ih (v.set h left) (2 * (h + 1) - 1) len
          (by rw [List.length_set]; exact hlen) (by omega) (by omega) hstep
        exact ⟨r1, r2, r3, r4, fun x => (r5 x).trans (hswap _ left x hl (by omega))⟩
      · rw [if_neg hless]
        have hge : left.priority ≤ right.priority := by
          have : ¬ right.priority < left.priority := fun hlt => hless (decide_eq_true hlt)
          exact not_lt.1 this
        have hstep : DownInv (v.set h right) (2 * (h + 1)) := by
          apply downInv_step (Or.inr (by omega)) hr _ hinv
          intro o x ho hne hx
          have ho2 : o = 2 * (h + 1) - 1 := by omega
          rw [ho2, hl] at hx
          rw [← Option.some.inj hx]
          exact hge
        obtain ⟨r1, r2, r3, r4, r5⟩ := ih (v.set h right) (2 * (h + 1)) len
          (by rw [List.length_set]; exact hlen) (by omega) (by omega) hstep
        exact ⟨r1, r2, r3, r4, fun x => (r5 x).trans (hswap _ right x hr (by omega))⟩
    · rw [if_neg hcond]
      exact ⟨hlen, hh, hcond, hinv, fun x => List.Perm.refl _⟩

/-- At a hole without children `DownInv` gives `UpInv` for the vector with
any value in the hole. -/
theorem upInv_of_leaf {v : List EmergencyCase} {h : Nat} (value : EmergencyCase)
    (hleaf : v.length ≤ 2 * h + 1) (hinv : DownInv v h) :
    UpInv (v.set h value) h := by
  constructor
  · intro i x y hi hih hx hy
    rw [List.getElem?_set_ne (Ne.symm hih)] at hx
    have hil := lt_length_of_getElem? hx
    rw [List.getElem?_set_ne (by omega)] at hy
    exact hinv.1 i x y hi hih (by omega) hx hy
  · intro j x y _ hj hjh hx _
    have hjl := lt_length_of_getElem? hx
    rw [List.length_set] at hjl
    omega

/-- The function `__adjust_heap` from the top of a heap: the result is a
heap and a permutation of the vector with `value` in the place of the
top. -/
theorem adjustHeap_spec (v : List EmergencyCase) (value : EmergencyCase) (hne : 0 < v.length)
    (hheap : IsHeap v) :
    IsHeap (adjustHeap v 0 v.length value) ∧
    (adjustHeap v 0 v.length value).Perm (v.set 0 value) := by
  have hdown : DownInv v 0 :=
    ⟨fun i x y hi _ _ hx hy => hheap i x y hi hx hy, fun j x y h0 => absurd h0 (lt_irrefl 0)⟩
  obtain ⟨r1, r2, r3, r4, r5⟩ := adjustLoop_spec v.length v 0 v.length rfl (by omega) hne hdown
  unfold adjustHeap
  generalize adjustLoop v.length v 0 v.length = r at r1 r2 r3 r4 r5
  obtain ⟨v1, h1⟩ := r
  simp only at r1 r2 r3 r4 r5 ⊢
  by_cases hspecial : v.length % 2 = 0 ∧ h1 = (v.length - 2) / 2
  · rw [if_pos hspecial]
    have hll : 2 * (h1 + 1) - 1 < v1.length := by omega
    have hl : v1[2 * (h1 + 1) - 1]? = some v1[2 * (h1 + 1) - 1] := List.getElem?_eq_getElem hll
    generalize v1[2 * (h1 + 1) - 1] = left at hl
    simp only [hl]
    have hstep : DownInv (v1.set h1 left) (2 * (h1 + 1) - 1) := by
      apply downInv_step (Or.inl (by omega)) hl _ r4
      intro o x ho hne2 hx
      have hol := lt_length_of_getElem? hx
      omega
    have hup := upInv_of_leaf value (by rw [List.length_set]; omega) hstep
    obtain ⟨p1, p2⟩ := pushHeap_spec v.length (v1.set h1 left) (2 * (h1 + 1) - 1) value
      (by rw [List.length_set]; omega) (by omega) hup
    refine ⟨p1, p2.trans (List.Perm.trans ?_ (r5 value))⟩
    have h1s : (v1.set h1 value)[h1]? = some value := List.getElem?_set_self (by omega)
    have h2s : (v1.set h1 value)[2 * (h1 + 1) - 1]? = some left := by
      rw [List.getElem?_set_ne (by omega)]; exact hl
    have := perm_set_swap (v1.set h1 value) h1 (2 * (h1 + 1) - 1) value left h1s h2s (by omega)
    rw [List.set_set] at this
    exact this
  · rw [if_neg hspecial]
    have hup := upInv_of_leaf value (by omega) r4
    obtain ⟨p1, p2⟩ := pushHeap_spec v.length v1 h1 value (by omega) (by omega) hup
    exact ⟨p1, p2.trans (r5 value)⟩

/-- The member `push` keeps the heap arrangement and adds the entry. -/
theorem queuePush_spec (v : List EmergencyCase) (e : EmergencyCase) (hheap : IsHeap v) :
    IsHeap (queuePush v e) ∧ (queuePush v e).Perm (v ++ [e]) := by
  have hset : (v ++ [e]).set v.length e = v ++ [e] := by
    rw [List.set_append_right _ _ (le_refl _)]
    simp
  have hup : UpInv ((v ++ [e]).set v.length e) v.length := by
    rw [hset]
    constructor
    · intro i x y hi hne hx hy
      have hil := lt_length_of_getElem? hx
      simp only [List.length_append, List.length_singleton] at hil
      rw [List.getElem?_append_left (by omega)] at hx hy
      exact hheap i x y hi hx hy
    · intro j x y _ hj hjh hx _
      have hjl := lt_length_of_getElem? hx
      simp only [List.length_append, List.length_singleton] at hjl
      omega
  obtain ⟨h1, h2⟩ := pushHeap_spec (v.length + 1) (v ++ [e]) v.length e (by simp) (by omega) hup
  rw [hset] at h2
  exact ⟨h1, h2⟩

/-- The member `pop` keeps the heap arrangement and removes the front. -/
theorem queuePop_spec (top : EmergencyCase) (rest : List EmergencyCase)
    (hheap : IsHeap (top :: rest)) :
    IsHeap (queuePop (top :: rest)) ∧ (top :: queuePop (top :: rest)).Perm (top :: rest) := by
  cases hlast : (top :: rest).getLast? with
  | none => simp at hlast
  | some value =>
    have hsplit : (top :: rest).dropLast ++ [value] = top :: rest :=
      List.dropLast_append_getLast? value hlast
    unfold queuePop
    simp only [hlast]
    by_cases hlen : (top :: rest).length > 1
    · rw [if_pos hlen]
      have hdl : (top :: rest).dropLast.length = (top :: rest).length - 1 :=
        List.length_dropLast _
      obtain ⟨w, hw⟩ : ∃ w, (top :: rest).dropLast = top :: w := by
        cases rest with
        | nil => simp at hlen
        | cons r rs => exact ⟨(r :: rs).dropLast, rfl⟩
      have hheap2 : IsHeap (top :: w) := by
        intro i x y hi hx hy
        have hil := lt_length_of_getElem? hx
        apply hheap i x y hi
        · rw [← hsplit, hw, List.getElem?_append_left hil]; exact hx
        · rw [← hsplit, hw, List.getElem?_append_left (by omega)]; exact hy
      rw [← hdl, hw]
      obtain ⟨h1, h2⟩ := adjustHeap_spec (top :: w) value (by simp) hheap2
      refine ⟨h1, ?_⟩
      have h3 : (top :: (top :: w).set 0 value).Perm (value :: top :: w) :=
        perm_cons_set (top :: w) 0 top value (List.getElem?_cons_zero)
      have h4 : (value :: top :: w).Perm (top :: rest) := by
        have h5 := (List.perm_append_singleton value (top :: w)).symm
        rw [hw] at hsplit
        rw [hsplit] at h5
        exact h5
      exact (List.Perm.cons top h2).trans (h3.trans h4)
    · rw [if_neg hlen]
      have hnil : rest = [] := by
        cases rest with
        | nil => rfl
        | cons r rs => simp at hlen
      subst hnil
      exact ⟨fun i x y _ hx => by simp at hx, List.Perm.refl _⟩

/-- In a heap no entry is greater than the front. -/
theorem isHeap_front_max {v : List EmergencyCase} (hheap : IsHeap v) (top : EmergencyCase)
    (htop : v[0]? = some top) : ∀ (i : Nat) (x : EmergencyCase), v[i]? = some x →
    x.priority ≤ top.priority := by
  intro i
  induction i using Nat.strong_induction_on with
  | _ i ih =>
    intro x hx
    by_cases hi : i = 0
    · subst hi
      rw [htop] at hx
      rw [Option.some.inj hx]
    · have hil := lt_length_of_getElem? hx
      have hpl : (i - 1) / 2 < v.length := by omega
      have hy : v[(i - 1) / 2]? = some v[(i - 1) / 2] := List.getElem?_eq_getElem hpl
      exact le_trans (hheap i x _ (by omega) hx hy) (ih ((i - 1) / 2) (by omega) _ hy)

/-- The vector of a `priority_queue` is arranged as a heap. -/
theorem isQueue_isHeap {v : List EmergencyCase} (h : IsQueue v) : IsHeap v := by
  induction h with
  | empty => intro i x y _ hx; simp at hx
  | push e _ ih => exact (queuePush_spec _ e ih).1
  | @pop v _ ih =>
    cases v with
    | nil => exact ih
    | cons top rest => exact (queuePop_spec top rest ih).1

theorem getNextEmergency_cons {st : State} {top : EmergencyCase} {rest : List EmergencyCase}
    (h : st.emergencyHeap = top :: rest) :
    getNextEmergency st = (top, { st with emergencyHeap := queuePop st.emergencyHeap }) := by
  unfold getNextEmergency
  rw [h]

/-- C20: on a non-empty emergency queue (the vector of a `priority_queue`,
built by `push` and `pop` from the empty one) `getNextEmergency` returns an
enqueued case whose priority is greater than or equal to the priority of
every case in the queue, and removes that one case: the returned case
together with the remaining queue is a permutation of the previous queue,
the remaining vector is again a queue, and nothing else in the state
changes.  On an empty queue it returns the case with `homelessID = -1` and
`priority = -1` and leaves the state, with its empty queue, as it is. -/
theorem getNextEmergency_spec (st : State) (hq : IsQueue st.emergencyHeap) :
    (st.emergencyHeap ≠ [] →
      (getNextEmergency st).1 ∈ st.emergencyHeap ∧
      (∀ x ∈ st.emergencyHeap, x.priority ≤ (getNextEmergency st).1.priority) ∧
      ((getNextEmergency st).1 :: (getNextEmergency st).2.emergencyHeap).Perm
        st.emergencyHeap ∧
      IsQueue (getNextEmergency st).2.emergencyHeap ∧
      (getNextEmergency st).2
        = { st with emergencyHeap := (getNextEmergency st).2.emergencyHeap }) ∧
    (st.emergencyHeap = [] → getNextEmergency st = (⟨-1, -1, 0⟩, st)) := by
  constructor
  · intro hne
    cases hv : st.emergencyHeap with
    | nil => exact absurd hv hne
    | cons top rest =>
      have hheap : IsHeap (top :: rest) := hv ▸ isQueue_isHeap hq
      rw [getNextEmergency_cons hv]
      refine ⟨List.mem_cons_self _ _, ?_, ?_, IsQueue.pop hq, rfl⟩
      · intro x hx
        obtain ⟨i, hi⟩ := List.getElem?_of_mem hx
        exact isHeap_front_max hheap top (List.getElem?_cons_zero) i x hi
      · show (top :: queuePop st.emergencyHeap).Perm (top :: rest)
        rw [hv]
        exact (queuePop_spec top rest hheap).2
  · intro hnil
    unfold getNextEmergency
    rw [hnil]

/-- Witness of C20: four cases of priority 100 pushed in the order of the
requests 1, 2, 3, 4.  The case of request 1 is returned, the queue that
remains has the case of request 3 in front, and no case of the queue has a
greater priority than the one returned. -/
theorem getNextEmergency_spec_witness :
    tiedQueue.emergencyHeap = [⟨1, 100, 0⟩, ⟨2, 100, 0⟩, ⟨3, 100, 0⟩, ⟨4, 100, 0⟩] ∧
      (getNextEmergency tiedQueue).1 = ⟨1, 100, 0⟩ ∧
      (getNextEmergency tiedQueue).2.emergencyHeap
        = [⟨3, 100, 0⟩, ⟨2, 100, 0⟩, ⟨4, 100, 0⟩] ∧
      ∀ x ∈ tiedQueue.emergencyHeap,
        x.priority ≤ (getNextEmergency tiedQueue).1.priority :=
  ⟨by decide, by decide, by decide,
    ((getNextEmergency_spec tiedQueue
      (IsQueue.push ⟨4, 100, 0⟩ (IsQueue.push ⟨3, 100, 0⟩ (IsQueue.push ⟨2, 100, 0⟩
        (IsQueue.push ⟨1, 100, 0⟩ IsQueue.empty))))).1
      (by decide)).2.1⟩


/-! ## Registration, the stored score and the range of the source -/

theorem storeRecord_other (records : Int → Option Homeless) (id k : Int) (h : Homeless)
    (hk : k ≠ id) : storeRecord records id h k = records k := by
  simp [storeRecord, hk]

theorem addHomelessRecord_fails_iff (st : State) (h : Homeless) (now : Int) :
    (addHomelessRecord st h now).1 = false ↔
      ((st.homelessRecords h.id).isSome ∨ h.locationNodeID < 0 ∨
        (st.nodeCount : Int) ≤ h.locationNodeID) := by
  unfold addHomelessRecord
  by_cases h1 : (st.homelessRecords h.id).isSome
  · simp [h1]
  · by_cases h2 : h.locationNodeID < 0 ∨ h.locationNodeID ≥ (st.nodeCount : Int)
    · rw [if_neg h1, if_pos h2]
      simp only [true_iff]
      rcases h2 with h2 | h2
      · exact Or.inr (Or.inl h2)
      · exact Or.inr (Or.inr h2)
    · rw [if_neg h1, if_neg h2]
      simp only [Bool.true_eq_false, false_iff, not_or]
      refine ⟨h1, fun h3 => h2 (Or.inl h3), fun h3 => h2 (Or.inr h3)⟩

theorem addHomelessRecord_success (st : State) (h : Homeless) (now : Int)
    (hok : (addHomelessRecord st h now).1 = true) :
    (addHomelessRecord st h now).2
      = { st with
          homelessRecords := storeRecord st.homelessRecords h.id
            { h with allocated := false, allocatedShelterID := -1, reportedAt := now,
                     priorityScore := 0 },
          homelessList := st.homelessList ++
            [{ h with allocated := false, allocatedShelterID := -1, reportedAt := now,
                      priorityScore := 0 }] } := by
  unfold addHomelessRecord at hok ⊢
  by_cases h1 : (st.homelessRecords h.id).isSome
  · rw [if_pos h1] at hok
    exact absurd hok (by simp)
  · by_cases h2 : h.locationNodeID < 0 ∨ h.locationNodeID ≥ (st.nodeCount : Int)
    · rw [if_neg h1, if_pos h2] at hok
      exact absurd hok (by simp)
    · rw [if_neg h1, if_neg h2]

/-- C23: `addHomelessRecord(h)` returns false exactly when `h.id` is already
a key of the record table or `h.locationNodeID` is outside `[0, nodeCount)`;
then the state, and with it the table, is unchanged.  When it returns true,
`h.id` was not a key, the table maps `h.id` to a record with the id, name,
age, gender, location, medical need and complaint of `h`, with
`allocated = false` and `allocatedShelterID = -1`, and every other key has
the entry it had. -/
theorem addHomelessRecord_spec (st : State) (h : Homeless) (now : Int) :
    ((addHomelessRecord st h now).1 = false ↔
      ((st.homelessRecords h.id).isSome ∨ h.locationNodeID < 0 ∨
        (st.nodeCount : Int) ≤ h.locationNodeID)) ∧
    ((addHomelessRecord st h now).1 = false → (addHomelessRecord st h now).2 = st) ∧
    ((addHomelessRecord st h now).1 = true →
      st.homelessRecords h.id = none ∧
      (∃ rec, (addHomelessRecord st h now).2.homelessRecords h.id = some rec ∧
        rec.id = h.id ∧ rec.name = h.name ∧ rec.age = h.age ∧ rec.gender = h.gender ∧
        rec.locationNodeID = h.locationNodeID ∧ rec.medicalNeed = h.medicalNeed ∧
        rec.complaint = h.complaint ∧ rec.allocated = false ∧
        rec.allocatedShelterID = -1) ∧
      ∀ k, k ≠ h.id →
        (addHomelessRecord st h now).2.homelessRecords k = st.homelessRecords k) := by
  refine ⟨addHomelessRecord_fails_iff st h now, ?_, ?_⟩
  · intro hf
    unfold addHomelessRecord at hf ⊢
    by_cases h1 : (st.homelessRecords h.id).isSome
    · rw [if_pos h1]
    · by_cases h2 : h.locationNodeID < 0 ∨ h.locationNodeID ≥ (st.nodeCount : Int)
      · rw [if_neg h1, if_pos h2]
      · rw [if_neg h1, if_neg h2] at hf
        exact absurd hf (by simp)
  · intro hok
    have hnot : ¬ (addHomelessRecord st h now).1 = false := by simp [hok]
    rw [addHomelessRecord_fails_iff] at hnot
    rw [addHomelessRecord_success st h now hok]
    refine ⟨?_, ?_, ?_⟩
    · cases hr : st.homelessRecords h.id with
      | none => rfl
      | some r => exact absurd (Or.inl (by simp [hr])) hnot
    · exact ⟨_, storeRecord_same _ _ _, rfl, rfl, rfl, rfl, rfl, rfl, rfl, rfl, rfl⟩
    · intro k hk
      exact storeRecord_other _ _ _ _ hk

/-- C28: for a record `h` with a fresh id and a location in `[0, nodeCount)`,
`addHomelessRecord(h)` succeeds and stores the record with `priorityScore`
0 whatever `h.priorityScore` was.  The registration, which calls
`calculatePriority(h)` first, succeeds too: the record it stores has score
0, which differs from the score `calculatePriority(h)` returned whenever
that score is not 0; and when that score is above 80 the case
`(h.id, score, time)` with that score is pushed on the queue, otherwise the
queue is unchanged. -/
theorem registerPerson_score (st : State) (h : Homeless) (now later : Int)
    (hfresh : st.homelessRecords h.id = none)
    (hloc : 0 ≤ h.locationNodeID ∧ h.locationNodeID < (st.nodeCount : Int)) :
    (addHomelessRecord st h now).1 = true ∧
    (∃ rec, (addHomelessRecord st h now).2.homelessRecords h.id = some rec ∧
      rec.priorityScore = 0) ∧
    (registerPerson st h now later).1 = true ∧
    (∃ rec, (registerPerson st h now later).2.homelessRecords h.id = some rec ∧
      rec.priorityScore = 0 ∧
      ((calculatePriority h).1 ≠ 0 → rec.priorityScore ≠ (calculatePriority h).1)) ∧
    ((calculatePriority h).1 > 80 →
      (registerPerson st h now later).2.emergencyHeap
        = queuePush st.emergencyHeap ⟨h.id, (calculatePriority h).1, later⟩) ∧
    ((calculatePriority h).1 ≤ 80 →
      (registerPerson st h now later).2.emergencyHeap = st.emergencyHeap) := by
  have hadd : ∀ h2 : Homeless, h2.id = h.id → h2.locationNodeID = h.locationNodeID →
      (addHomelessRecord st h2 now).1 = true := by
    intro h2 hid hl
    cases hb : (addHomelessRecord st h2 now).1 with
    | true => rfl
    | false =>
      rw [addHomelessRecord_fails_iff, hid, hl, hfresh] at hb
      rcases hb with hb | hb | hb
      · simp at hb
      · omega
      · omega
  have h1 := hadd h rfl rfl
  have h2 := hadd (calculatePriority h).2 rfl rfl
  have e1 := addHomelessRecord_success st h now h1
  have e2 := addHomelessRecord_success st (calculatePriority h).2 now h2
  have hreg : registerPerson st h now later
      = if (calculatePriority h).1 > 80 then
          (true, addEmergencyCase (addHomelessRecord st (calculatePriority h).2 now).2
            ⟨h.id, (calculatePriority h).1, later⟩)
        else (true, (addHomelessRecord st (calculatePriority h).2 now).2) := by
    unfold registerPerson
    simp only [h2, if_true]
    rfl
  refine ⟨h1, ?_, ?_, ?_, ?_, ?_⟩
  · rw [e1]
    exact ⟨_, storeRecord_same _ _ _, rfl⟩
  · rw [hreg]
    split <;> rfl
  · have hrec : ∃ rec, (addHomelessRecord st (calculatePriority h).2 now).2.homelessRecords h.id
          = some rec ∧ rec.priorityScore = 0 := by
      rw [e2]
      exact ⟨_, storeRecord_same _ _ _, rfl⟩
    obtain ⟨rec, hrec, hzero⟩ := hrec
    refine ⟨rec, ?_, hzero, fun hne => by rw [hzero]; exact Ne.symm hne⟩
    rw [hreg]
    split
    · exact hrec
    · exact hrec
  · intro hgt
    rw [hreg, if_pos hgt, e2]
    rfl
  · intro hle
    rw [hreg, if_neg (not_lt.mpr hle), e2]

/-- Witness of C28: `urgentRecord` registered in the one-node state.  Her
computed score is 130; the stored record has score 0 and the queue holds
the case with score 130. -/
theorem registerPerson_score_witness :
    (calculatePriority urgentRecord).1 = 130 ∧
    (∃ rec, (registerPerson (tinyState []) urgentRecord 5 6).2.homelessRecords 8 = some rec ∧
      rec.priorityScore = 0) ∧
    (registerPerson (tinyState []) urgentRecord 5 6).2.emergencyHeap = [⟨8, 130, 6⟩] :=
  have h := registerPerson_score (tinyState []) urgentRecord 5 6 (by decide) (by decide)
  ⟨by decide,
    h.2.2.2.1.elim (fun rec hr => ⟨rec, hr.1, hr.2.1⟩),
    (h.2.2.2.2.1 (by decide)).trans (by decide)⟩

/-- The first access of `dijkstra`, `dist[source] = 0`, is outside the
vector for a source outside `[0, nodeCount)`. -/
theorem dijkstra_out_of_range (g : List (List Edge)) (n : Nat) (source : Int)
    (h : source < 0 ∨ (n : Int) ≤ source) : dijkstra g n source = none := by
  have hnone : getAt (List.replicate n INT_MAX) source = none := by
    cases hg : getAt (List.replicate n INT_MAX) source with
    | none => rfl
    | some x =>
      have := (getAt_isSome_iff (List.replicate n INT_MAX) source).mp (by simp [hg])
      simp only [List.length_replicate] at this
      omega
  unfold dijkstra
  rw [hnone]


/-- C24 (counterexample): on the sample graph of 15 nodes, `dijkstra(15)` and
`dijkstra(-1)` do not report an invalid node: the first statement they
execute, `dist[source] = 0`, is outside the vector of 15 distances, which
the embedding marks by `none`. -/
theorem dijkstra_invalid_source_counterexample :
    getAt (List.replicate 15 INT_MAX) 15 = none ∧ dijkstra sampleGraph 15 15 = none ∧
    getAt (List.replicate 15 INT_MAX) (-1) = none ∧ dijkstra sampleGraph 15 (-1) = none := by
  refine ⟨by decide, ?_, by decide, ?_⟩
  · exact dijkstra_out_of_range _ _ _ (Or.inr (by decide))
  · exact dijkstra_out_of_range _ _ _ (Or.inl (by decide))

theorem distanceLines_spec (dist : List Int) : ∀ shelters : List Shelter,
    (∀ s ∈ shelters, ∃ d, getAt dist s.nodeID = some d) →
    distanceLines dist shelters = some (shelters.map (fun s =>
      (s.name, (getAt dist s.nodeID).bind (fun d => if d = INT_MAX then none else some d)))) := by
  intro shelters
  induction shelters with
  | nil => intro _; rfl
  | cons s rest ih =>
    intro h
    obtain ⟨d, hd⟩ := h s (List.mem_cons_self _ _)
    rw [distanceLines]
    simp only [hd]
    rw [ih (fun x hx => h x (List.mem_cons_of_mem _ hx))]
    simp [hd]

/-- C24 (amended): the range of the source is tested by the caller.  For a
source outside `[0, nodeCount)` the shortest-path query reports an invalid
node and does not call `dijkstra`, which for that source would write
outside the vector of distances; for a source inside the range, a graph of
`nodeCount` adjacency lists with edges that end at nodes and shelters at
nodes, `dijkstra` returns and the query reports, for every shelter, its
name and its distance (`none` for `INT_MAX`). -/
theorem shortestPathAnalysis_guard (st : State) (source : Int) :
    ((source < 0 ∨ (st.nodeCount : Int) ≤ source) →
      shortestPathAnalysis st source = some PathQuery.invalidNode ∧
      dijkstra st.graph st.nodeCount source = none) ∧
    (WellFormed st.graph st.nodeCount → 0 ≤ source → source < (st.nodeCount : Int) →
      (∀ s ∈ st.shelters, 0 ≤ s.nodeID ∧ s.nodeID < (st.nodeCount : Int)) →
      ∃ dist, dijkstra st.graph st.nodeCount source = some dist ∧
        shortestPathAnalysis st source = some (PathQuery.distances (st.shelters.map (fun s =>
          (s.name,
            (getAt dist s.nodeID).bind (fun d => if d = INT_MAX then none else some d)))))) := by
  constructor
  · intro h
    refine ⟨?_, dijkstra_out_of_range _ _ _ h⟩
    unfold shortestPathAnalysis
    rw [if_pos]
    rcases h with h | h
    · exact Or.inl h
    · exact Or.inr h
  · intro hwf h0 h1 hnodes
    obtain ⟨dist, hd⟩ := dijkstra_total hwf h0 h1
    have hlen := (dijkstra_bound hd).2
    refine ⟨dist, hd, ?_⟩
    unfold shortestPathAnalysis
    rw [if_neg (by omega)]
    simp only [hd]
    rw [distanceLines_spec dist st.shelters
      (fun s hs => getAt_isSome_of_range hlen (hnodes s hs).1 (hnodes s hs).2)]
    rfl

/-- With a shelter at the node 99 of a one-node graph the loop of the query
reads `dist[99]` outside the vector, as the scan of `allocateShelter`
does. -/
theorem shortestPathAnalysis_far :
    shortestPathAnalysis farShelter 0 = none ∧ allocateShelter farShelter 7 = none := by
  exact ⟨by decide, by rfl⟩

/-- C22 (counterexample): request 7 is marked allocated to shelter 1, whose
list of occupants is `[8]`; the release reports the release of shelter 1,
lowers `capacityOccupied` from 3 to 2 and clears the allocation of the
request. -/
theorem releasePerson_stray_counterexample :
    strayState.homelessRecords 7
      = some { tinyRecord with allocated := true, allocatedShelterID := 1 } ∧
    strayState.shelters = [⟨1, "A", 0, 5, 3, "", [8]⟩] ∧
    (releasePerson strayState 7).1 = ReleaseOutcome.released 1 ∧
    (releasePerson strayState 7).2.shelters = [⟨1, "A", 0, 5, 2, "", [8]⟩] ∧
    (releasePerson strayState 7).2.homelessRecords 7
      = some { tinyRecord with allocated := false, allocatedShelterID := -1 } := by
  refine ⟨by decide, by decide, by decide, by decide, by decide⟩

/-- C22 (amended): in a state in which the request `id` is marked allocated
to a shelter, `s` is the first shelter of the list with that id and `id` is
not in the list of occupants of `s`, the release does not fail: it reports
the release, leaves the list of occupants of `s` as it is, lowers the
`capacityOccupied` of `s` by one and stores the request as not allocated
with `allocatedShelterID = -1`; nothing else changes. -/
theorem releasePerson_absent (st : State) (id : Int) (rec : Homeless)
    (pre post : List Shelter) (s : Shelter)
    (hrec : st.homelessRecords id = some rec) (hall : rec.allocated = true)
    (hsplit : st.shelters = pre ++ s :: post) (hs : s.id = rec.allocatedShelterID)
    (hpre : ∀ x ∈ pre, x.id ≠ rec.allocatedShelterID)
    (habsent : id ∉ s.allocatedPersonIDs) :
    releasePerson st id = (ReleaseOutcome.released rec.allocatedShelterID,
      { st with
        shelters := pre ++ { s with capacityOccupied := s.capacityOccupied - 1 } :: post,
        homelessRecords := storeRecord st.homelessRecords id
          { rec with allocated := false, allocatedShelterID := -1 } }) := by
  have hv := vacateShelter_split rec.allocatedShelterID id s post pre hpre hs
  rw [List.erase_of_not_mem habsent] at hv
  unfold releasePerson searchHomeless
  rw [hrec]
  simp only [hall, Bool.not_true, Bool.false_eq_true, if_false]
  rw [hsplit, hv]

/-- Witness of C22 (amended): the state of the counterexample. -/
theorem releasePerson_absent_witness :
    releasePerson strayState 7 = (ReleaseOutcome.released 1,
      { strayState with
        shelters := [⟨1, "A", 0, 5, 2, "", [8]⟩],
        homelessRecords := storeRecord strayState.homelessRecords 7
          { tinyRecord with allocated := false, allocatedShelterID := -1 } }) :=
  releasePerson_absent strayState 7 { tinyRecord with allocated := true, allocatedShelterID := 1 }
    [] [] ⟨1, "A", 0, 5, 3, "", [8]⟩ (by decide) rfl rfl rfl (by simp) (by decide)

/-- The selection of a successful allocation: the distances, and the
shelter list split at the shelter the scan selected. -/
theorem allocateShelter_selection {st st2 : State} {id b m : Int}
    (h : allocateShelter st id = some (AllocOutcome.success b m, st2)) :
    ∃ rec distances pre s post,
      st.homelessRecords id = some rec ∧
      dijkstra st.graph st.nodeCount rec.locationNodeID = some distances ∧
      st.shelters = pre ++ s :: post ∧ s.id = b ∧ Candidate distances s m ∧
      (∀ x ∈ pre, ∀ d, Candidate distances x d → m < d) ∧
      (∀ x ∈ post, ∀ d, Candidate distances x d → m ≤ d) := by
  obtain ⟨rec, distances, shelters2, hrec, _, hd, hsel, hb, _, _⟩ := allocateShelter_success h
  rcases selectShelter_spec _ _ _ _ _ _ hsel with ⟨hb2, _, _⟩ |
    ⟨pre, s, post, hsplit, hbs, hcand, _, hpre, hpost⟩
  · exact absurd hb2 hb
  · exact ⟨rec, distances, pre, s, post, hrec, hd, hsplit, hbs.symm, hcand, hpre, hpost⟩

/-- The keyword "eat" is a part of the keyword "threat". -/
theorem eat_in_threat : chars "eat" <:+: chars "threat" :=
  ⟨chars "thr", [], by decide⟩

/-- C29: for every complaint that contains "threat" in any letter case, the
categories `classifyComplaint` finds include "Food" and "Safety", and its
result is their names joined by ", ": the Food keyword "eat" is a part of
"threat".  The complaint "Threat", which contains no Food keyword as a
word, is classified "Food, Safety". -/
theorem classifyComplaint_threat (complaint : String)
    (h : OccursNoCase "threat" complaint) :
    "Food" ∈ matchedCategories complaint ∧ "Safety" ∈ matchedCategories complaint ∧
    classifyComplaint complaint = ", ".intercalate (matchedCategories complaint) ∧
    OccursNoCase "eat" complaint ∧
    classifyComplaint "Threat" = "Food, Safety" := by
  have hthreat : chars "threat" <:+: lowerChars complaint := (occursNoCase_iff _ _).1 h
  have heat : chars "eat" <:+: lowerChars complaint := eat_in_threat.trans hthreat
  have h1 : occursLower "threat" complaint = true := decide_eq_true hthreat
  have h2 : occursLower "eat" complaint = true := decide_eq_true heat
  have hm := matchedCategories_eq complaint
  have hc := classifyComplaint_eq complaint
  rw [h1, h2] at hm hc
  simp only [Bool.or_true, Bool.true_or] at hm hc
  have hfood : "Food" ∈ matchedCategories complaint := by
    rw [hm]; simp [categoryNames]
  refine ⟨hfood, ?_, ?_, (occursNoCase_iff _ _).2 heat, by decide⟩
  · rw [hm]; simp [categoryNames]
  · rw [hc, ← hm]
    have hj := (joinCategories_names true
      (occursLower "medical" complaint || occursLower "sick" complaint ||
        occursLower "medicine" complaint || occursLower "health" complaint ||
        occursLower "doctor" complaint) true
      (occursLower "shelter" complaint || occursLower "bed" complaint ||
        occursLower "sleep" complaint || occursLower "stay" complaint)).2
    rw [← hm] at hj
    rw [hj, if_neg]
    intro hnil
    rw [hnil] at hfood
    exact absurd hfood (List.not_mem_nil _)

/-- Witness of C29: the complaint "A THREAT was made". -/
theorem classifyComplaint_threat_witness :
    "Food" ∈ matchedCategories "A THREAT was made" ∧
    "Safety" ∈ matchedCategories "A THREAT was made" :=
  have h := classifyComplaint_threat "A THREAT was made"
    ⟨chars "THREAT", ⟨chars "A ", chars " was made", by decide⟩, by decide⟩
  ⟨h.1, h.2.1⟩


/-! ## Emergency auto-allocation -/

theorem allocateShelter_keeps {st st2 : State} {id : Int} {r : AllocOutcome}
    (h : allocateShelter st id = some (r, st2)) (hs : Sound st) :
    Sound st2 ∧ st2.emergencyHeap = st.emergencyHeap := by
  by_cases hr : ∀ b m, r ≠ AllocOutcome.success b m
  · rw [allocateShelter_failure h hr]
    exact ⟨hs, rfl⟩
  · have hex : ∃ b m, r = AllocOutcome.success b m := by
      by_contra hno
      exact hr (fun b m hbm => hno ⟨b, m, hbm⟩)
    obtain ⟨b, m, rfl⟩ := hex
    obtain ⟨rec, distances, shelters2, hrec, _, _, _, _, hocc, hst⟩ := allocateShelter_success h
    obtain ⟨pre, s, post, hsplit, _, _, hsh2⟩ := occupyShelter_inv _ _ _ _ hocc
    subst hst
    refine ⟨⟨hs.graph, ?_, ?_⟩, rfl⟩
    · intro k rec2 hk
      by_cases hkid : k = id
      · subst hkid
        have hk2 : storeRecord st.homelessRecords k
            { rec with allocated := true, allocatedShelterID := b } k = some rec2 := hk
        rw [storeRecord_same] at hk2
        rw [← Option.some.inj hk2]
        exact hs.located k rec hrec
      · have hk2 : storeRecord st.homelessRecords id
            { rec with allocated := true, allocatedShelterID := b } k = some rec2 := hk
        rw [storeRecord_other _ _ _ _ hkid] at hk2
        exact hs.located k rec2 hk2
    · intro x hx
      have hx2 : x ∈ pre ++ s.occupy id :: post := by rw [← hsh2]; exact hx
      rcases List.mem_append.1 hx2 with hx3 | hx3
      · exact hs.nodes x (by rw [hsplit]; exact List.mem_append_left _ hx3)
      · rcases List.mem_cons.1 hx3 with rfl | hx3
        · exact hs.nodes s (by rw [hsplit]; simp)
        · exact hs.nodes x (by rw [hsplit]; simp [hx3])

theorem sound_popped {st : State} (hs : Sound st) : Sound (popped st) :=
  ⟨hs.graph, hs.located, hs.nodes⟩

theorem getNextEmergency_popped {st : State} {ec : EmergencyCase} {rest : List EmergencyCase}
    (h : st.emergencyHeap = ec :: rest) : getNextEmergency st = (ec, popped st) := by
  simp only [getNextEmergency, popped, h]

theorem drainLoop_spec : ∀ (fuel : Nat) (st : State) (allocated : Nat), Sound st →
    IsQueue st.emergencyHeap → st.emergencyHeap.length ≤ fuel →
    ∃ n st2 order, drainLoop fuel st allocated = some (allocated + n, st2) ∧
      st2.emergencyHeap = [] ∧ order.Perm st.emergencyHeap ∧
      order.Pairwise (fun a b => b.priority ≤ a.priority) ∧ Drains st order n st2 := by
  intro fuel
  induction fuel with
  | zero =>
    intro st allocated _ _ hlen
    have hnil : st.emergencyHeap = [] := List.length_eq_zero.1 (Nat.le_zero.1 hlen)
    refine ⟨0, st, [], ?_, hnil, by rw [hnil], List.Pairwise.nil, Drains.done hnil⟩
    rw [drainLoop, if_pos hnil]
    rfl
  | succ fuel ih =>
    intro st allocated hs hq hlen
    by_cases hnil : st.emergencyHeap = []
    · refine ⟨0, st, [], ?_, hnil, by rw [hnil], List.Pairwise.nil, Drains.done hnil⟩
      rw [drainLoop, if_pos hnil]
      rfl
    · obtain ⟨ec, rest, hv⟩ : ∃ ec rest, st.emergencyHeap = ec :: rest := by
        cases hv : st.emergencyHeap with
        | nil => exact absurd hv hnil
        | cons ec rest => exact ⟨ec, rest, rfl⟩
      have hheap : IsHeap (ec :: rest) := hv ▸ isQueue_isHeap hq
      have htop : st.emergencyHeap.head? = some ec := by rw [hv]; rfl
      have hpop : (ec :: (popped st).emergencyHeap).Perm st.emergencyHeap := by
        show (ec :: queuePop st.emergencyHeap).Perm st.emergencyHeap
        rw [hv]
        exact (queuePop_spec ec rest hheap).2
      have hq2 : IsQueue (popped st).emergencyHeap := IsQueue.pop hq
      have hmax : ∀ x ∈ st.emergencyHeap, x.priority ≤ ec.priority := by
        intro x hx
        rw [hv] at hx
        obtain ⟨i, hi⟩ := List.getElem?_of_mem hx
        exact isHeap_front_max hheap ec (List.getElem?_cons_zero) i x hi
      have hnext := getNextEmergency_popped hv
      have hlen2 : (popped st).emergencyHeap.length ≤ fuel := by
        have := hpop.length_eq
        simp only [List.length_cons] at this
        omega
      have hperm : ∀ order : List EmergencyCase, order.Perm (popped st).emergencyHeap →
          (ec :: order).Perm st.emergencyHeap := by
        intro order ho
        exact (List.Perm.cons ec ho).trans hpop
      have hsorted : ∀ order : List EmergencyCase, order.Perm (popped st).emergencyHeap →
          order.Pairwise (fun a b => b.priority ≤ a.priority) →
          (ec :: order).Pairwise (fun a b => b.priority ≤ a.priority) := by
        intro order ho hp
        refine List.Pairwise.cons ?_ hp
        intro x hx
        exact hmax x (hpop.subset (List.mem_cons_of_mem _ (ho.subset hx)))
      have hdiscard : (∀ h, searchHomeless st ec.homelessID = some h → h.allocated = true) →
          drainLoop (fuel + 1) st allocated = drainLoop fuel (popped st) allocated →
          ∃ n st2 order, drainLoop (fuel + 1) st allocated = some (allocated + n, st2) ∧
            st2.emergencyHeap = [] ∧ order.Perm st.emergencyHeap ∧
            order.Pairwise (fun a b => b.priority ≤ a.priority) ∧ Drains st order n st2 := by
        intro hgone hstep
        obtain ⟨n, st2, order, hrun, hempty, ho, hp, hd⟩ :=
          ih (popped st) allocated (sound_popped hs) hq2 hlen2
        exact ⟨n, st2, ec :: order, by rw [hstep, hrun], hempty, hperm order ho,
          hsorted order ho hp, Drains.discard htop hgone hd⟩
      cases hrec : searchHomeless st ec.homelessID with
      | none =>
        refine hdiscard (fun h hh => by rw [hrec] at hh; cases hh) ?_
        rw [drainLoop, if_neg hnil]
        simp only [hnext]
        rw [show searchHomeless (popped st) ec.homelessID = none from hrec]
      | some h =>
        by_cases hall : h.allocated = true
        · refine hdiscard (fun h2 hh => by rw [hrec] at hh; cases hh; exact hall) ?_
          rw [drainLoop, if_neg hnil]
          simp only [hnext]
          rw [show searchHomeless (popped st) ec.homelessID = some h from hrec]
          simp [hall]
        · have hfree : h.allocated = false := by simpa using hall
          obtain ⟨r, st1, halloc⟩ := allocateShelter_defined (popped st) ec.homelessID
            hs.graph (fun rec hr => hs.located _ rec hr) hs.nodes
          obtain ⟨hs1, hheap1⟩ := allocateShelter_keeps halloc (sound_popped hs)
          obtain ⟨n, st2, order, hrun, hempty, ho, hp, hd⟩ :=
            ih st1 (allocated + 1) hs1 (by rw [hheap1]; exact hq2) (by rw [hheap1]; exact hlen2)
          rw [hheap1] at ho
          refine ⟨n + 1, st2, ec :: order, ?_, hempty, hperm order ho, hsorted order ho hp,
            Drains.allocate htop hrec hfree halloc hd⟩
          rw [drainLoop, if_neg hnil]
          simp only [hnext]
          rw [show searchHomeless (popped st) ec.homelessID = some h from hrec]
          simp only [hfree, Bool.not_false, if_true, halloc]
          rw [hrun]
          congr 2
          omega

/-- C26 (counterexample): in `lostState` the queue holds the case of the
request 7, which is stored, unallocated, with the location 5 in a graph of
one node.  The loop pops the case and calls `allocateShelter`, whose
`dijkstra(5)` writes outside the vector of distances: the loop does not
come to an end that the embedding can describe (`none`). -/
theorem autoAllocate_counterexample :
    lostState.emergencyHeap = [⟨7, 100, 0⟩] ∧
    lostState.homelessRecords 7 = some { tinyRecord with locationNodeID := 5 } ∧
    lostState.nodeCount = 1 ∧
    allocateShelter (popped lostState) 7 = none ∧
    autoAllocate lostState = none := by
  refine ⟨by decide, by decide, by decide, by rfl, by rfl⟩

/-- C26 (amended): in a state whose graph has `nodeCount` adjacency lists
with edges that end at nodes and whose requests and shelters are at nodes
(the queue being the vector of a `priority_queue`), the auto-allocation
returns with an empty queue.  The cases it popped are the cases of the
queue, in non-increasing order of their priority; a case whose request is
missing or allocated when the case is popped is discarded and changes
nothing but the queue, and `allocateShelter` is called for every other
case, `n` times in all (the relation `Drains`). -/
theorem autoAllocate_spec (st : State) (hs : Sound st) (hq : IsQueue st.emergencyHeap) :
    ∃ n st2 order, autoAllocate st = some (n, st2) ∧ st2.emergencyHeap = [] ∧
      order.Perm st.emergencyHeap ∧
      order.Pairwise (fun a b => b.priority ≤ a.priority) ∧ Drains st order n st2 := by
  obtain ⟨n, st2, order, hrun, hrest⟩ :=
    drainLoop_spec st.emergencyHeap.length st 0 hs hq le_rfl
  refine ⟨n, st2, order, ?_, hrest⟩
  unfold autoAllocate
  rw [hrun, Nat.zero_add]

/-- The states reached from the sample data are sound. -/
theorem reachable_sound {st : State} (h : Reachable st) : Sound st := by
  have hg := reachable_grounded h
  refine ⟨?_, ?_, ?_⟩
  · rw [hg.graph, hg.count]
    exact ⟨rfl, by decide⟩
  · intro id rec hrec
    rw [hg.count]
    exact hg.located id rec hrec
  · intro s hs
    have hmem : s.nodeID ∈ st.shelters.map Shelter.nodeID := List.mem_map_of_mem _ hs
    rw [hg.nodes] at hmem
    rw [hg.count]
    simp only [List.mem_cons, List.mem_singleton, List.not_mem_nil, or_false] at hmem
    rcases hmem with h | h | h | h <;> rw [h] <;> decide

/-- Witness of C26 (amended): the sample data, whose queue holds the cases
of the requests 105, 103 and 102 with the priorities 250, 120 and 160. -/
theorem autoAllocate_spec_witness :
    (initializeSampleData 0).emergencyHeap = [⟨105, 250, 0⟩, ⟨103, 120, 0⟩, ⟨102, 160, 0⟩] ∧
    ∃ n st2 order, autoAllocate (initializeSampleData 0) = some (n, st2) ∧
      st2.emergencyHeap = [] ∧ order.Perm (initializeSampleData 0).emergencyHeap ∧
      order.Pairwise (fun a b => b.priority ≤ a.priority) ∧
      Drains (initializeSampleData 0) order n st2 :=
  have hv : (initializeSampleData 0).emergencyHeap
      = queuePush (queuePush (queuePush [] ⟨102, 160, 0⟩) ⟨103, 120, 0⟩) ⟨105, 250, 0⟩ := by
    decide
  ⟨by decide, autoAllocate_spec (initializeSampleData 0) (reachable_sound (Reachable.init 0))
    (hv ▸ IsQueue.push ⟨105, 250, 0⟩ (IsQueue.push ⟨103, 120, 0⟩
      (IsQueue.push ⟨102, 160, 0⟩ IsQueue.empty)))⟩


/-! ## Merge sort -/

theorem mergeLoop_nil_right : ∀ (k : Nat) (L : List Shelter), L.length ≤ k →
    mergeLoop k L [] = L := by
  intro k
  induction k with
  | zero =>
    intro L h
    have : L = [] := List.length_eq_zero.1 (Nat.le_zero.1 h)
    subst this
    rfl
  | succ k ih =>
    intro L h
    cases L with
    | nil => rfl
    | cons l L =>
      rw [mergeLoop, ih L (by simpa using h)]

theorem mergeLoop_nil_left : ∀ (k : Nat) (R : List Shelter), R.length ≤ k →
    mergeLoop k [] R = R := by
  intro k
  induction k with
  | zero =>
    intro R h
    have : R = [] := List.length_eq_zero.1 (Nat.le_zero.1 h)
    subst this
    rfl
  | succ k ih =>
    intro R h
    cases R with
    | nil => rfl
    | cons r R =>
      rw [mergeLoop, ih R (by simpa using h)]

theorem withAvailable_cons (a : Int) (s : Shelter) (l : List Shelter) :
    withAvailable a (s :: l)
      = (if s.available = a then [s] else []) ++ withAvailable a l := by
  unfold withAvailable
  by_cases h : s.available = a
  · simp [List.filter_cons, h]
  · simp [List.filter_cons, h]

theorem withAvailable_append (a : Int) (l1 l2 : List Shelter) :
    withAvailable a (l1 ++ l2) = withAvailable a l1 ++ withAvailable a l2 := by
  unfold withAvailable
  exact List.filter_append _ _

theorem withAvailable_nil_of_lt (a : Int) (l : List Shelter)
    (h : ∀ x ∈ l, x.available < a) : withAvailable a l = [] := by
  unfold withAvailable
  rw [List.filter_eq_nil_iff]
  intro x hx
  have := h x hx
  simp only [decide_eq_true_eq]
  omega

/-- The loops of `merge` on two copies in non-increasing order of available
capacity: the output is a permutation of both, in non-increasing order, and
for every capacity the elements of `L` come before those of `R`. -/
theorem mergeLoop_spec : ∀ (k : Nat) (L R : List Shelter), L.length + R.length ≤ k →
    L.Pairwise (fun x y => y.available ≤ x.available) →
    R.Pairwise (fun x y => y.available ≤ x.available) →
    (mergeLoop k L R).Perm (L ++ R) ∧
    (mergeLoop k L R).Pairwise (fun x y => y.available ≤ x.available) ∧
    ∀ a, withAvailable a (mergeLoop k L R) = withAvailable a L ++ withAvailable a R := by
  intro k
  induction k with
  | zero =>
    intro L R h _ _
    have hL : L = [] := List.length_eq_zero.1 (by omega)
    have hR : R = [] := List.length_eq_zero.1 (by omega)
    subst hL hR
    exact ⟨List.Perm.refl _, List.Pairwise.nil, fun a => rfl⟩
  | succ k ih =>
    intro L R h hL hR
    cases L with
    | nil =>
      rw [mergeLoop_nil_left (k + 1) R (by simpa using h)]
      exact ⟨by simp, hR, fun a => by simp [withAvailable]⟩
    | cons l L =>
      cases R with
      | nil =>
        rw [mergeLoop_nil_right (k + 1) (l :: L) (by simpa using h)]
        exact ⟨by simp, hL, fun a => by simp [withAvailable]⟩
      | cons r R =>
        have hlen : (l :: L).length + (r :: R).length ≤ k + 1 := h
        simp only [List.length_cons] at hlen
        obtain ⟨hl, hL2⟩ := List.pairwise_cons.1 hL
        obtain ⟨hr, hR2⟩ := List.pairwise_cons.1 hR
        by_cases hge : l.available ≥ r.available
        · have hstep : mergeLoop (k + 1) (l :: L) (r :: R) = l :: mergeLoop k L (r :: R) := by
            rw [mergeLoop, if_pos hge]
          obtain ⟨hp, hs, hf⟩ := ih L (r :: R) (by simp only [List.length_cons]; omega) hL2 hR
          rw [hstep]
          refine ⟨List.Perm.cons l hp, List.pairwise_cons.2 ⟨?_, hs⟩, ?_⟩
          · intro x hx
            rcases List.mem_append.1 (hp.subset hx) with hx | hx
            · exact hl x hx
            · rcases List.mem_cons.1 hx with rfl | hx
              · exact hge
              · exact le_trans (hr x hx) hge
          · intro a
            rw [withAvailable_cons, hf a, withAvailable_cons a l L, List.append_assoc]
        · have hlt : l.available < r.available := by omega
          have hstep : mergeLoop (k + 1) (l :: L) (r :: R) = r :: mergeLoop k (l :: L) R := by
            rw [mergeLoop, if_neg hge]
          obtain ⟨hp, hs, hf⟩ := ih (l :: L) R (by simp only [List.length_cons]; omega) hL hR2
          rw [hstep]
          refine ⟨?_, List.pairwise_cons.2 ⟨?_, hs⟩, ?_⟩
          · exact (List.Perm.cons r hp).trans List.perm_middle.symm
          · intro x hx
            rcases List.mem_append.1 (hp.subset hx) with hx | hx
            · rcases List.mem_cons.1 hx with rfl | hx
              · exact le_of_lt hlt
              · exact le_trans (hl x hx) (le_of_lt hlt)
            · exact hr x hx
          · intro a
            rw [withAvailable_cons, hf a, withAvailable_cons a r R]
            by_cases hra : r.available = a
            · have hnil : withAvailable a (l :: L) = [] := by
                apply withAvailable_nil_of_lt
                intro x hx
                rcases List.mem_cons.1 hx with rfl | hx
                · omega
                · have := hl x hx
                  omega
              rw [hnil]
              simp
            · simp [hra]

/-- The function `merge` on a vector cut into `pre`, the two ranges `L` and
`R`, and `post`. -/
theorem merge_split (pre L R post : List Shelter) (hL : L ≠ []) :
    merge (pre ++ L ++ R ++ post) pre.length (pre.length + L.length - 1)
        (pre.length + L.length - 1 + R.length)
      = some (pre ++ mergeLoop (L.length + R.length) L R ++ post) := by
  have hLpos : 0 < L.length := List.length_pos.2 hL
  have hn1 : pre.length + L.length - 1 - pre.length + 1 = L.length := by omega
  have hn2 : pre.length + L.length - 1 + R.length - (pre.length + L.length - 1) = R.length := by
    omega
  have hmid : pre.length + L.length - 1 + 1 = (pre ++ L).length := by
    rw [List.length_append]; omega
  have hend : pre.length + L.length + R.length = (pre ++ L ++ R).length := by
    simp only [List.length_append]
  unfold merge
  simp only [hn1, hn2]
  rw [if_pos (by simp only [List.length_append]; omega)]
  have e1 : (pre ++ L ++ R ++ post).take pre.length = pre := by
    rw [List.append_assoc, List.append_assoc]
    exact List.take_left' rfl
  have e2 : ((pre ++ L ++ R ++ post).drop pre.length).take L.length = L := by
    rw [List.append_assoc, List.append_assoc, List.drop_left' rfl]
    exact List.take_left' rfl
  have e3 : ((pre ++ L ++ R ++ post).drop (pre.length + L.length - 1 + 1)).take R.length
      = R := by
    rw [hmid, List.append_assoc (pre ++ L), List.drop_left' rfl]
    exact List.take_left' rfl
  have e4 : (pre ++ L ++ R ++ post).drop (pre.length + L.length + R.length) = post := by
    rw [hend]
    exact List.drop_left' rfl
  rw [e1, e2, e3, e4]


/-- The function `mergeSort` on the range `seg` of a vector cut into `pre`,
`seg` and `post`, with a depth bound of at least `seg.length - 1`: it
returns, the range holds a permutation of `seg` in non-increasing order of
available capacity with the elements of every capacity in their order, and
the rest of the vector is as it was. -/
theorem mergeSort_range : ∀ (fuel : Nat) (pre seg post : List Shelter), seg ≠ [] →
    seg.length ≤ fuel + 1 →
    ∃ out, mergeSort fuel (pre ++ seg ++ post) pre.length (pre.length + seg.length - 1)
        = some (pre ++ out ++ post) ∧
      out.Perm seg ∧ out.Pairwise (fun x y => y.available ≤ x.available) ∧
      ∀ a, withAvailable a out = withAvailable a seg := by
  intro fuel
  induction fuel with
  | zero =>
    intro pre seg post hne hlen
    have hpos : 0 < seg.length := List.length_pos.2 hne
    have h1 : seg.length = 1 := by omega
    obtain ⟨x, rfl⟩ := List.length_eq_one.1 h1
    refine ⟨[x], ?_, List.Perm.refl _, List.pairwise_singleton _ _, fun a => rfl⟩
    rw [mergeSort, if_neg (by simp)]
  | succ fuel ih =>
    intro pre seg post hne hlen
    have hpos : 0 < seg.length := List.length_pos.2 hne
    by_cases h1 : seg.length = 1
    · obtain ⟨x, rfl⟩ := List.length_eq_one.1 h1
      refine ⟨[x], ?_, List.Perm.refl _, List.pairwise_singleton _ _, fun a => rfl⟩
      rw [mergeSort, if_neg (by simp)]
    · have hlt : pre.length < pre.length + seg.length - 1 := by omega
      have hsplit : seg = seg.take ((seg.length - 1) / 2 + 1) ++ seg.drop ((seg.length - 1) / 2 + 1) :=
        (List.take_append_drop _ _).symm
      have hL0len : (seg.take ((seg.length - 1) / 2 + 1)).length = (seg.length - 1) / 2 + 1 := by
        rw [List.length_take]; omega
      have hR0len : (seg.drop ((seg.length - 1) / 2 + 1)).length
          = seg.length - ((seg.length - 1) / 2 + 1) := List.length_drop _ _
      generalize hL0 : seg.take ((seg.length - 1) / 2 + 1) = L0 at hsplit hL0len
      generalize hR0 : seg.drop ((seg.length - 1) / 2 + 1) = R0 at hsplit hR0len
      have hL0ne : L0 ≠ [] := by
        intro h; rw [h] at hL0len; simp at hL0len
      have hR0ne : R0 ≠ [] := by
        intro h; rw [h] at hR0len; simp at hR0len; omega
      have hmid : pre.length + (pre.length + seg.length - 1 - pre.length) / 2
          = pre.length + L0.length - 1 := by
        rw [hL0len]
        have : pre.length + seg.length - 1 - pre.length = seg.length - 1 := by omega
        rw [this]; omega
      obtain ⟨L1, hrun1, hp1, hs1, hf1⟩ := ih pre L0 (R0 ++ post) hL0ne (by omega)
      obtain ⟨R1, hrun2, hp2, hs2, hf2⟩ := ih (pre ++ L1) R0 post hR0ne (by omega)
      have hL1len : L1.length = L0.length := hp1.length_eq
      have hR1len : R1.length = R0.length := hp2.length_eq
      have hL1ne : L1 ≠ [] := by
        intro h; rw [h] at hL1len; simp at hL1len; omega
      have hmerge := merge_split pre L1 R1 post hL1ne
      obtain ⟨hp, hs, hf⟩ := mergeLoop_spec (L1.length + R1.length) L1 R1 le_rfl hs1 hs2
      refine ⟨mergeLoop (L1.length + R1.length) L1 R1, ?_, ?_, hs, ?_⟩
      · rw [mergeSort, if_pos hlt]
        simp only [hmid]
        have ea : pre ++ seg ++ post = pre ++ L0 ++ (R0 ++ post) := by
          rw [hsplit]; simp only [List.append_assoc]
        rw [ea, hrun1]
        simp only []
        have eb : pre ++ L1 ++ (R0 ++ post) = pre ++ L1 ++ R0 ++ post := by
          simp only [List.append_assoc]
        have ei1 : pre.length + L0.length - 1 + 1 = (pre ++ L1).length := by
          rw [List.length_append]; omega
        have ei2 : pre.length + seg.length - 1 = (pre ++ L1).length + R0.length - 1 := by
          rw [List.length_append]; omega
        rw [eb, ei1, ei2, hrun2]
        simp only []
        have ei3 : (pre ++ L1).length + R0.length - 1 = pre.length + L1.length - 1 + R1.length := by
          rw [List.length_append]; omega
        have ei4 : pre.length + L0.length - 1 = pre.length + L1.length - 1 := by omega
        rw [ei3, ei4]
        exact hmerge
      · have : (L1 ++ R1).Perm seg := by
          rw [hsplit]
          exact List.Perm.append hp1 hp2
        exact hp.trans this
      · intro a
        rw [hf a, hf1 a, hf2 a, ← withAvailable_append, ← hsplit]

/-- C30: for every non-empty shelter list `arr`, `mergeSort(arr, 0, size-1)`
returns (a recursion depth of `size` is enough), and the list it leaves is a
permutation of `arr` in non-increasing order of available capacity in
which, for every value of the available capacity, the shelters of that
capacity are in the order they had in `arr`.  `sortSheltersByCapacity`
stores that list as the shelter list. -/
theorem mergeSort_sorts (arr : List Shelter) (hne : arr ≠ []) :
    ∃ out, mergeSort arr.length arr 0 (arr.length - 1) = some out ∧
      out.Perm arr ∧ out.Pairwise (fun x y => y.available ≤ x.available) ∧
      (∀ a, withAvailable a out = withAvailable a arr) ∧
      ∀ st : State, st.shelters = arr →
        sortSheltersByCapacity st = some { st with shelters := out } := by
  obtain ⟨out, hrun, hp, hs, hf⟩ := mergeSort_range arr.length [] arr [] hne (Nat.le_succ _)
  simp only [List.nil_append, List.append_nil, List.length_nil, Nat.zero_add] at hrun
  refine ⟨out, hrun, hp, hs, hf, ?_⟩
  intro st hst
  unfold sortSheltersByCapacity
  rw [hst, if_neg hne, hrun]
  rfl

/-- Witness of C30: the four shelters of the sample data, whose available
capacities are 15, 12, 15, 15. -/
theorem mergeSort_sorts_witness :
    sampleShelters.map Shelter.available = [15, 12, 15, 15] ∧
    ∃ out, mergeSort 4 sampleShelters 0 3 = some out ∧
      out.Perm sampleShelters ∧ out.Pairwise (fun x y => y.available ≤ x.available) ∧
      (∀ a, withAvailable a out = withAvailable a sampleShelters) ∧
      ∀ st : State, st.shelters = sampleShelters →
        sortSheltersByCapacity st = some { st with shelters := out } :=
  ⟨by decide, mergeSort_sorts sampleShelters (by decide)⟩


/-! ## Depth-first search -/

theorem reach_refl (g : List (List Edge)) (u : Int) : Reach g u u := ⟨0, 0, Path.start⟩

theorem reach_trans {g : List (List Edge)} {u v w : Int} (h1 : Reach g u v)
    (h2 : Reach g v w) : Reach g u w := by
  obtain ⟨d1, k1, p1⟩ := h1
  obtain ⟨d2, k2, p2⟩ := h2
  exact ⟨_, _, path_append p1 p2⟩

theorem reach_edge {g : List (List Edge)} {u v w : Int} (h : HasEdge g u v w) :
    Reach g u v := ⟨_, _, Path.step Path.start h⟩

theorem count_false_set : ∀ (l : List Bool) (k : Nat), l[k]? = some false →
    (l.set k true).count false + 1 = l.count false := by
  intro l
  induction l with
  | nil => intro k h; simp at h
  | cons b l ih =>
    intro k h
    cases k with
    | zero =>
      simp only [List.getElem?_cons_zero, Option.some.injEq] at h
      subst h
      simp
    | succ k =>
      simp only [List.getElem?_cons_succ] at h
      have := ih k h
      cases b <;> simp [List.set_cons_succ, List.count_cons] <;> omega

theorem count_false_setAt {l : List Bool} {i : Int} (h : getAt l i = some false) :
    (setAt l i true).count false + 1 = l.count false := by
  obtain ⟨k, rfl, hk⟩ := (getAt_some_iff _ _ _).1 h
  rw [setAt_natCast]
  exact count_false_set l k hk

theorem dfsPost_refl (g : List (List Edge)) {n : Nat} {visited : List Bool}
    (hlen : visited.length = n) : DfsPost g n [] visited visited :=
  ⟨hlen, fun _ h => h, le_rfl, fun s hs => absurd hs (List.not_mem_nil s), fun _ h => Or.inl h,
    fun _ h hn => absurd h hn⟩

/-- The loop of `dfsUtil` over a list of edges, for a recursive call that
does its work whenever at most `bound` nodes are unmarked. -/
theorem dfsEdges_spec {g : List (List Edge)} {n : Nat}
    (visit : Int → List Bool × List Int → Option (List Bool × List Int)) (bound : Nat)
    (hvisit : ∀ node visited order, visited.length = n → getAt visited node = some false →
      visited.count false ≤ bound →
      ∃ visited2 order2, visit node (visited, order) = some (visited2, order2) ∧
        DfsPost g n [node] visited visited2) :
    ∀ (es : List Edge) (visited : List Bool) (order : List Int),
      (∀ e ∈ es, 0 ≤ e.dest ∧ e.dest < (n : Int)) → visited.length = n →
      visited.count false ≤ bound →
      ∃ visited2 order2, dfsEdges visit es (visited, order) = some (visited2, order2) ∧
        DfsPost g n (es.map Edge.dest) visited visited2 := by
  intro es
  induction es with
  | nil =>
    intro visited order _ hlen _
    exact ⟨visited, order, rfl, dfsPost_refl g hlen⟩
  | cons e es ih =>
    intro visited order hes hlen hcount
    have he := hes e (List.mem_cons_self _ _)
    have hes2 : ∀ x ∈ es, 0 ≤ x.dest ∧ x.dest < (n : Int) :=
      fun x hx => hes x (List.mem_cons_of_mem _ hx)
    obtain ⟨b, hb⟩ := getAt_isSome_of_range hlen he.1 he.2
    cases b with
    | true =>
      obtain ⟨visited2, order2, hrun, P⟩ := ih visited order hes2 hlen hcount
      refine ⟨visited2, order2, ?_, ?_⟩
      · rw [dfsEdges]
        simp only [hb]
        exact hrun
      · refine ⟨P.length, P.mono, P.count, ?_, ?_, P.closed⟩
        · intro s hs
          rcases List.mem_cons.1 hs with rfl | hs
          · exact P.mono _ hb
          · exact P.reached s hs
        · intro v hv
          rcases P.sound v hv with h | ⟨s, hs, hr⟩
          · exact Or.inl h
          · exact Or.inr ⟨s, List.mem_cons_of_mem _ hs, hr⟩
    | false =>
      obtain ⟨visited1, order1, hrun1, Q⟩ := hvisit e.dest visited order hlen hb hcount
      obtain ⟨visited2, order2, hrun2, P⟩ :=
        ih visited1 order1 hes2 Q.length (le_trans Q.count hcount)
      refine ⟨visited2, order2, ?_, ?_⟩
      · rw [dfsEdges]
        simp only [hb, hrun1]
        exact hrun2
      · refine ⟨P.length, fun v h => P.mono v (Q.mono v h), le_trans P.count Q.count, ?_, ?_, ?_⟩
        · intro s hs
          rcases List.mem_cons.1 hs with rfl | hs
          · exact P.mono _ (Q.reached _ (List.mem_singleton.2 rfl))
          · exact P.reached s hs
        · intro v hv
          rcases P.sound v hv with h | ⟨s, hs, hr⟩
          · rcases Q.sound v h with h2 | ⟨s, hs, hr⟩
            · exact Or.inl h2
            · rw [List.mem_singleton.1 hs] at hr
              exact Or.inr ⟨e.dest, List.mem_cons_self _ _, hr⟩
          · exact Or.inr ⟨s, List.mem_cons_of_mem _ hs, hr⟩
        · intro u hu hn v w hedge
          by_cases h1 : Marked visited1 u
          · exact P.mono v (Q.closed u h1 hn v w hedge)
          · exact P.closed u hu h1 v w hedge

/-- The function `dfsUtil` called for an unmarked node with a depth bound of
at least the number of unmarked nodes returns, and what it has done is
`DfsPost`. -/
theorem dfsUtil_spec {g : List (List Edge)} {n : Nat} (hwf : WellFormed g n) :
    ∀ (fuel : Nat) (node : Int) (visited : List Bool) (order : List Int),
      visited.length = n → getAt visited node = some false → visited.count false ≤ fuel →
      ∃ visited2 order2, dfsUtil g fuel node (visited, order) = some (visited2, order2) ∧
        DfsPost g n [node] visited visited2 := by
  intro fuel
  induction fuel with
  | zero =>
    intro node visited order _ hnode hcount
    have hpos : 0 < visited.count false := List.count_pos_iff.2 (getAt_mem hnode)
    omega
  | succ fuel ih =>
    intro node visited order hlen hnode hcount
    obtain ⟨h0, h1⟩ := getAt_range hlen hnode
    obtain ⟨adj, hadj⟩ := getAt_isSome_of_range hwf.1 h0 h1
    have hset := count_false_setAt hnode
    have hsome : (getAt visited node).isSome := by rw [hnode]; rfl
    obtain ⟨visited2, order2, hrun, P⟩ :=
      dfsEdges_spec (dfsUtil g fuel) fuel ih adj (setAt visited node true) (order ++ [node])
        (hwf.2 adj (getAt_mem hadj)) (by rw [length_setAt]; exact hlen) (by omega)
    refine ⟨visited2, order2, ?_, ?_⟩
    · rw [dfsUtil]
      simp only [hnode, hadj]
      exact hrun
    · have hkeep : ∀ v, v ≠ node → getAt (setAt visited node true) v = getAt visited v :=
        fun v hv => getAt_setAt_ne true (Ne.symm hv)
      have hself : Marked (setAt visited node true) node := getAt_setAt_self true hsome
      refine ⟨P.length, ?_, by have := P.count; omega, ?_, ?_, ?_⟩
      · intro v hv
        apply P.mono
        by_cases hvn : v = node
        · rw [hvn]; exact hself
        · show getAt (setAt visited node true) v = some true
          rw [hkeep v hvn]; exact hv
      · intro s hs
        rw [List.mem_singleton.1 hs]
        exact P.mono node hself
      · intro v hv
        rcases P.sound v hv with h | ⟨s, hs, hr⟩
        · by_cases hvn : v = node
          · exact Or.inr ⟨node, List.mem_singleton.2 rfl, hvn ▸ reach_refl g node⟩
          · left
            show getAt visited v = some true
            rw [← hkeep v hvn]; exact h
        · obtain ⟨e, he, rfl⟩ := List.mem_map.1 hs
          have hedge : HasEdge g node e.dest e.weight := ⟨adj, hadj, he⟩
          exact Or.inr ⟨node, List.mem_singleton.2 rfl, reach_trans (reach_edge hedge) hr⟩
      · intro u hu hn v w hedge
        by_cases hun : u = node
        · obtain ⟨adj2, hadj2, hmem⟩ := hedge
          rw [hun, hadj] at hadj2
          rw [← Option.some.inj hadj2] at hmem
          exact P.reached v (List.mem_map.2 ⟨_, hmem, rfl⟩)
        · refine P.closed u hu ?_ v w hedge
          intro hm
          apply hn
          show getAt visited u = some true
          rw [← hkeep u hun]; exact hm

theorem connectedLoop_spec (visited : List Bool) {n : Nat} (hlen : visited.length = n) :
    ∀ (shelters : List Shelter) (allConnected : Bool),
      (∀ s ∈ shelters, 0 ≤ s.nodeID ∧ s.nodeID < (n : Int)) →
      ∃ b, connectedLoop visited shelters allConnected = some b ∧
        (b = true ↔ allConnected = true ∧ ∀ s ∈ shelters, Marked visited s.nodeID) := by
  intro shelters
  induction shelters with
  | nil =>
    intro allConnected _
    exact ⟨allConnected, rfl, by simp⟩
  | cons s rest ih =>
    intro allConnected hs
    have hs1 := hs s (List.mem_cons_self _ _)
    obtain ⟨v, hv⟩ := getAt_isSome_of_range hlen hs1.1 hs1.2
    obtain ⟨b, hrun, hb⟩ := ih (if !v then false else allConnected)
      (fun x hx => hs x (List.mem_cons_of_mem _ hx))
    refine ⟨b, ?_, ?_⟩
    · rw [connectedLoop]
      simp only [hv]
      exact hrun
    · rw [hb]
      cases v with
      | true =>
        simp only [Bool.not_true, Bool.false_eq_true, if_false, List.mem_cons, forall_eq_or_imp]
        constructor
        · rintro ⟨h1, h2⟩
          exact ⟨h1, hv, h2⟩
        · rintro ⟨h1, _, h2⟩
          exact ⟨h1, h2⟩
      | false =>
        simp only [Bool.not_false, if_true, Bool.false_eq_true, false_and, false_iff, not_and]
        intro _ hall
        have hm : Marked visited s.nodeID := hall s (List.mem_cons_self _ _)
        rw [Marked, hv] at hm
        cases hm

/-- After a search from `start` over unmarked nodes the marked nodes are the
nodes reachable from `start`. -/
theorem dfsPost_marks {g : List (List Edge)} {n : Nat} {start : Int}
    {visited2 : List Bool} (P : DfsPost g n [start] (List.replicate n false) visited2)
    (v : Int) : Marked visited2 v ↔ Reach g start v := by
  have hnone : ∀ u, ¬ Marked (List.replicate n false) u := by
    intro u hu
    have := getAt_replicate hu
    cases this
  constructor
  · intro hv
    rcases P.sound v hv with h | ⟨s, hs, hr⟩
    · exact absurd h (hnone v)
    · rw [List.mem_singleton.1 hs] at hr
      exact hr
  · rintro ⟨d, k, hp⟩
    induction hp with
    | start => exact P.reached start (List.mem_singleton.2 rfl)
    | step _ hedge ih => exact P.closed _ ih (hnone _) _ _ hedge

/-- C25: for a graph of `nodeCount` adjacency lists whose edges end at nodes
and shelters at nodes, `checkShelterConnectivity` returns true when there is
no shelter; otherwise `dfsUtil` started at the node of the first shelter
returns (a recursion depth of `nodeCount + 1` is enough) with exactly the
nodes marked that a directed path from that node reaches, and
`checkShelterConnectivity` returns true exactly when the node of every
shelter is reachable by a directed path from the node of the first
shelter. -/
theorem checkShelterConnectivity_spec (st : State)
    (hwf : WellFormed st.graph st.nodeCount)
    (hnodes : ∀ s ∈ st.shelters, 0 ≤ s.nodeID ∧ s.nodeID < (st.nodeCount : Int)) :
    (st.shelters = [] → checkShelterConnectivity st = some true) ∧
    (∀ first rest, st.shelters = first :: rest →
      (∃ visited order,
        dfsUtil st.graph (st.nodeCount + 1) first.nodeID
          (List.replicate st.nodeCount false, []) = some (visited, order) ∧
        ∀ v, getAt visited v = some true ↔ Reach st.graph first.nodeID v) ∧
      ∃ b, checkShelterConnectivity st = some b ∧
        (b = true ↔ ∀ s ∈ st.shelters, Reach st.graph first.nodeID s.nodeID)) := by
  constructor
  · intro hnil
    unfold checkShelterConnectivity
    rw [hnil]
  · intro first rest hsh
    have hfirst := hnodes first (by rw [hsh]; exact List.mem_cons_self _ _)
    have hlen : (List.replicate st.nodeCount false).length = st.nodeCount :=
      List.length_replicate _ _
    obtain ⟨b0, hb0⟩ := getAt_isSome_of_range hlen hfirst.1 hfirst.2
    have hb0f : b0 = false := getAt_replicate hb0
    subst hb0f
    obtain ⟨visited, order, hrun, P⟩ :=
      dfsUtil_spec hwf (st.nodeCount + 1) first.nodeID (List.replicate st.nodeCount false) []
        hlen hb0 (by rw [List.count_replicate_self]; omega)
    have hmarks := dfsPost_marks P
    refine ⟨⟨visited, order, hrun, hmarks⟩, ?_⟩
    obtain ⟨b, hloop, hb⟩ := connectedLoop_spec visited P.length st.shelters true hnodes
    refine ⟨b, ?_, ?_⟩
    · rw [hsh] at hloop
      unfold checkShelterConnectivity
      rw [hsh]
      simp only [hrun]
      exact hloop
    · rw [hb]
      constructor
      · rintro ⟨_, h⟩ s hs
        exact (hmarks _).1 (h s hs)
      · intro h
        exact ⟨rfl, fun s hs => (hmarks _).2 (h s hs)⟩

/-- Witness of C25: the sample data, whose four shelters are connected. -/
theorem checkShelterConnectivity_spec_witness :
    checkShelterConnectivity (initializeSampleData 0) = some true ∧
    ∀ s ∈ (initializeSampleData 0).shelters,
      Reach (initializeSampleData 0).graph 4 s.nodeID := by
  have h := (checkShelterConnectivity_spec (initializeSampleData 0) ⟨rfl, by decide⟩
    (by decide)).2 ⟨1, "Hope Shelter", 4, 50, 35, "9876543210", []⟩ _ rfl
  obtain ⟨b, hb, hiff⟩ := h.2
  have hrun : checkShelterConnectivity (initializeSampleData 0) = some true := by decide
  rw [hrun] at hb
  exact ⟨hrun, hiff.1 (Option.some.inj hb).symm⟩

end ShelterSys
